import Mathlib

/-!
# Verification of the braided resource-orchestration core

This development gives a shallow embedding, in Lean 4, of the core of the
braided library: dependency normalization (`src/dependencies.ts`), the
Kahn-style topological sorter (`src/topological-sort.ts`), the topology
builder (`src/topology.ts`), and the start/halt orchestrator
(`src/system.ts`), together with theorems settling the specification's
claims about them.

Modelling conventions:

* Resource ids are Lean `String`s.  JavaScript objects keyed by resource
  ids are modelled as association lists in insertion order (`List (RId × α)`),
  which matches JavaScript's enumeration order for non-array-index string
  keys; updating an existing key keeps its position, adding a new key
  appends.
* JavaScript runtime values produced by resources are modelled by the
  small universe `JsValue` (enough to express truthiness, which the halt
  pass tests); errors by the inductive `RError`, whose `wrapped`
  constructor models `new Error(msg)` with a `cause`.
* Resource operations (`assert` / `start` / `halt`) are opaque callbacks
  supplied by the caller; they are modelled as pure Lean functions
  returning `Except RError _` (a thrown error becomes `.error`).  The
  orchestrator models additionally record a trace of operation
  invocations in their result; the trace is output-only instrumentation
  used by the statements "operation X was (never) invoked".
-/

set_option maxHeartbeats 1000000

namespace Braided

/-- Resource identifiers (non-empty strings in the library; the contents
of the string never matter to the core). -/
abbrev RId := String

/-- JavaScript `Error` values as the core creates and records them:
either a bare error with a message, or an error with a message and a
`cause` (as built by `error.cause = underlying`). -/
inductive RError where
  | mk (message : String)
  | wrapped (message : String) (cause : RError)
deriving DecidableEq, Repr

/-- The `message` property of an error. -/
def RError.message : RError → String
  | .mk m => m
  | .wrapped m _ => m

/-- A small universe of JavaScript runtime values, enough to model the
opaque instances resources produce (the core only ever tests their
truthiness). -/
inductive JsValue where
  | undef
  | null
  | bool (b : Bool)
  | num (n : Int)
  | str (s : String)
  | obj (tag : Nat)
deriving DecidableEq, Repr

/-- JavaScript truthiness: `undefined`, `null`, `false`, `0` and `""`
are falsy, everything else (in our universe) is truthy. -/
def JsValue.truthy : JsValue → Bool
  | .undef => false
  | .null => false
  | .bool b => b
  | .num n => n != 0
  | .str s => s != ""
  | .obj _ => true

/-! ## Association lists modelling JavaScript objects / Maps -/

/-- Keys of an association list, in insertion order
(`Object.keys`). -/
def alKeys (l : List (RId × α)) : List RId := l.map Prod.fst

/-- Lookup of the first binding of a key (`obj[k]`, as `Option`). -/
def alGet (l : List (RId × α)) (k : RId) : Option α :=
  match l with
  | [] => none
  | (k', v) :: rest => if k' = k then some v else alGet rest k

/-- `obj[k] = v` on a JavaScript object: updates the first binding in
place if the key is present, otherwise appends the new binding. -/
def alSet (l : List (RId × α)) (k : RId) (v : α) : List (RId × α) :=
  match l with
  | [] => [(k, v)]
  | (k', v') :: rest =>
      if k' = k then (k', v) :: rest else (k', v') :: alSet rest k v

/-- `k in obj`. -/
def alHas (l : List (RId × α)) (k : RId) : Bool := (alGet l k).isSome

@[simp] theorem alKeys_nil : alKeys ([] : List (RId × α)) = [] := rfl

@[simp] theorem alKeys_cons (p : RId × α) (l : List (RId × α)) :
    alKeys (p :: l) = p.1 :: alKeys l := rfl

@[simp] theorem alGet_nil (k : RId) : alGet ([] : List (RId × α)) k = none := rfl

theorem alGet_cons (k k' : RId) (v : α) (l : List (RId × α)) :
    alGet ((k', v) :: l) k = if k' = k then some v else alGet l k := rfl

theorem alKeys_alSet (l : List (RId × α)) (k : RId) (v : α) :
    alKeys (alSet l k v) = if alHas l k then alKeys l else alKeys l ++ [k] := by
  induction l with
  | nil => simp [alSet, alHas]
  | cons p rest ih =>
      obtain ⟨k', v'⟩ := p
      by_cases hk : k' = k
      · simp [alSet, alHas, alGet, hk]
      · simp only [alSet, if_neg hk, alKeys_cons, alHas, alGet, hk, if_false] at *
        rw [ih]
        by_cases h : alHas rest k <;> simp [alHas] at h <;> simp [h]

theorem alGet_alSet_self (l : List (RId × α)) (k : RId) (v : α) :
    alGet (alSet l k v) k = some v := by
  induction l with
  | nil => simp [alSet, alGet]
  | cons p rest ih =>
      obtain ⟨k', v'⟩ := p
      by_cases hk : k' = k
      · simp [alSet, alGet, hk]
      · simp [alSet, alGet, hk, ih]

theorem alGet_alSet_ne (l : List (RId × α)) (k k' : RId) (v : α) (h : k ≠ k') :
    alGet (alSet l k v) k' = alGet l k' := by
  induction l with
  | nil => simp [alSet, alGet, h]
  | cons p rest ih =>
      obtain ⟨k₀, v₀⟩ := p
      by_cases hk : k₀ = k
      · subst hk
        simp [alSet, alGet, h]
      · simp [alSet, alGet, hk, ih]

/-! ## Dependency specifications and normalization (src/dependencies.ts) -/

/-- A dependency specification as authors write it: either a flat list
of ids (all required), or an object with separate `required` and
`optional` lists, either of which may be absent. -/
inductive DependenciesSpec where
  | flat (ids : List RId)
  | split (req : Option (List RId)) (opt : Option (List RId))
deriving DecidableEq, Repr

/-- The result shape of `normalizeDependencies`. -/
structure NormalizedDependencies where
  required : List RId
  optional : List RId
  all : List RId
deriving DecidableEq, Repr

/-- The seen-set deduplication loop inside `normalizeDependencies`
(`seen` models the JavaScript `Set`, `acc`umulation by `push`). -/
def dedupSeen (seen : List RId) : List RId → List RId
  | [] => []
  | id :: rest =>
      if id ∈ seen then dedupSeen seen rest
      else id :: dedupSeen (id :: seen) rest

/-- Embedding of `normalizeDependencies` (src/dependencies.ts, lines
9–38): absent spec yields all-empty lists; a flat array is all required
and `all` aliases it; the object form defaults absent lists to empty and
builds `all` by walking `required ++ optional` with a seen-set. -/
def normalizeDependencies (deps : Option DependenciesSpec) : NormalizedDependencies :=
  match deps with
  | none => ⟨[], [], []⟩
  | some (.flat ids) => ⟨ids, [], ids⟩
  | some (.split req opt) =>
      let required := req.getD []
      let optional := opt.getD []
      ⟨required, optional, dedupSeen [] (required ++ optional)⟩

/-- Specification-side first-occurrence deduplication, written as a
top-down recursion (keep the head, drop all of its later copies). -/
def firstOccurrences : List RId → List RId
  | [] => []
  | x :: xs => x :: firstOccurrences (xs.filter (fun y => y ≠ x))
termination_by l => l.length
decreasing_by
  simp only [List.length_cons]
  exact Nat.lt_succ_of_le (List.length_filter_le _ _)

@[simp] theorem firstOccurrences_nil : firstOccurrences [] = [] := by
  rw [firstOccurrences]

theorem dedupSeen_eq_firstOccurrences (l : List RId) (seen : List RId) :
    dedupSeen seen l = firstOccurrences (l.filter (fun y => y ∉ seen)) := by
  induction l generalizing seen with
  | nil => simp [dedupSeen, firstOccurrences]
  | cons x xs ih =>
      by_cases hx : x ∈ seen
      · simp [dedupSeen, hx, ih]
      · rw [dedupSeen, if_neg hx, List.filter_cons]
        simp only [hx, not_false_iff, decide_True, if_true]
        rw [firstOccurrences, ih (x :: seen)]
        rw [List.filter_filter]
        have hf : List.filter (fun y => decide (y ∉ x :: seen)) xs
            = List.filter (fun a => decide (a ≠ x) && decide (a ∉ seen)) xs := by
          apply List.filter_congr
          intro y _
          by_cases hy : y = x <;> simp [hy, List.mem_cons, hx]
        rw [hf]

/-- C5: `normalizeDependencies` is a pure function such that an absent
spec yields three empty lists; a flat list yields `required` = the list,
`optional` empty, and `all` = `required`; and an object spec preserves
the given `required` and `optional` lists (defaulting absent ones to
empty) and builds `all` as `required` followed by `optional` with every
duplicate of an earlier id skipped — so an id listed in both collections
is kept only at its (earlier) required position. -/
theorem C5_normalizeDependencies_spec :
    normalizeDependencies none = ⟨[], [], []⟩ ∧
    (∀ ids, normalizeDependencies (some (.flat ids)) = ⟨ids, [], ids⟩) ∧
    (∀ req opt,
      normalizeDependencies (some (.split req opt)) =
        ⟨req.getD [], opt.getD [],
          firstOccurrences (req.getD [] ++ opt.getD [])⟩) := by
  refine ⟨rfl, fun ids => rfl, fun req opt => ?_⟩
  simp only [normalizeDependencies, NormalizedDependencies.mk.injEq]
  refine ⟨trivial, trivial, ?_⟩
  rw [dedupSeen_eq_firstOccurrences]
  congr 1
  simp

/-! ## The topological sorter (src/topological-sort.ts) -/

/-- The error thrown when a resource names a dependency id that is not a
key of the system config. -/
def missingDepError (id dep : RId) : RError :=
  .mk ("Resource \"" ++ id ++ "\" depends on \"" ++ dep ++
    "\" which doesn't exist in the system config")

/-- The error thrown when Kahn's algorithm leaves unprocessed resources
(a dependency cycle). -/
def cycleError (unprocessed : List RId) : RError :=
  .mk ("Circular dependency detected in resource system. Unprocessed resources: " ++
    String.intercalate ", " unprocessed)

/-- Inner loop of the graph-building phase: add one edge `dep → id` per
declared dependency of resource `id`, failing on a dependency id that
was never initialized (i.e. is not a config key). -/
def addEdges (id : RId) (deps : List RId)
    (st : List (RId × List RId) × List (RId × Int)) :
    Except RError (List (RId × List RId) × List (RId × Int)) :=
  match deps with
  | [] => .ok st
  | dep :: rest =>
      match alGet st.1 dep with
      | none => .error (missingDepError id dep)
      | some lst =>
          addEdges id rest
            (alSet st.1 dep (lst ++ [id]),
             alSet st.2 id ((alGet st.2 id).getD 0 + 1))

/-- Outer loop of the graph-building phase, over the config entries in
declaration order. -/
def addAllEdges (entries : List (RId × List RId))
    (st : List (RId × List RId) × List (RId × Int)) :
    Except RError (List (RId × List RId) × List (RId × Int)) :=
  match entries with
  | [] => .ok st
  | (id, deps) :: rest => do
      let st' ← addEdges id deps st
      addAllEdges rest st'

/-- Phases 1–2 of `topologicalSort`: initialize `graph` (adjacency
dependency → dependents) and `inDegree` to empty/zero for every config
key in declaration order, then add every declared edge. -/
def buildGraphs (adj : List (RId × List RId)) :
    Except RError (List (RId × List RId) × List (RId × Int)) :=
  addAllEdges adj
    (adj.map (fun p => (p.1, ([] : List RId))),
     adj.map (fun p => (p.1, (0 : Int))))

/-- Seeding of the work queue: all ids of in-degree zero, in declaration
order. -/
def seedQueue (inDeg : List (RId × Int)) : List RId :=
  (inDeg.filter (fun p => p.2 = 0)).map Prod.fst

/-- Relaxation of one dequeued node's out-edges: decrement each
dependent's in-degree and enqueue it when the in-degree reaches exactly
zero.  A dependent missing from `inDeg` cannot occur in a run (the graph
only holds initialized ids); JavaScript would store `NaN` there, which
never compares equal to `0`, so the faithful totalization leaves the
state unchanged. -/
def processEdges (dependents : List RId) (inDeg : List (RId × Int))
    (queue : List RId) : List (RId × Int) × List RId :=
  match dependents with
  | [] => (inDeg, queue)
  | d :: rest =>
      match alGet inDeg d with
      | none => processEdges rest inDeg queue
      | some v =>
          let inDeg' := alSet inDeg d (v - 1)
          if v - 1 = 0 then processEdges rest inDeg' (queue ++ [d])
          else processEdges rest inDeg' queue

/-- Sum of the positive parts of all in-degrees; together with the queue
length this is the termination measure of the work loop. -/
def degSum (inDeg : List (RId × Int)) : Nat :=
  (inDeg.map (fun p => p.2.toNat)).sum

theorem degSum_alSet (inDeg : List (RId × Int)) (k : RId) (v w : Int)
    (h : alGet inDeg k = some v) :
    degSum (alSet inDeg k w) + v.toNat = degSum inDeg + w.toNat := by
  induction inDeg with
  | nil => simp [alGet] at h
  | cons p rest ih =>
      obtain ⟨k', v'⟩ := p
      by_cases hk : k' = k
      · rw [alGet_cons, if_pos hk] at h
        cases h
        simp [alSet, hk, degSum]
        ring
      · rw [alGet_cons, if_neg hk] at h
        simp only [alSet, if_neg hk]
        simp only [degSum, List.map_cons, List.sum_cons] at *
        have := ih h
        omega

theorem processEdges_measure (dependents : List RId)
    (inDeg : List (RId × Int)) (queue : List RId) :
    degSum (processEdges dependents inDeg queue).1 +
      (processEdges dependents inDeg queue).2.length ≤
    degSum inDeg + queue.length := by
  induction dependents generalizing inDeg queue with
  | nil => simp [processEdges]
  | cons d rest ih =>
      rw [processEdges]
      cases hv : alGet inDeg d with
      | none => exact ih inDeg queue
      | some v =>
          simp only
          by_cases hz : v - 1 = 0
          · rw [if_pos hz]
            refine le_trans (ih _ _) ?_
            have hsum := degSum_alSet inDeg d v (v - 1) hv
            have hv1 : v = 1 := by omega
            subst hv1
            simp at hsum
            simp [hsum]
            omega
          · rw [if_neg hz]
            refine le_trans (ih _ _) ?_
            have hsum := degSum_alSet inDeg d v (v - 1) hv
            have : (v - 1).toNat ≤ v.toNat := by omega
            omega

/-- Phase 4 of `topologicalSort`: the Kahn work loop.  Dequeue from the
front, append to the result, relax the out-edges. -/
def sortLoop (graph : List (RId × List RId)) (inDeg : List (RId × Int))
    (queue : List RId) (result : List RId) : List RId :=
  match queue with
  | [] => result
  | id :: rest =>
      let st := processEdges ((alGet graph id).getD []) inDeg rest
      sortLoop graph st.1 st.2 (result ++ [id])
termination_by degSum inDeg + queue.length
decreasing_by
  have := processEdges_measure ((alGet graph id).getD []) inDeg rest
  simp only [List.length_cons]
  omega

/-- Embedding of `topologicalSort` (src/topological-sort.ts, lines
15–79), parameterized by the flattened adjacency (id → dependency ids)
in declaration order: build the dependent graph and in-degrees (failing
on a missing dependency id), seed the queue with in-degree-zero ids,
run Kahn's work loop, and fail naming the unprocessed ids if the result
does not cover every resource. -/
def topologicalSortAdj (adj : List (RId × List RId)) : Except RError (List RId) := do
  let st ← buildGraphs adj
  let result := sortLoop st.1 st.2 (seedQueue st.2) []
  if result.length ≠ adj.length then
    .error (cycleError ((alKeys adj).filter (fun id => id ∉ result)))
  else
    .ok result

/-! ## Characterization of the graph-building phase -/

/-- The flattened dependency list of `id` in an adjacency map
(`resource.dependencies || []`). -/
def depsOf (adj : List (RId × List RId)) (id : RId) : List RId :=
  (alGet adj id).getD []

/-- The dependents list the builder accumulates for `d`: every config id
`x`, in declaration order, repeated once per occurrence of `d` among
`x`'s dependencies. -/
def depOccs (adj : List (RId × List RId)) (d : RId) : List RId :=
  adj.flatMap (fun p => List.replicate (p.2.count d) p.1)

/-- Total in-degree contribution recorded for `k` by the builder. -/
def degAdded (entries : List (RId × List RId)) (k : RId) : Int :=
  ((entries.filter (fun p => p.1 = k)).map (fun p => (p.2.length : Int))).sum

@[simp] theorem depOccs_nil (d : RId) : depOccs [] d = [] := rfl

theorem depOccs_cons (p : RId × List RId) (rest : List (RId × List RId)) (d : RId) :
    depOccs (p :: rest) d = List.replicate (p.2.count d) p.1 ++ depOccs rest d := rfl

theorem alGet_map_const (adj : List (RId × List RId)) (c : α) (k : RId) :
    alGet (adj.map (fun p => (p.1, c))) k =
      if k ∈ alKeys adj then some c else none := by
  induction adj with
  | nil => simp [alGet]
  | cons p rest ih =>
      by_cases hk : p.1 = k
      · simp [alGet, hk, alKeys]
      · simp only [List.map_cons, alGet, hk, if_false, ih, alKeys, List.map]
        by_cases h : k ∈ alKeys rest <;> simp [alKeys] at h <;> simp [h, Ne.symm hk]

theorem addEdges_ok (id : RId) (ds : List RId)
    (G : List (RId × List RId)) (D : List (RId × Int))
    (h : ∀ d ∈ ds, (alGet G d).isSome) (hid : (alGet D id).isSome) :
    ∃ G' D', addEdges id ds (G, D) = .ok (G', D') ∧
      alKeys G' = alKeys G ∧ alKeys D' = alKeys D ∧
      (∀ d, alGet G' d = (alGet G d).map (fun l => l ++ List.replicate (ds.count d) id)) ∧
      (∀ k, k ≠ id → alGet D' k = alGet D k) ∧
      (alGet D' id = (alGet D id).map (fun v => v + (ds.length : Int))) := by
  induction ds generalizing G D with
  | nil =>
      refine ⟨G, D, rfl, rfl, rfl, ?_, fun k _ => rfl, ?_⟩
      · intro d
        cases alGet G d <;> simp
      · obtain ⟨v, hv⟩ := Option.isSome_iff_exists.mp hid
        simp [hv]
  | cons dep rest ih =>
      obtain ⟨lst, hlst⟩ := Option.isSome_iff_exists.mp (h dep (by simp))
      obtain ⟨w, hw⟩ := Option.isSome_iff_exists.mp hid
      have hGkeys : alKeys (alSet G dep (lst ++ [id])) = alKeys G := by
        rw [alKeys_alSet]
        simp [alHas, hlst]
      have hDkeys : alKeys (alSet D id ((alGet D id).getD 0 + 1)) = alKeys D := by
        rw [alKeys_alSet]
        simp [alHas, hid]
      have h' : ∀ d ∈ rest, (alGet (alSet G dep (lst ++ [id])) d).isSome := by
        intro d hd
        by_cases hc : dep = d
        · subst hc
          simp [alGet_alSet_self]
        · rw [alGet_alSet_ne _ _ _ _ hc]
          exact h d (by simp [hd])
      have hid' : (alGet (alSet D id ((alGet D id).getD 0 + 1)) id).isSome := by
        simp [alGet_alSet_self]
      obtain ⟨G', D', hrun, hGk, hDk, hG, hDne, hDid⟩ :=
        ih (alSet G dep (lst ++ [id])) (alSet D id ((alGet D id).getD 0 + 1)) h' hid'
      refine ⟨G', D', ?_, by rw [hGk, hGkeys], by rw [hDk, hDkeys], ?_, ?_, ?_⟩
      · rw [addEdges, hlst]
        exact hrun
      · intro d
        rw [hG d]
        by_cases hc : dep = d
        · subst hc
          rw [alGet_alSet_self, hlst, List.count_cons_self]
          simp only [Option.map_some']
          congr 1
          rw [List.append_assoc, List.singleton_append, ← List.replicate_succ]
        · rw [alGet_alSet_ne _ _ _ _ hc]
          have hcnt : (dep :: rest).count d = rest.count d := by
            simp [List.count_cons, hc]
          rw [hcnt]
      · intro k hk
        rw [hDne k hk, alGet_alSet_ne _ _ _ _ (Ne.symm hk)]
      · rw [hDid, alGet_alSet_self, hw]
        simp only [Option.getD_some, Option.map_some']
        congr 1
        simp only [List.length_cons]
        push_cast
        ring

theorem addEdges_error (id : RId) (ds : List RId)
    (G : List (RId × List RId)) (D : List (RId × Int))
    (h : ∃ d ∈ ds, alGet G d = none) :
    ∃ d ∈ ds, alGet G d = none ∧
      addEdges id ds (G, D) = .error (missingDepError id d) := by
  induction ds generalizing G D with
  | nil => simp at h
  | cons dep rest ih =>
      cases hdep : alGet G dep with
      | none => exact ⟨dep, by simp, hdep, by rw [addEdges, hdep]⟩
      | some lst =>
          have h' : ∃ d ∈ rest, alGet (alSet G dep (lst ++ [id])) d = none := by
            obtain ⟨d, hd, hnone⟩ := h
            rcases List.mem_cons.mp hd with rfl | hdrest
            · rw [hdep] at hnone
              cases hnone
            · refine ⟨d, hdrest, ?_⟩
              by_cases hc : dep = d
              · subst hc
                rw [hdep] at hnone
                cases hnone
              · rw [alGet_alSet_ne _ _ _ _ hc]
                exact hnone
          obtain ⟨d, hd, hnone, hrun⟩ := ih _ (alSet D id ((alGet D id).getD 0 + 1)) h'
          refine ⟨d, by simp [hd], ?_, ?_⟩
          · by_cases hc : dep = d
            · subst hc
              rw [alGet_alSet_self] at hnone
              cases hnone
            · rw [alGet_alSet_ne _ _ _ _ hc] at hnone
              exact hnone
          · rw [addEdges, hdep]
            exact hrun

theorem addAllEdges_ok (entries : List (RId × List RId))
    (G : List (RId × List RId)) (D : List (RId × Int))
    (hG : ∀ p ∈ entries, ∀ d ∈ p.2, (alGet G d).isSome)
    (hD : ∀ p ∈ entries, (alGet D p.1).isSome) :
    ∃ G' D', addAllEdges entries (G, D) = .ok (G', D') ∧
      alKeys G' = alKeys G ∧ alKeys D' = alKeys D ∧
      (∀ d, alGet G' d = (alGet G d).map (fun l => l ++ depOccs entries d)) ∧
      (∀ k, alGet D' k = (alGet D k).map (fun v => v + degAdded entries k)) := by
  induction entries generalizing G D with
  | nil =>
      refine ⟨G, D, rfl, rfl, rfl, ?_, ?_⟩
      · intro d
        cases alGet G d <;> simp [depOccs]
      · intro k
        cases alGet D k <;> simp [degAdded]
  | cons p rest ih =>
      obtain ⟨id, ds⟩ := p
      obtain ⟨G₁, D₁, hrun₁, hGk₁, hDk₁, hG₁, hDne₁, hDid₁⟩ :=
        addEdges_ok id ds G D (hG (id, ds) (by simp)) (hD (id, ds) (by simp))
      have hG' : ∀ p ∈ rest, ∀ d ∈ p.2, (alGet G₁ d).isSome := by
        intro p hp d hd
        rw [hG₁ d]
        have := hG p (by simp [hp]) d hd
        cases hget : alGet G d
        · rw [hget] at this
          cases this
        · simp
      have hD' : ∀ p ∈ rest, (alGet D₁ p.1).isSome := by
        intro p hp
        by_cases hc : p.1 = id
        · rw [hc, hDid₁]
          have := hD (id, ds) (by simp)
          cases hget : alGet D id
          · rw [hget] at this
            cases this
          · simp
        · rw [hDne₁ p.1 hc]
          exact hD p (by simp [hp])
      obtain ⟨G', D', hrun, hGk, hDk, hGf, hDf⟩ := ih G₁ D₁ hG' hD'
      refine ⟨G', D', ?_, by rw [hGk, hGk₁], by rw [hDk, hDk₁], ?_, ?_⟩
      · rw [addAllEdges]
        rw [hrun₁]
        exact hrun
      · intro d
        rw [hGf d, hG₁ d, depOccs_cons]
        cases alGet G d <;> simp
      · intro k
        rw [hDf k]
        by_cases hc : k = id
        · subst hc
          rw [hDid₁]
          cases alGet D k with
          | none => simp
          | some v =>
              simp only [Option.map_some']
              congr 1
              have : degAdded ((k, ds) :: rest) k = (ds.length : Int) + degAdded rest k := by
                simp [degAdded, List.filter_cons]
              rw [this]
              ring
        · rw [hDne₁ k hc]
          cases alGet D k with
          | none => simp
          | some v =>
              simp only [Option.map_some']
              congr 1
              have : degAdded ((id, ds) :: rest) k = degAdded rest k := by
                simp [degAdded, List.filter_cons, Ne.symm hc]
              rw [this]

theorem addEdges_progress (id : RId) (ds : List RId)
    (G : List (RId × List RId)) (D : List (RId × Int))
    (hall : ∀ d ∈ ds, (alGet G d).isSome) :
    ∃ st', addEdges id ds (G, D) = .ok st' ∧
      (∀ d, (alGet st'.1 d).isSome = (alGet G d).isSome) := by
  induction ds generalizing G D with
  | nil => exact ⟨(G, D), rfl, fun d => rfl⟩
  | cons dep rest ih =>
      obtain ⟨lst, hlst⟩ := Option.isSome_iff_exists.mp (hall dep (by simp))
      have hall' : ∀ d ∈ rest, (alGet (alSet G dep (lst ++ [id])) d).isSome := by
        intro d hd
        by_cases hc : dep = d
        · subst hc
          simp [alGet_alSet_self]
        · rw [alGet_alSet_ne _ _ _ _ hc]
          exact hall d (by simp [hd])
      obtain ⟨st', hrun', hsome'⟩ := ih _ (alSet D id ((alGet D id).getD 0 + 1)) hall'
      refine ⟨st', ?_, ?_⟩
      · rw [addEdges, hlst]
        exact hrun'
      · intro d
        rw [hsome' d]
        by_cases hc : dep = d
        · subst hc
          simp [alGet_alSet_self, hlst]
        · rw [alGet_alSet_ne _ _ _ _ hc]

theorem addAllEdges_error (entries : List (RId × List RId))
    (G : List (RId × List RId)) (D : List (RId × Int))
    (hmiss : ∃ p ∈ entries, ∃ d ∈ p.2, alGet G d = none) :
    ∃ e, addAllEdges entries (G, D) = .error e ∧
      ∃ p ∈ entries, ∃ d ∈ p.2, alGet G d = none ∧ e = missingDepError p.1 d := by
  induction entries generalizing G D with
  | nil => simp at hmiss
  | cons p rest ih =>
      obtain ⟨id, ds⟩ := p
      by_cases hfirst : ∃ d ∈ ds, alGet G d = none
      · obtain ⟨d, hd, hnone, hrun⟩ := addEdges_error id ds G D hfirst
        refine ⟨missingDepError id d, ?_, (id, ds), by simp, d, hd, hnone, rfl⟩
        rw [addAllEdges, hrun]
        rfl
      · have hall : ∀ d ∈ ds, (alGet G d).isSome := by
          intro d hd
          cases hget : alGet G d
          · exact absurd ⟨d, hd, hget⟩ hfirst
          · simp
        obtain ⟨st', hrun', hsome'⟩ := addEdges_progress id ds G D hall
        have hmiss' : ∃ p ∈ rest, ∃ d ∈ p.2, alGet st'.1 d = none := by
          obtain ⟨p, hp, d, hd, hnone⟩ := hmiss
          rcases List.mem_cons.mp hp with rfl | hprest
          · exact absurd ⟨d, hd, hnone⟩ hfirst
          · refine ⟨p, hprest, d, hd, ?_⟩
            have := hsome' d
            rw [hnone] at this
            cases hget : alGet st'.1 d
            · rfl
            · rw [hget] at this
              cases this
        obtain ⟨e, hrun, p, hp, d, hd, hnone, he⟩ := ih st'.1 st'.2 hmiss'
        refine ⟨e, ?_, p, by simp [hp], d, hd, ?_, he⟩
        · rw [addAllEdges, hrun']
          exact hrun
        · have := hsome' d
          rw [hnone] at this
          cases hget : alGet G d
          · rfl
          · rw [hget] at this
            cases this


theorem buildGraphs_ok (adj : List (RId × List RId))
    (hex : ∀ p ∈ adj, ∀ d ∈ p.2, d ∈ alKeys adj) :
    ∃ G D, buildGraphs adj = .ok (G, D) ∧
      alKeys G = alKeys adj ∧ alKeys D = alKeys adj ∧
      (∀ d, alGet G d = if d ∈ alKeys adj then some (depOccs adj d) else none) ∧
      (∀ k, alGet D k = if k ∈ alKeys adj then some (degAdded adj k) else none) := by
  have hG0 : ∀ d, alGet (adj.map (fun p => (p.1, ([] : List RId)))) d =
      if d ∈ alKeys adj then some [] else none := fun d => alGet_map_const adj [] d
  have hD0 : ∀ k, alGet (adj.map (fun p => (p.1, (0 : Int)))) k =
      if k ∈ alKeys adj then some 0 else none := fun k => alGet_map_const adj 0 k
  have hGs : ∀ p ∈ adj, ∀ d ∈ p.2,
      (alGet (adj.map (fun p => (p.1, ([] : List RId)))) d).isSome := by
    intro p hp d hd
    rw [hG0 d, if_pos (hex p hp d hd)]
    rfl
  have hDs : ∀ p ∈ adj, (alGet (adj.map (fun p => (p.1, (0 : Int)))) p.1).isSome := by
    intro p hp
    have hmem : p.1 ∈ alKeys adj := List.mem_map_of_mem Prod.fst hp
    rw [hD0 p.1, if_pos hmem]
    rfl
  obtain ⟨G', D', hrun, hGk, hDk, hGf, hDf⟩ := addAllEdges_ok adj _ _ hGs hDs
  have hkeys : alKeys (adj.map (fun p => (p.1, ([] : List RId)))) = alKeys adj := by
    simp [alKeys, List.map_map]
  have hkeysD : alKeys (adj.map (fun p => (p.1, (0 : Int)))) = alKeys adj := by
    simp [alKeys, List.map_map]
  refine ⟨G', D', hrun, by rw [hGk, hkeys], by rw [hDk, hkeysD], ?_, ?_⟩
  · intro d
    rw [hGf d, hG0 d]
    by_cases hd : d ∈ alKeys adj <;> simp [hd]
  · intro k
    rw [hDf k, hD0 k]
    by_cases hk : k ∈ alKeys adj <;> simp [hk]

theorem buildGraphs_error (adj : List (RId × List RId))
    (hmiss : ∃ p ∈ adj, ∃ d ∈ p.2, d ∉ alKeys adj) :
    ∃ e, buildGraphs adj = .error e ∧
      ∃ p ∈ adj, ∃ d ∈ p.2, d ∉ alKeys adj ∧ e = missingDepError p.1 d := by
  have hG0 : ∀ d, alGet (adj.map (fun p => (p.1, ([] : List RId)))) d =
      if d ∈ alKeys adj then some [] else none := fun d => alGet_map_const adj [] d
  have hmiss' : ∃ p ∈ adj, ∃ d ∈ p.2,
      alGet (adj.map (fun p => (p.1, ([] : List RId)))) d = none := by
    obtain ⟨p, hp, d, hd, hnot⟩ := hmiss
    exact ⟨p, hp, d, hd, by rw [hG0 d, if_neg hnot]⟩
  obtain ⟨e, hrun, p, hp, d, hd, hnone, he⟩ := addAllEdges_error adj _ _ hmiss'
  refine ⟨e, hrun, p, hp, d, hd, ?_, he⟩
  intro hmem
  rw [hG0 d, if_pos hmem] at hnone
  cases hnone

/-! ## Properties of the Kahn work loop -/

/-- In-degree of `k` at a point where exactly the ids of `result` have
been emitted: the number of occurrences of not-yet-emitted ids among
`k`'s dependencies. -/
def curDeg (adj : List (RId × List RId)) (result : List RId) (k : RId) : Int :=
  (((depsOf adj k).filter (fun d => d ∉ result)).length : Int)

theorem count_cons_self_int (d : RId) (rest : List RId) :
    ((d :: rest).count d : Int) = (rest.count d : Int) + 1 := by
  have := List.count_cons_self d rest
  exact_mod_cast this

theorem count_cons_ne (x d : RId) (rest : List RId) (h : x ≠ d) :
    (d :: rest).count x = rest.count x := by
  simp [List.count_cons, Ne.symm h]

theorem processEdges_deg (ds : List RId) (D : List (RId × Int)) (q : List RId) :
    ∀ k, alGet (processEdges ds D q).1 k =
      (alGet D k).map (fun v => v - (ds.count k : Int)) := by
  induction ds generalizing D q with
  | nil =>
      intro k
      cases h : alGet D k <;> simp [processEdges, h]
  | cons d rest ih =>
      intro k
      rw [processEdges]
      cases hd : alGet D d with
      | none =>
          rw [ih D q k]
          by_cases hc : k = d
          · subst hc
            rw [hd]
            rfl
          · rw [count_cons_ne k d rest hc]
      | some v =>
          simp only
          have key : ∀ q', alGet (processEdges rest (alSet D d (v - 1)) q').1 k =
              (alGet D k).map (fun w => w - ((d :: rest).count k : Int)) := by
            intro q'
            rw [ih _ q' k]
            by_cases hc : d = k
            · subst hc
              rw [alGet_alSet_self, hd]
              simp only [Option.map_some']
              congr 1
              rw [count_cons_self_int]
              ring
            · rw [alGet_alSet_ne _ _ _ _ hc, count_cons_ne k d rest (Ne.symm hc)]
          by_cases hz : v - 1 = 0
          · rw [if_pos hz]
            exact key (q ++ [d])
          · rw [if_neg hz]
            exact key q

theorem processEdges_queue_append (ds : List RId) (D : List (RId × Int)) (q : List RId) :
    (processEdges ds D q).2 = q ++ (processEdges ds D []).2 := by
  induction ds generalizing D q with
  | nil => simp [processEdges]
  | cons d rest ih =>
      rw [processEdges, processEdges]
      cases hd : alGet D d with
      | none => exact ih D q
      | some v =>
          simp only
          by_cases hz : v - 1 = 0
          · rw [if_pos hz, if_pos hz, ih _ (q ++ [d]), ih _ ([] ++ [d])]
            simp
          · rw [if_neg hz, if_neg hz, ih _ q]

theorem processEdges_batch_mem (ds : List RId) (D : List (RId × Int)) (q : List RId)
    (x : RId) :
    x ∈ (processEdges ds D q).2 ↔
      x ∈ q ∨ ∃ v, alGet D x = some v ∧ 1 ≤ v ∧ v ≤ (ds.count x : Int) := by
  induction ds generalizing D q with
  | nil =>
      simp only [processEdges]
      constructor
      · intro h
        exact Or.inl h
      · rintro (h | ⟨v, _, h1, h2⟩)
        · exact h
        · simp at h2
          omega
  | cons d rest ih =>
      rw [processEdges]
      by_cases hcx : x = d
      · subst hcx
        -- the head dependent is x itself
        cases hd : alGet D x with
        | none =>
            rw [ih D q]
            constructor
            · rintro (h | ⟨v, hv, _, _⟩)
              · exact Or.inl h
              · rw [hd] at hv
                cases hv
            · rintro (h | ⟨v, hv, _, _⟩)
              · exact Or.inl h
              · cases hv
        | some v =>
            simp only
            by_cases hz : v - 1 = 0
            · rw [if_pos hz, ih _ (q ++ [x])]
              constructor
              · intro _
                refine Or.inr ⟨v, rfl, by omega, ?_⟩
                rw [count_cons_self_int]
                have : (0 : Int) ≤ (rest.count x : Int) := Int.natCast_nonneg _
                omega
              · intro _
                exact Or.inl (List.mem_append.mpr (Or.inr (by simp)))
            · rw [if_neg hz, ih _ q]
              constructor
              · rintro (h | ⟨w, hw, h1, h2⟩)
                · exact Or.inl h
                · rw [alGet_alSet_self] at hw
                  cases hw
                  refine Or.inr ⟨v, rfl, by omega, ?_⟩
                  rw [count_cons_self_int]
                  omega
              · rintro (h | ⟨w, hw, h1, h2⟩)
                · exact Or.inl h
                · cases hw
                  refine Or.inr ⟨v - 1, alGet_alSet_self _ _ _, by omega, ?_⟩
                  rw [count_cons_self_int] at h2
                  omega
      · -- x is not the head dependent: its binding and count are unchanged
        have hcnt : (d :: rest).count x = rest.count x := count_cons_ne x d rest hcx
        cases hd : alGet D d with
        | none =>
            rw [ih D q, hcnt]
        | some v =>
            simp only
            have hset : alGet (alSet D d (v - 1)) x = alGet D x :=
              alGet_alSet_ne _ _ _ _ (fun h => hcx (h.symm))
            by_cases hz : v - 1 = 0
            · rw [if_pos hz, ih _ (q ++ [d]), hset, hcnt]
              constructor
              · rintro (h | h)
                · rcases List.mem_append.mp h with h | h
                  · exact Or.inl h
                  · simp at h
                    exact absurd h hcx
                · exact Or.inr h
              · rintro (h | h)
                · exact Or.inl (List.mem_append.mpr (Or.inl h))
                · exact Or.inr h
            · rw [if_neg hz, ih _ q, hset, hcnt]

theorem alGet_eq_none_of_not_mem (l : List (RId × α)) (k : RId)
    (h : k ∉ alKeys l) : alGet l k = none := by
  induction l with
  | nil => rfl
  | cons p rest ih =>
      simp only [alKeys_cons, List.mem_cons] at h
      push_neg at h
      rw [alGet_cons, if_neg (Ne.symm h.1)]
      exact ih h.2

theorem alGet_isSome_of_mem (l : List (RId × α)) (k : RId)
    (h : k ∈ alKeys l) : (alGet l k).isSome := by
  induction l with
  | nil => simp [alKeys] at h
  | cons p rest ih =>
      by_cases hk : p.1 = k
      · obtain ⟨k', v⟩ := p
        simp only at hk
        rw [alGet_cons, if_pos hk]
        rfl
      · obtain ⟨k', v⟩ := p
        simp only at hk
        rw [alGet_cons, if_neg hk]
        simp only [alKeys_cons, List.mem_cons] at h
        rcases h with h | h
        · exact absurd h.symm hk
        · exact ih h

theorem processEdges_keys (ds : List RId) (D : List (RId × Int)) (q : List RId) :
    alKeys (processEdges ds D q).1 = alKeys D := by
  induction ds generalizing D q with
  | nil => simp [processEdges]
  | cons d rest ih =>
      rw [processEdges]
      cases hd : alGet D d with
      | none => exact ih D q
      | some v =>
          simp only
          have hkeys : alKeys (alSet D d (v - 1)) = alKeys D := by
            rw [alKeys_alSet]
            simp [alHas, hd]
          by_cases hz : v - 1 = 0
          · rw [if_pos hz, ih _ (q ++ [d]), hkeys]
          · rw [if_neg hz, ih _ q, hkeys]

theorem processEdges_nodup (ds : List RId) (D : List (RId × Int)) (q : List RId)
    (hq : q.Nodup) (hqd : ∀ x ∈ q, ∀ v, alGet D x = some v → v ≤ 0) :
    (processEdges ds D q).2.Nodup ∧
      (∀ x ∈ (processEdges ds D q).2, ∀ v,
        alGet (processEdges ds D q).1 x = some v → v ≤ 0) := by
  induction ds generalizing D q with
  | nil => exact ⟨hq, hqd⟩
  | cons d rest ih =>
      rw [processEdges]
      cases hd : alGet D d with
      | none => exact ih D q hq hqd
      | some v =>
          simp only
          by_cases hz : v - 1 = 0
          · rw [if_pos hz]
            have hdq : d ∉ q := by
              intro hmem
              have := hqd d hmem v hd
              omega
            have hq' : (q ++ [d]).Nodup := by
              rw [List.nodup_append]
              exact ⟨hq, List.nodup_singleton d, by simpa using hdq⟩
            have hqd' : ∀ x ∈ q ++ [d], ∀ w,
                alGet (alSet D d (v - 1)) x = some w → w ≤ 0 := by
              intro x hx w hw
              rcases List.mem_append.mp hx with hx | hx
              · by_cases hc : d = x
                · subst hc
                  exact absurd hx hdq
                · rw [alGet_alSet_ne _ _ _ _ hc] at hw
                  exact hqd x hx w hw
              · simp at hx
                subst hx
                rw [alGet_alSet_self] at hw
                cases hw
                omega
            exact ih _ _ hq' hqd'
          · rw [if_neg hz]
            have hqd' : ∀ x ∈ q, ∀ w,
                alGet (alSet D d (v - 1)) x = some w → w ≤ 0 := by
              intro x hx w hw
              by_cases hc : d = x
              · have hdx : alGet D x = some v := hc ▸ hd
                have hv0 := hqd x hx v hdx
                rw [hc, alGet_alSet_self] at hw
                cases hw
                omega
              · rw [alGet_alSet_ne _ _ _ _ hc] at hw
                exact hqd x hx w hw
            exact ih _ _ hq hqd'

theorem processEdges_batch_sublist (ds : List RId) (D : List (RId × Int)) (q : List RId) :
    ∃ b, (processEdges ds D q).2 = q ++ b ∧ b.Sublist ds := by
  induction ds generalizing D q with
  | nil => exact ⟨[], by simp [processEdges], List.nil_sublist _⟩
  | cons d rest ih =>
      rw [processEdges]
      cases hd : alGet D d with
      | none =>
          obtain ⟨b, hb, hsub⟩ := ih D q
          exact ⟨b, hb, hsub.cons d⟩
      | some v =>
          simp only
          by_cases hz : v - 1 = 0
          · rw [if_pos hz]
            obtain ⟨b, hb, hsub⟩ := ih (alSet D d (v - 1)) (q ++ [d])
            refine ⟨d :: b, by rw [hb, List.append_assoc]; rfl, hsub.cons₂ d⟩
          · rw [if_neg hz]
            obtain ⟨b, hb, hsub⟩ := ih (alSet D d (v - 1)) q
            exact ⟨b, hb, hsub.cons d⟩

theorem seedQueue_sublist (D : List (RId × Int)) : (seedQueue D).Sublist (alKeys D) :=
  List.Sublist.map Prod.fst (List.filter_sublist D)

theorem seedQueue_mem (D : List (RId × Int)) (hnd : (alKeys D).Nodup) (x : RId) :
    x ∈ seedQueue D ↔ alGet D x = some 0 := by
  induction D with
  | nil => simp [seedQueue, alGet]
  | cons p rest ih =>
      obtain ⟨k, v⟩ := p
      simp only [alKeys_cons, List.nodup_cons] at hnd
      by_cases hk : k = x
      · subst hk
        by_cases hv : v = 0
        · subst hv
          simp [seedQueue, List.filter_cons, alGet]
        · rw [alGet_cons, if_pos rfl]
          have hxnot : k ∉ seedQueue rest := by
            intro hmem
            exact hnd.1 ((seedQueue_sublist rest).subset hmem)
          simp only [seedQueue, List.filter_cons]
          simp only [decide_eq_true_eq, hv, decide_False]
          constructor
          · intro hmem
            exact absurd hmem hxnot
          · intro h
            cases h
            exact absurd rfl hv
      · rw [alGet_cons, if_neg hk]
        simp only [seedQueue, List.filter_cons]
        by_cases hv : v = 0
        · subst hv
          simp only [decide_True, if_true, List.map_cons, List.mem_cons]
          rw [← ih hnd.2]
          constructor
          · rintro (h | h)
            · exact absurd h.symm hk
            · exact h
          · intro h
            exact Or.inr h
        · simp only [decide_eq_true_eq, hv, if_false]
          exact ih hnd.2

theorem depOccs_mem_keys (adj : List (RId × List RId)) (r x : RId)
    (h : x ∈ depOccs adj r) : x ∈ alKeys adj := by
  induction adj with
  | nil => simp [depOccs] at h
  | cons p rest ih =>
      rw [depOccs_cons] at h
      rcases List.mem_append.mp h with h | h
      · have := List.eq_of_mem_replicate h
        subst this
        simp [alKeys]
      · simp only [alKeys_cons, List.mem_cons]
        exact Or.inr (ih h)

theorem count_depOccs (adj : List (RId × List RId)) (hnd : (alKeys adj).Nodup)
    (r x : RId) : (depOccs adj r).count x = (depsOf adj x).count r := by
  induction adj with
  | nil => simp [depOccs, depsOf, alGet]
  | cons p rest ih =>
      obtain ⟨k, ds⟩ := p
      simp only [alKeys_cons, List.nodup_cons] at hnd
      rw [depOccs_cons, List.count_append]
      by_cases hk : k = x
      · subst hk
        have hzero : (depOccs rest r).count k = 0 := by
          rw [List.count_eq_zero]
          intro hmem
          exact hnd.1 (depOccs_mem_keys rest r k hmem)
        rw [hzero, List.count_replicate]
        simp only [depsOf, alGet_cons, if_pos rfl, Option.getD_some]
        simp
      · have : (List.replicate (ds.count r) k).count x = 0 := by
          rw [List.count_eq_zero]
          intro hmem
          exact hk (List.eq_of_mem_replicate hmem).symm
        rw [this, Nat.zero_add, ih hnd.2]
        simp only [depsOf, alGet_cons, if_neg hk]

theorem curDeg_nil_result (adj : List (RId × List RId)) (k : RId) :
    curDeg adj [] k = ((depsOf adj k).length : Int) := by
  simp [curDeg]

theorem curDeg_nonneg (adj : List (RId × List RId)) (result : List RId) (k : RId) :
    0 ≤ curDeg adj result k := Int.natCast_nonneg _

theorem curDeg_eq_zero_iff (adj : List (RId × List RId)) (result : List RId) (k : RId) :
    curDeg adj result k = 0 ↔ ∀ d ∈ depsOf adj k, d ∈ result := by
  simp only [curDeg, Int.natCast_eq_zero, List.length_eq_zero]
  rw [List.filter_eq_nil_iff]
  constructor
  · intro h d hd
    by_contra hnot
    exact h d hd (by simpa using hnot)
  · intro h d hd hdec
    simp at hdec
    exact hdec (h d hd)

theorem curDeg_append (adj : List (RId × List RId)) (result : List RId) (r k : RId)
    (hr : r ∉ result) :
    curDeg adj (result ++ [r]) k =
      curDeg adj result k - ((depsOf adj k).count r : Int) := by
  simp only [curDeg]
  have hfilter : (depsOf adj k).filter (fun d => d ∉ result ++ [r]) =
      ((depsOf adj k).filter (fun d => d ∉ result)).filter (fun d => d ≠ r) := by
    rw [List.filter_filter]
    apply List.filter_congr
    intro d _
    by_cases h1 : d ∈ result <;> by_cases h2 : d = r <;>
      simp [h1, h2, List.mem_append]
  rw [hfilter]
  have hcount : ((depsOf adj k).filter (fun d => d ∉ result)).count r =
      (depsOf adj k).count r := by
    rw [List.count_filter]
    simp [hr]
  have hlen : ∀ l : List RId, (l.filter (fun d => d ≠ r)).length = l.length - l.count r := by
    intro l
    induction l with
    | nil => simp
    | cons a as ihl =>
        by_cases ha : a = r
        · subst ha
          have h1 : ((a :: as).filter (fun d => d ≠ a)) = as.filter (fun d => d ≠ a) := by
            simp [List.filter_cons]
          have h2 : (a :: as).count a = as.count a + 1 := List.count_cons_self a as
          rw [h1, h2, List.length_cons, ihl]
          have := List.count_le_length a as
          omega
        · have h1 : ((a :: as).filter (fun d => d ≠ r)) = a :: as.filter (fun d => d ≠ r) := by
            simp [List.filter_cons, ha]
          have h2 : (a :: as).count r = as.count r := by
            simp [List.count_cons, ha]
          rw [h1, h2, List.length_cons, List.length_cons, ihl]
          have := List.count_le_length r as
          omega
  rw [hlen, ← hcount]
  have hle : ((depsOf adj k).filter (fun d => d ∉ result)).count r ≤
      ((depsOf adj k).filter (fun d => d ∉ result)).length := List.count_le_length _ _
  omega

theorem degAdded_zero_of_not_mem (adj : List (RId × List RId)) (k : RId)
    (h : k ∉ alKeys adj) : degAdded adj k = 0 := by
  induction adj with
  | nil => rfl
  | cons p rest ih =>
      simp only [alKeys_cons, List.mem_cons] at h
      push_neg at h
      simp only [degAdded, List.filter_cons]
      have : ¬ (p.1 = k) := fun he => h.1 he.symm
      simp only [this, decide_False, if_false]
      exact ih h.2

theorem degAdded_eq_length (adj : List (RId × List RId)) (hnd : (alKeys adj).Nodup)
    (k : RId) : degAdded adj k = ((depsOf adj k).length : Int) := by
  induction adj with
  | nil => simp [degAdded, depsOf, alGet]
  | cons p rest ih =>
      obtain ⟨k0, ds⟩ := p
      simp only [alKeys_cons, List.nodup_cons] at hnd
      simp only [degAdded, List.filter_cons]
      by_cases hk : k0 = k
      · subst hk
        simp only [decide_True, if_true, List.map_cons, List.sum_cons]
        have : degAdded rest k0 = 0 := degAdded_zero_of_not_mem rest k0 hnd.1
        simp only [degAdded] at this
        rw [this]
        simp [depsOf, alGet_cons]
      · rw [if_neg (by simp [hk])]
        have hrest := ih hnd.2
        simp only [degAdded] at hrest
        rw [hrest]
        simp [depsOf, alGet_cons, hk]

/-- The loop invariant of Kahn's work loop, at a state where the ids of
`result` have been emitted (in that order) and `queue` is the pending
work queue. -/
structure KahnInv (adj : List (RId × List RId)) (inDeg : List (RId × Int))
    (queue result : List RId) : Prop where
  sub : ∀ x ∈ result ++ queue, x ∈ alKeys adj
  nodup : (result ++ queue).Nodup
  keysD : alKeys inDeg = alKeys adj
  deg : ∀ k ∈ alKeys adj, alGet inDeg k = some (curDeg adj result k)
  closed : ∀ k ∈ alKeys adj, ((k ∈ result ∨ k ∈ queue) ↔ ∀ d ∈ depsOf adj k, d ∈ result)
  ordered : ∀ n (hn : n < result.length), ∀ d ∈ depsOf adj (result.get ⟨n, hn⟩),
    d ∈ result.take n

theorem kahnInv_init (adj : List (RId × List RId)) (hnd : (alKeys adj).Nodup)
    (D : List (RId × Int)) (hkeys : alKeys D = alKeys adj)
    (hvals : ∀ k, alGet D k = if k ∈ alKeys adj then some (degAdded adj k) else none) :
    KahnInv adj D (seedQueue D) [] := by
  have hseed : ∀ x, x ∈ seedQueue D ↔ alGet D x = some 0 :=
    seedQueue_mem D (hkeys ▸ hnd)
  refine ⟨?_, ?_, hkeys, ?_, ?_, ?_⟩
  · intro x hx
    simp only [List.nil_append] at hx
    exact hkeys ▸ (seedQueue_sublist D).subset hx
  · simp only [List.nil_append]
    exact (seedQueue_sublist D).nodup (hkeys ▸ hnd)
  · intro k hk
    rw [hvals k, if_pos hk, degAdded_eq_length adj hnd k, curDeg_nil_result]
  · intro k hk
    simp only [List.not_mem_nil, false_or]
    rw [hseed k, hvals k, if_pos hk]
    rw [degAdded_eq_length adj hnd k]
    constructor
    · intro h
      have hlen : ((depsOf adj k).length : Int) = 0 := Option.some.inj h
      intro d hd
      exfalso
      have hz : (depsOf adj k).length = 0 := by exact_mod_cast hlen
      rw [List.length_eq_zero] at hz
      rw [hz] at hd
      exact List.not_mem_nil d hd
    · intro h
      have hnil : depsOf adj k = [] := by
        cases hdep : depsOf adj k with
        | nil => rfl
        | cons a as =>
            exact (h a (by rw [hdep]; simp)).elim
      rw [hnil]
      rfl
  · intro n hn
    simp at hn

theorem kahnInv_step (adj : List (RId × List RId)) (hnd : (alKeys adj).Nodup)
    (inDeg : List (RId × Int)) (id : RId) (rest : List RId) (result : List RId)
    (hinv : KahnInv adj inDeg (id :: rest) result) :
    KahnInv adj (processEdges (depOccs adj id) inDeg rest).1
      (processEdges (depOccs adj id) inDeg rest).2 (result ++ [id]) := by
  obtain ⟨hsub, hnodup, hkeysD, hdeg, hclosed, hordered⟩ := hinv
  have hidkeys : id ∈ alKeys adj := hsub id (by simp)
  have hnodup' := List.nodup_append.mp hnodup
  have hidnotres : id ∉ result := fun h => hnodup'.2.2 h (by simp)
  have hqnodup : rest.Nodup := (List.nodup_cons.mp hnodup'.2.1).2
  have hidnotrest : id ∉ rest := (List.nodup_cons.mp hnodup'.2.1).1
  have hqdeg : ∀ x ∈ rest, ∀ v, alGet inDeg x = some v → v ≤ 0 := by
    intro x hx v hv
    have hxk : x ∈ alKeys adj := hsub x (by simp [hx])
    rw [hdeg x hxk] at hv
    cases hv
    have hall : ∀ d ∈ depsOf adj x, d ∈ result :=
      (hclosed x hxk).mp (Or.inr (by simp [hx]))
    have := (curDeg_eq_zero_iff adj result x).mpr hall
    omega
  obtain ⟨hnewq_nodup, _⟩ :=
    processEdges_nodup (depOccs adj id) inDeg rest hqnodup hqdeg
  obtain ⟨b, hb, hbsub⟩ := processEdges_batch_sublist (depOccs adj id) inDeg rest
  have hcount_le_cur : ∀ x, ((depsOf adj x).count id : Int) ≤ curDeg adj result x := by
    intro x
    have h1 : (depsOf adj x).count id =
        ((depsOf adj x).filter (fun d => d ∉ result)).count id := by
      rw [List.count_filter]
      simp [hidnotres]
    have h2 := List.count_le_length id ((depsOf adj x).filter (fun d => d ∉ result))
    rw [h1] at *
    unfold curDeg
    exact_mod_cast h2
  have hbatch : ∀ x ∈ b, x ∈ alKeys adj ∧ x ∉ result ∧ x ∉ (id :: rest) ∧
      curDeg adj result x = ((depsOf adj x).count id : Int) ∧
      1 ≤ curDeg adj result x := by
    intro x hxb
    have hxq : x ∈ (processEdges (depOccs adj id) inDeg rest).2 := by
      rw [hb]
      exact List.mem_append.mpr (Or.inr hxb)
    have hdisjoint := (List.nodup_append.mp (hb ▸ hnewq_nodup)).2.2
    have hxnotrest : x ∉ rest := fun hxr => hdisjoint hxr hxb
    rcases (processEdges_batch_mem (depOccs adj id) inDeg rest x).mp hxq with h | ⟨v, hv, h1, h2⟩
    · exact absurd h hxnotrest
    · have hxk : x ∈ alKeys adj := by
        by_contra hnot
        rw [alGet_eq_none_of_not_mem inDeg x (by rw [hkeysD]; exact hnot)] at hv
        cases hv
      rw [hdeg x hxk] at hv
      cases hv
      have hcnt : (depOccs adj id).count x = (depsOf adj x).count id :=
        count_depOccs adj hnd id x
      rw [hcnt] at h2
      have hle := hcount_le_cur x
      have hcureq : curDeg adj result x = ((depsOf adj x).count id : Int) := le_antisymm h2 hle
      have hnotall : ¬ ∀ d ∈ depsOf adj x, d ∈ result := by
        intro hall
        have := (curDeg_eq_zero_iff adj result x).mpr hall
        omega
      have hnotin : ¬ (x ∈ result ∨ x ∈ id :: rest) :=
        fun h => hnotall ((hclosed x hxk).mp h)
      push_neg at hnotin
      exact ⟨hxk, hnotin.1, hnotin.2, hcureq, h1⟩
  refine ⟨?_, ?_, ?_, ?_, ?_, ?_⟩
  · -- sub
    intro x hx
    rw [List.append_assoc, List.mem_append] at hx
    rcases hx with hx | hx
    · exact hsub x (by simp [hx])
    · rw [List.mem_append] at hx
      rcases hx with hx | hx
      · simp at hx
        subst hx
        exact hidkeys
      · rw [hb, List.mem_append] at hx
        rcases hx with hx | hx
        · exact hsub x (by simp [hx])
        · exact (hbatch x hx).1
  · -- nodup
    rw [List.append_assoc, List.nodup_append]
    refine ⟨?_, ?_, ?_⟩
    · exact hnodup'.1
    · rw [List.nodup_append]
      refine ⟨List.nodup_singleton id, hb ▸ hnewq_nodup, ?_⟩
      intro a ha
      simp at ha
      subst ha
      rw [hb, List.mem_append]
      rintro (h | h)
      · exact hidnotrest h
      · exact (hbatch a h).2.2.1 (by simp)
    · intro a ha
      rw [List.mem_append]
      rintro (h | h)
      · simp at h
        subst h
        exact hidnotres ha
      · rw [hb, List.mem_append] at h
        rcases h with h | h
        · exact hnodup'.2.2 ha (by simp [h])
        · exact (hbatch a h).2.1 ha
  · -- keysD
    rw [processEdges_keys]
    exact hkeysD
  · -- deg
    intro k hk
    rw [processEdges_deg _ _ _ k, hdeg k hk]
    simp only [Option.map_some']
    congr 1
    rw [count_depOccs adj hnd id k, curDeg_append adj result id k hidnotres]
  · -- closed
    intro k hk
    constructor
    · rintro (h | h)
      · rw [List.mem_append] at h
        rcases h with h | h
        · intro d hd
          exact List.mem_append.mpr (Or.inl ((hclosed k hk).mp (Or.inl h) d hd))
        · simp at h
          subst h
          intro d hd
          exact List.mem_append.mpr (Or.inl ((hclosed k hk).mp (Or.inr (by simp)) d hd))
      · rw [hb, List.mem_append] at h
        rcases h with h | h
        · intro d hd
          exact List.mem_append.mpr (Or.inl ((hclosed k hk).mp (Or.inr (by simp [h])) d hd))
        · obtain ⟨_, _, _, hcureq, _⟩ := hbatch k h
          have : curDeg adj (result ++ [id]) k = 0 := by
            rw [curDeg_append adj result id k hidnotres, hcureq]
            ring
          exact (curDeg_eq_zero_iff adj (result ++ [id]) k).mp this
    · intro hall
      by_cases hallres : ∀ d ∈ depsOf adj k, d ∈ result
      · rcases (hclosed k hk).mpr hallres with h | h
        · exact Or.inl (List.mem_append.mpr (Or.inl h))
        · rcases List.mem_cons.mp h with h | h
          · subst h
            exact Or.inl (List.mem_append.mpr (Or.inr (by simp)))
          · refine Or.inr ?_
            rw [hb]
            exact List.mem_append.mpr (Or.inl h)
      · -- some dependency is exactly id, and k becomes ready now
        have hzero : curDeg adj (result ++ [id]) k = 0 :=
          (curDeg_eq_zero_iff adj (result ++ [id]) k).mpr hall
        rw [curDeg_append adj result id k hidnotres] at hzero
        have hcureq : curDeg adj result k = ((depsOf adj k).count id : Int) := by omega
        have hpos : 1 ≤ curDeg adj result k := by
          have : ¬ curDeg adj result k = 0 := by
            intro h0
            exact hallres ((curDeg_eq_zero_iff adj result k).mp h0)
          have := curDeg_nonneg adj result k
          omega
        refine Or.inr ?_
        rw [← hb] at *
        apply (processEdges_batch_mem (depOccs adj id) inDeg rest k).mpr
        refine Or.inr ⟨curDeg adj result k, hdeg k hk, hpos, ?_⟩
        rw [count_depOccs adj hnd id k, ← hcureq]
  · -- ordered
    intro n hn
    rw [List.length_append, List.length_singleton] at hn
    by_cases hlt : n < result.length
    · have hget : (result ++ [id]).get ⟨n, by rw [List.length_append]; omega⟩ =
          result.get ⟨n, hlt⟩ := List.get_append n hlt
      rw [hget]
      intro d hd
      have := hordered n hlt d hd
      have htake : (result ++ [id]).take n = result.take n :=
        List.take_append_of_le_length (le_of_lt hlt)
      rw [htake]
      exact this
    · have hn' : n = result.length := by omega
      subst hn'
      have hget : (result ++ [id]).get ⟨result.length, by simp⟩ = id := by
        rw [List.get_append_right] <;> simp
      rw [hget]
      intro d hd
      have htake : (result ++ [id]).take result.length = result := List.take_left _ _
      rw [htake]
      exact (hclosed id hidkeys).mp (Or.inr (by simp)) d hd

theorem sortLoop_invariant (adj : List (RId × List RId)) (hnd : (alKeys adj).Nodup)
    (G : List (RId × List RId))
    (hG : ∀ d, alGet G d = if d ∈ alKeys adj then some (depOccs adj d) else none) :
    ∀ m inDeg queue result, degSum inDeg + queue.length ≤ m →
      KahnInv adj inDeg queue result →
      ∃ D', KahnInv adj D' [] (sortLoop G inDeg queue result) := by
  intro m
  induction m with
  | zero =>
      intro inDeg queue result hle hinv
      have hq : queue = [] := by
        cases queue with
        | nil => rfl
        | cons a as => simp [List.length_cons] at hle
      subst hq
      rw [sortLoop]
      exact ⟨inDeg, hinv⟩
  | succ m ih =>
      intro inDeg queue result hle hinv
      cases queue with
      | nil =>
          rw [sortLoop]
          exact ⟨inDeg, hinv⟩
      | cons id rest =>
          rw [sortLoop]
          have hid : id ∈ alKeys adj := hinv.sub id (by simp)
          have hds : (alGet G id).getD [] = depOccs adj id := by
            rw [hG id, if_pos hid]
            rfl
          simp only [hds]
          have hstep := kahnInv_step adj hnd inDeg id rest result hinv
          apply ih _ _ _ ?_ hstep
          have hmeas := processEdges_measure (depOccs adj id) inDeg rest
          simp only [List.length_cons] at hle
          omega

/-- Instrumented variant of the Kahn work loop: records, for each
dequeued id in order, the ids its relaxation step released into the
queue (and hence the groups of simultaneously-ready ids). -/
def sortLoopB (graph : List (RId × List RId)) (inDeg : List (RId × Int))
    (queue : List RId) : List (List RId) :=
  match queue with
  | [] => []
  | id :: rest =>
      let st := processEdges ((alGet graph id).getD []) inDeg rest
      (st.2.drop rest.length) :: sortLoopB graph st.1 st.2
termination_by degSum inDeg + queue.length
decreasing_by
  have := processEdges_measure ((alGet graph id).getD []) inDeg rest
  simp only [List.length_cons]
  omega

theorem sortLoop_eq_join (G : List (RId × List RId)) :
    ∀ m inDeg queue result, degSum inDeg + queue.length ≤ m →
      sortLoop G inDeg queue result =
        result ++ queue ++ (sortLoopB G inDeg queue).join := by
  intro m
  induction m with
  | zero =>
      intro inDeg queue result hle
      have hq : queue = [] := by
        cases queue with
        | nil => rfl
        | cons a as => simp [List.length_cons] at hle
      subst hq
      rw [sortLoop, sortLoopB]
      simp
  | succ m ih =>
      intro inDeg queue result hle
      cases queue with
      | nil =>
          rw [sortLoop, sortLoopB]
          simp
      | cons id rest =>
          rw [sortLoop, sortLoopB]
          obtain ⟨b, hb, _⟩ :=
            processEdges_batch_sublist ((alGet G id).getD []) inDeg rest
          have hmeas := processEdges_measure ((alGet G id).getD []) inDeg rest
          have hrec := ih (processEdges ((alGet G id).getD []) inDeg rest).1
            (processEdges ((alGet G id).getD []) inDeg rest).2 (result ++ [id])
            (by simp only [List.length_cons] at hle; omega)
          rw [hrec, hb]
          have hdrop : (rest ++ b).drop rest.length = b := List.drop_left rest b
          rw [hdrop]
          simp [List.append_assoc]

theorem sortLoopB_batches (adj : List (RId × List RId)) (hnd : (alKeys adj).Nodup)
    (G : List (RId × List RId))
    (hG : ∀ d, alGet G d = if d ∈ alKeys adj then some (depOccs adj d) else none) :
    ∀ m inDeg queue result, degSum inDeg + queue.length ≤ m →
      KahnInv adj inDeg queue result →
      ∀ b ∈ sortLoopB G inDeg queue,
        b.Nodup ∧ ∃ r ∈ alKeys adj, b.Sublist (depOccs adj r) := by
  intro m
  induction m with
  | zero =>
      intro inDeg queue result hle hinv b hbmem
      have hq : queue = [] := by
        cases queue with
        | nil => rfl
        | cons a as => simp [List.length_cons] at hle
      subst hq
      rw [sortLoopB] at hbmem
      cases hbmem
  | succ m ih =>
      intro inDeg queue result hle hinv b hbmem
      cases queue with
      | nil =>
          rw [sortLoopB] at hbmem
          cases hbmem
      | cons id rest =>
          rw [sortLoopB] at hbmem
          simp only [List.mem_cons] at hbmem
          have hid : id ∈ alKeys adj := hinv.sub id (by simp)
          have hds : (alGet G id).getD [] = depOccs adj id := by
            rw [hG id, if_pos hid]
            rfl
          obtain ⟨b₀, hb₀, hb₀sub⟩ :=
            processEdges_batch_sublist ((alGet G id).getD []) inDeg rest
          rcases hbmem with hbmem | hbmem
          · -- the head batch
            subst hbmem
            rw [hb₀, List.drop_left]
            constructor
            · -- nodup of the batch
              have hnodup' := List.nodup_append.mp hinv.nodup
              have hqnodup : rest.Nodup := (List.nodup_cons.mp hnodup'.2.1).2
              have hqdeg : ∀ x ∈ rest, ∀ v, alGet inDeg x = some v → v ≤ 0 := by
                intro x hx v hv
                have hxk : x ∈ alKeys adj := hinv.sub x (by simp [hx])
                rw [hinv.deg x hxk] at hv
                cases hv
                have hall : ∀ d ∈ depsOf adj x, d ∈ result :=
                  (hinv.closed x hxk).mp (Or.inr (by simp [hx]))
                have := (curDeg_eq_zero_iff adj result x).mpr hall
                omega
              obtain ⟨hnq, _⟩ :=
                processEdges_nodup ((alGet G id).getD []) inDeg rest hqnodup hqdeg
              rw [hb₀] at hnq
              exact (List.nodup_append.mp hnq).2.1
            · refine ⟨id, hid, ?_⟩
              rw [← hds]
              exact hb₀sub
          · -- a later batch: recurse through the preserved invariant
            have hstep := kahnInv_step adj hnd inDeg id rest result hinv
            rw [← hds] at hstep
            have hmeas := processEdges_measure ((alGet G id).getD []) inDeg rest
            exact ih _ _ _ (by simp only [List.length_cons] at hle; omega) hstep b hbmem

/-- Position of an id in the declaration order of the config. -/
def declIdx (adj : List (RId × List RId)) (x : RId) : Nat := (alKeys adj).indexOf x

theorem nodup_pairwise_indexOf (l : List RId) (hnd : l.Nodup) :
    l.Pairwise (fun a c => l.indexOf a < l.indexOf c) := by
  rw [List.pairwise_iff_getElem]
  intro i j hi hj hij
  rw [List.indexOf_getElem hnd i hi, List.indexOf_getElem hnd j hj]
  exact hij

theorem indexOf_lt_of_mem_take (l : List RId) (n : Nat) (d : RId)
    (h : d ∈ l.take n) : l.indexOf d < n := by
  induction l generalizing n with
  | nil => simp at h
  | cons a as ih =>
      cases n with
      | zero => simp at h
      | succ n =>
          rw [List.take_succ_cons] at h
          by_cases hc : a = d
          · subst hc
            rw [List.indexOf_cons_self]
            omega
          · rcases List.mem_cons.mp h with h | h
            · exact absurd h.symm hc
            · rw [List.indexOf_cons_ne as hc]
              have := ih n h
              omega

theorem ordered_indexOf (adj : List (RId × List RId)) (R : List RId)
    (hord : ∀ n (hn : n < R.length), ∀ d ∈ depsOf adj (R.get ⟨n, hn⟩), d ∈ R.take n)
    (k : RId) (hk : k ∈ R) (d : RId) (hd : d ∈ depsOf adj k) :
    R.indexOf d < R.indexOf k := by
  have hn : R.indexOf k < R.length := List.indexOf_lt_length.mpr hk
  have hget : R.get ⟨R.indexOf k, hn⟩ = k := List.indexOf_get hn
  have := hord (R.indexOf k) hn d (by rw [hget]; exact hd)
  exact indexOf_lt_of_mem_take R (R.indexOf k) d this

/-- The declared dependency relation: `DepEdge adj d k` holds when the
configured resource `k` lists `d` among its (flattened) dependencies. -/
def DepEdge (adj : List (RId × List RId)) (d k : RId) : Prop :=
  k ∈ alKeys adj ∧ d ∈ depsOf adj k

theorem alGet_mem (l : List (RId × α)) (k : RId) (v : α) (h : alGet l k = some v) :
    (k, v) ∈ l := by
  induction l with
  | nil => cases h
  | cons p rest ih =>
      obtain ⟨k', v'⟩ := p
      rw [alGet_cons] at h
      by_cases hc : k' = k
      · rw [if_pos hc] at h
        cases h
        subst hc
        simp
      · rw [if_neg hc] at h
        exact List.mem_cons.mpr (Or.inr (ih h))

theorem depsOf_entry (adj : List (RId × List RId)) (k : RId) (hk : k ∈ alKeys adj) :
    (k, depsOf adj k) ∈ adj := by
  obtain ⟨v, hv⟩ := Option.isSome_iff_exists.mp (alGet_isSome_of_mem adj k hk)
  have : depsOf adj k = v := by simp [depsOf, hv]
  rw [this]
  exact alGet_mem adj k v hv

theorem keys_complete (adj : List (RId × List RId))
    (hex : ∀ p ∈ adj, ∀ d ∈ p.2, d ∈ alKeys adj)
    (rank : RId → Nat) (hrank : ∀ p ∈ adj, ∀ d ∈ p.2, rank d < rank p.1)
    (R : List RId)
    (hclosed : ∀ k ∈ alKeys adj, (k ∈ R ↔ ∀ d ∈ depsOf adj k, d ∈ R)) :
    ∀ k ∈ alKeys adj, k ∈ R := by
  suffices H : ∀ n k, k ∈ alKeys adj → rank k < n → k ∈ R by
    intro k hk
    exact H (rank k + 1) k hk (by omega)
  intro n
  induction n with
  | zero =>
      intro k hk h
      omega
  | succ n ih =>
      intro k hk hlt
      apply (hclosed k hk).mpr
      intro d hd
      have hentry := depsOf_entry adj k hk
      have hdk : d ∈ alKeys adj := hex _ hentry d hd
      have hr : rank d < rank k := hrank _ hentry d hd
      exact ih d hdk (by omega)

theorem transGen_indexOf (adj : List (RId × List RId)) (R : List RId)
    (hord : ∀ n (hn : n < R.length), ∀ d ∈ depsOf adj (R.get ⟨n, hn⟩), d ∈ R.take n)
    (hall : ∀ x ∈ alKeys adj, x ∈ R) (d k : RId)
    (h : Relation.TransGen (DepEdge adj) d k) :
    R.indexOf d < R.indexOf k := by
  induction h with
  | single h =>
      exact ordered_indexOf adj R hord _ (hall _ h.1) _ h.2
  | tail _ h ih =>
      have := ordered_indexOf adj R hord _ (hall _ h.1) _ h.2
      omega

theorem depOccs_pairwise_le (adj : List (RId × List RId)) (hnd : (alKeys adj).Nodup)
    (r : RId) :
    (depOccs adj r).Pairwise (fun a c => declIdx adj a ≤ declIdx adj c) := by
  have hkeys : adj.Pairwise (fun p q => declIdx adj p.1 < declIdx adj q.1) := by
    have h1 := nodup_pairwise_indexOf (alKeys adj) hnd
    have h2 : (List.map Prod.fst adj).Pairwise
        (fun a c => (alKeys adj).indexOf a < (alKeys adj).indexOf c) := h1
    exact List.Pairwise.of_map Prod.fst (fun a b h => h) h2
  rw [depOccs, List.pairwise_flatMap]
  constructor
  · intro p _
    rw [List.pairwise_replicate]
    exact Or.inr (le_refl _)
  · refine hkeys.imp_of_mem ?_
    intro p q _ _ hpq x hx y hy
    rw [List.eq_of_mem_replicate hx, List.eq_of_mem_replicate hy]
    exact le_of_lt hpq

theorem batch_pairwise_lt (adj : List (RId × List RId)) (hnd : (alKeys adj).Nodup)
    (b : List RId) (r : RId) (hsub : b.Sublist (depOccs adj r)) (hbnodup : b.Nodup) :
    b.Pairwise (fun a c => declIdx adj a < declIdx adj c) := by
  have hle : b.Pairwise (fun a c => declIdx adj a ≤ declIdx adj c) :=
    (depOccs_pairwise_le adj hnd r).sublist hsub
  have hmem : ∀ x ∈ b, x ∈ alKeys adj :=
    fun x hx => depOccs_mem_keys adj r x (hsub.subset hx)
  have hand := hle.and hbnodup
  refine hand.imp_of_mem ?_
  intro a c ha hc hr
  have hne : a ≠ c := hr.2
  have hlt : declIdx adj a ≠ declIdx adj c := by
    intro heq
    exact hne ((List.indexOf_inj (hmem a ha) (hmem c hc)).mp heq)
  omega

theorem sublist_keys_pairwise_lt (adj : List (RId × List RId)) (hnd : (alKeys adj).Nodup)
    (s : List RId) (hsub : s.Sublist (alKeys adj)) :
    s.Pairwise (fun a c => declIdx adj a < declIdx adj c) :=
  (nodup_pairwise_indexOf (alKeys adj) hnd).sublist hsub

theorem alGet_of_mem_nodup (l : List (RId × α)) (hnd : (alKeys l).Nodup)
    (p : RId × α) (hp : p ∈ l) : alGet l p.1 = some p.2 := by
  induction l with
  | nil => cases hp
  | cons q rest ih =>
      simp only [alKeys_cons, List.nodup_cons] at hnd
      rcases List.mem_cons.mp hp with h | h
      · subst h
        rw [alGet_cons, if_pos rfl]
      · have hne : q.1 ≠ p.1 := by
          intro he
          exact hnd.1 (he ▸ List.mem_map_of_mem Prod.fst h)
        rw [alGet_cons, if_neg hne]
        exact ih hnd.2 h

theorem topologicalSortAdj_eq (adj G : List (RId × List RId)) (D : List (RId × Int))
    (h : buildGraphs adj = .ok (G, D)) :
    topologicalSortAdj adj =
      if (sortLoop G D (seedQueue D) []).length ≠ adj.length then
        .error (cycleError ((alKeys adj).filter
          (fun id => id ∉ sortLoop G D (seedQueue D) [])))
      else .ok (sortLoop G D (seedQueue D) []) := by
  rw [topologicalSortAdj, h]
  rfl

theorem sortRun_spec (adj : List (RId × List RId)) (hnd : (alKeys adj).Nodup)
    (hex : ∀ p ∈ adj, ∀ d ∈ p.2, d ∈ alKeys adj) :
    ∃ G D R, buildGraphs adj = .ok (G, D) ∧
      sortLoop G D (seedQueue D) [] = R ∧
      (∀ x ∈ R, x ∈ alKeys adj) ∧ R.Nodup ∧
      (∀ k ∈ alKeys adj, (k ∈ R ↔ ∀ d ∈ depsOf adj k, d ∈ R)) ∧
      (∀ n (hn : n < R.length), ∀ d ∈ depsOf adj (R.get ⟨n, hn⟩), d ∈ R.take n) ∧
      R = seedQueue D ++ (sortLoopB G D (seedQueue D)).flatten ∧
      (seedQueue D).Pairwise (fun a c => declIdx adj a < declIdx adj c) ∧
      (∀ b ∈ sortLoopB G D (seedQueue D),
        b.Pairwise (fun a c => declIdx adj a < declIdx adj c)) := by
  obtain ⟨G, D, hrun, hGk, hDk, hGf, hDf⟩ := buildGraphs_ok adj hex
  have hinit : KahnInv adj D (seedQueue D) [] := kahnInv_init adj hnd D hDk hDf
  obtain ⟨D', hfin⟩ := sortLoop_invariant adj hnd G hGf
    (degSum D + (seedQueue D).length) D (seedQueue D) [] le_rfl hinit
  refine ⟨G, D, sortLoop G D (seedQueue D) [], hrun, rfl, ?_, ?_, ?_, ?_, ?_, ?_, ?_⟩
  · intro x hx
    exact hfin.sub x (by simp [hx])
  · have := hfin.nodup
    simpa using this
  · intro k hk
    have := hfin.closed k hk
    simpa using this
  · exact hfin.ordered
  · have := sortLoop_eq_join G (degSum D + (seedQueue D).length) D (seedQueue D) [] le_rfl
    simpa using this
  · exact sublist_keys_pairwise_lt adj hnd (seedQueue D) (hDk ▸ seedQueue_sublist D)
  · intro b hb
    obtain ⟨hbnodup, r, _, hbsub⟩ := sortLoopB_batches adj hnd G hGf
      (degSum D + (seedQueue D).length) D (seedQueue D) [] le_rfl hinit b hb
    exact batch_pairwise_lt adj hnd b r hbsub hbnodup

theorem cycle_not_mem_run (adj : List (RId × List RId)) (R : List RId)
    (hclosed : ∀ k ∈ alKeys adj, (k ∈ R ↔ ∀ d ∈ depsOf adj k, d ∈ R))
    (hord : ∀ n (hn : n < R.length), ∀ d ∈ depsOf adj (R.get ⟨n, hn⟩), d ∈ R.take n)
    (x : RId) (hx : Relation.TransGen (DepEdge adj) x x) : x ∉ R := by
  intro hxR
  have key : ∀ d k, Relation.TransGen (DepEdge adj) d k → k ∈ R →
      d ∈ R ∧ R.indexOf d < R.indexOf k := by
    intro d k h
    induction h with
    | single h =>
        intro hkR
        have hdR : d ∈ R := (hclosed _ h.1).mp hkR _ h.2
        exact ⟨hdR, ordered_indexOf adj R hord _ hkR _ h.2⟩
    | tail _ h ih =>
        intro hkR
        have hmR : _ ∈ R := (hclosed _ h.1).mp hkR _ h.2
        obtain ⟨hdR, hlt⟩ := ih hmR
        exact ⟨hdR, lt_trans hlt (ordered_indexOf adj R hord _ hkR _ h.2)⟩
  obtain ⟨_, hlt⟩ := key x x hx hxR
  omega

theorem transGen_mem_keys (adj : List (RId × List RId)) (x : RId)
    (h : Relation.TransGen (DepEdge adj) x x) : x ∈ alKeys adj := by
  cases h with
  | single h => exact h.1
  | tail _ h => exact h.1

/-- Instrumented companion of `topologicalSortAdj`: the initial queue of
in-degree-zero ids, and, for each processed id in order, the group of
ids that its relaxation released into the queue simultaneously.  The
first theorem below proves that the sorter's result is exactly the
seeds followed by these groups, flattened in order. -/
def topologicalSortBatches (adj : List (RId × List RId)) :
    Option (List RId × List (List RId)) :=
  match buildGraphs adj with
  | .error _ => none
  | .ok st => some (seedQueue st.2, sortLoopB st.1 st.2 (seedQueue st.2))

theorem topologicalSortAdj_correct (adj : List (RId × List RId))
    (hnd : (alKeys adj).Nodup)
    (hex : ∀ p ∈ adj, ∀ d ∈ p.2, d ∈ alKeys adj)
    (rank : RId → Nat) (hrank : ∀ p ∈ adj, ∀ d ∈ p.2, rank d < rank p.1) :
    ∃ R seeds batches, topologicalSortAdj adj = .ok R ∧
      R.Perm (alKeys adj) ∧
      (∀ k ∈ alKeys adj, ∀ d ∈ depsOf adj k, R.indexOf d < R.indexOf k) ∧
      topologicalSortBatches adj = some (seeds, batches) ∧
      R = seeds ++ batches.flatten ∧
      seeds.Pairwise (fun a c => declIdx adj a < declIdx adj c) ∧
      (∀ b ∈ batches, b.Pairwise (fun a c => declIdx adj a < declIdx adj c)) := by
  obtain ⟨G, D, R, hbuild, hReq, hsub, hnodup, hclosed, hord, hjoin, hseedpw, hbatchpw⟩ :=
    sortRun_spec adj hnd hex
  have hcomplete : ∀ k ∈ alKeys adj, k ∈ R :=
    keys_complete adj hex rank hrank R hclosed
  have hperm : R.Perm (alKeys adj) :=
    (List.perm_ext_iff_of_nodup hnodup hnd).mpr
      (fun a => ⟨fun h => hsub a h, fun h => hcomplete a h⟩)
  have hlen : R.length = adj.length := by
    rw [hperm.length_eq]
    simp [alKeys]
  refine ⟨R, seedQueue D, sortLoopB G D (seedQueue D), ?_, hperm, ?_, ?_, hjoin,
    hseedpw, hbatchpw⟩
  · rw [topologicalSortAdj_eq adj G D hbuild, hReq, if_neg (by omega)]
  · intro k hk d hd
    exact ordered_indexOf adj R hord k (hcomplete k hk) d hd
  · rw [topologicalSortBatches, hbuild]

theorem topologicalSortAdj_cycle_error (adj : List (RId × List RId))
    (hnd : (alKeys adj).Nodup)
    (hex : ∀ p ∈ adj, ∀ d ∈ p.2, d ∈ alKeys adj)
    (x : RId) (hx : Relation.TransGen (DepEdge adj) x x) :
    ∃ u, topologicalSortAdj adj = .error (cycleError u) ∧ u ≠ [] ∧
      (∀ y ∈ u, y ∈ alKeys adj) ∧
      (∀ y, Relation.TransGen (DepEdge adj) y y → y ∈ u) := by
  obtain ⟨G, D, R, hbuild, hReq, hsub, hnodup, hclosed, hord, _, _, _⟩ :=
    sortRun_spec adj hnd hex
  have hxkeys : x ∈ alKeys adj := transGen_mem_keys adj x hx
  have hxnot : x ∉ R := cycle_not_mem_run adj R hclosed hord x hx
  have hlen : R.length ≠ adj.length := by
    intro heq
    have hsubperm : R.Subperm (alKeys adj) :=
      List.subperm_of_subset hnodup (fun a ha => hsub a ha)
    have hperm : R.Perm (alKeys adj) := by
      apply hsubperm.perm_of_length_le
      rw [heq]
      simp [alKeys]
    exact hxnot (hperm.mem_iff.mpr hxkeys)
  refine ⟨(alKeys adj).filter (fun id => id ∉ R), ?_, ?_, ?_, ?_⟩
  · rw [topologicalSortAdj_eq adj G D hbuild, hReq, if_pos hlen]
  · have hxmem : x ∈ (alKeys adj).filter (fun id => id ∉ R) :=
      List.mem_filter.mpr ⟨hxkeys, by simpa using hxnot⟩
    exact List.ne_nil_of_mem hxmem
  · intro y hy
    exact (List.mem_filter.mp hy).1
  · intro y hy
    exact List.mem_filter.mpr ⟨transGen_mem_keys adj y hy,
      by simpa using cycle_not_mem_run adj R hclosed hord y hy⟩

theorem topologicalSortAdj_missing_error (adj : List (RId × List RId))
    (hmiss : ∃ p ∈ adj, ∃ d ∈ p.2, d ∉ alKeys adj) :
    ∃ e, topologicalSortAdj adj = .error e ∧
      ∃ p ∈ adj, ∃ d ∈ p.2, d ∉ alKeys adj ∧ e = missingDepError p.1 d := by
  obtain ⟨e, hrun, p, hp, d, hd, hnot, he⟩ := buildGraphs_error adj hmiss
  refine ⟨e, ?_, p, hp, d, hd, hnot, he⟩
  rw [topologicalSortAdj, hrun]
  rfl

/-! ## Resources and the topology builder (src/topology.ts) -/

/-- A dependency-resolution map handed to `assert` and `start`
(JavaScript `Record<string, any>` in insertion order). -/
abbrev DepMap := List (RId × JsValue)

/-- Embedding of the `Resource` runtime type (src/resource.ts) as the
orchestrator consumes it: the flat dependency id list (absent allowed),
the optional assertion, and the start/halt operations.  Operations are
the caller's opaque callbacks, modelled as pure functions whose thrown
errors appear as `Except.error`. -/
structure Resource where
  dependencies : Option (List RId)
  assert : Option (DepMap → Except RError Unit)
  start : DepMap → Except RError JsValue
  halt : JsValue → Except RError Unit

/-- The flattened adjacency the sorter and topology builder read off a
config: `resource.dependencies || []` per id, in declaration order. -/
def resourceAdj (resources : List (RId × Resource)) : List (RId × List RId) :=
  resources.map (fun p => (p.1, p.2.dependencies.getD []))

/-- Embedding of `topologicalSort` (src/topological-sort.ts) on a
resource record. -/
def topologicalSort (resources : List (RId × Resource)) : Except RError (List RId) :=
  topologicalSortAdj (resourceAdj resources)

/-- A resource node of the topology view. -/
structure TopologyNode where
  id : RId
  dependencies : List RId
  dependents : List RId
  depth : Nat
deriving DecidableEq, Repr

/-- A depth layer of the topology view. -/
structure TopologyLayer where
  depth : Nat
  resources : List TopologyNode
deriving DecidableEq, Repr

/-- The complete topology structure returned by `buildTopology`. -/
structure SystemTopology where
  layers : List TopologyLayer
  graph : List (RId × List RId)
  dependents : List (RId × List RId)
  depths : List (RId × Nat)
  totalResources : Nat
  maxDepth : Nat
  startupOrder : List RId
  shutdownOrder : List RId
deriving DecidableEq, Repr

/-- Inner loop of the reverse-graph construction: push `id` onto the
dependents list of each of its dependencies.  (A dependency id absent
from the map cannot occur after graph validation; the totalization
leaves the map unchanged there.) -/
def pushDependents (id : RId) (deps : List RId) (acc : List (RId × List RId)) :
    List (RId × List RId) :=
  match deps with
  | [] => acc
  | dep :: rest =>
      match alGet acc dep with
      | none => pushDependents id rest acc
      | some l => pushDependents id rest (alSet acc dep (l ++ [id]))

/-- Outer loop of the reverse-graph construction, over the forward
graph's entries in declaration order. -/
def addDependents (entries : List (RId × List RId)) (acc : List (RId × List RId)) :
    List (RId × List RId) :=
  match entries with
  | [] => acc
  | (id, deps) :: rest => addDependents rest (pushDependents id deps acc)

/-- The depth computation of `buildTopology`: walk the (already
validated) topological order; depth 0 for a resource without
dependencies, otherwise one more than the maximum depth over its
dependencies (all already present in the accumulator for a valid
order; an absent lookup — impossible then — defaults to 0). -/
def computeDepths (graph : List (RId × List RId)) :
    List RId → List (RId × Nat) → List (RId × Nat)
  | [], acc => acc
  | id :: rest, acc =>
      let ds := (alGet graph id).getD []
      let v := if ds.isEmpty then 0
        else (ds.map (fun d => (alGet acc d).getD 0)).foldl Nat.max 0 + 1
      computeDepths graph rest (alSet acc id v)

/-- Embedding of `buildTopology` (src/topology.ts, lines 88–150),
parameterized by the flattened adjacency in declaration order and the
topological order. -/
def buildTopologyAdj (adj : List (RId × List RId)) (order : List RId) : SystemTopology :=
  let dependents := addDependents adj (adj.map (fun p => (p.1, ([] : List RId))))
  let depths := computeDepths adj order []
  let maxDepth := if depths.isEmpty then 0
    else (depths.map Prod.snd).foldl Nat.max 0
  let layers := (List.range (maxDepth + 1)).map (fun depth =>
    { depth := depth
      resources := (depths.filter (fun p => p.2 = depth)).map (fun p =>
        { id := p.1
          dependencies := (alGet adj p.1).getD []
          dependents := (alGet dependents p.1).getD []
          depth := depth : TopologyNode }) : TopologyLayer })
  { layers := layers
    graph := adj
    dependents := dependents
    depths := depths
    totalResources := adj.length
    maxDepth := maxDepth
    startupOrder := order
    shutdownOrder := order.reverse }

/-- Embedding of `buildTopology` on a resource record. -/
def buildTopology (resources : List (RId × Resource)) (order : List RId) : SystemTopology :=
  buildTopologyAdj (resourceAdj resources) order

theorem computeDepths_spec (graph : List (RId × List RId)) :
    ∀ (order : List RId) (acc : List (RId × Nat)),
      order.Nodup →
      (∀ k ∈ order, alGet acc k = none) →
      (∀ n (hn : n < order.length),
        ∀ d ∈ (alGet graph (order.get ⟨n, hn⟩)).getD [],
          d ∈ alKeys acc ∨ d ∈ order.take n) →
      (∀ k, k ∉ order → alGet (computeDepths graph order acc) k = alGet acc k) ∧
      alKeys (computeDepths graph order acc) = alKeys acc ++ order ∧
      (∀ n (hn : n < order.length),
        alGet (computeDepths graph order acc) (order.get ⟨n, hn⟩) =
          some (
            if ((alGet graph (order.get ⟨n, hn⟩)).getD []).isEmpty then 0
            else (((alGet graph (order.get ⟨n, hn⟩)).getD []).map
              (fun d => (alGet (computeDepths graph order acc) d).getD 0)).foldl
                Nat.max 0 + 1)) := by
  intro order
  induction order with
  | nil =>
      intro acc _ _ _
      refine ⟨fun k _ => rfl, by simp [computeDepths], ?_⟩
      intro n hn
      simp at hn
  | cons id rest ih =>
      intro acc hnd hdisj hprec
      have hidnone : alGet acc id = none := hdisj id (by simp)
      have hidnotk : id ∉ alKeys acc := by
        intro hmem
        have := alGet_isSome_of_mem acc id hmem
        rw [hidnone] at this
        cases this
      have hndc := List.nodup_cons.mp hnd
      set ds := (alGet graph id).getD [] with hds
      set v := if ds.isEmpty then 0
        else (ds.map (fun d => (alGet acc d).getD 0)).foldl Nat.max 0 + 1 with hv
      have hstep : computeDepths graph (id :: rest) acc =
          computeDepths graph rest (alSet acc id v) := by
        rw [computeDepths]
      have hkeys' : alKeys (alSet acc id v) = alKeys acc ++ [id] := by
        rw [alKeys_alSet]
        simp [alHas, hidnone]
      have hdisj' : ∀ k ∈ rest, alGet (alSet acc id v) k = none := by
        intro k hk
        have hne : id ≠ k := fun he => hndc.1 (he ▸ hk)
        rw [alGet_alSet_ne _ _ _ _ hne]
        exact hdisj k (by simp [hk])
      have hprec' : ∀ n (hn : n < rest.length),
          ∀ d ∈ (alGet graph (rest.get ⟨n, hn⟩)).getD [],
            d ∈ alKeys (alSet acc id v) ∨ d ∈ rest.take n := by
        intro n hn d hd
        have := hprec (n + 1) (by simp; omega) d (by simpa using hd)
        rw [hkeys']
        rcases this with h | h
        · exact Or.inl (by simp [h])
        · rw [List.take_succ_cons] at h
          rcases List.mem_cons.mp h with h | h
          · exact Or.inl (by simp [h])
          · exact Or.inr h
      obtain ⟨ihS1, ihS2, ihS3⟩ := ih (alSet acc id v) hndc.2 hdisj' hprec'
      have hfinal_id : alGet (computeDepths graph rest (alSet acc id v)) id = some v := by
        rw [ihS1 id hndc.1, alGet_alSet_self]
      have hstable : ∀ d, d ∈ alKeys acc →
          alGet (computeDepths graph rest (alSet acc id v)) d = alGet acc d := by
        intro d hdk
        have hdnone : d ∉ (id :: rest) := by
          intro hmem
          have h1 := hdisj d hmem
          have h2 := alGet_isSome_of_mem acc d hdk
          rw [h1] at h2
          cases h2
        have hdnr : d ∉ rest := fun h => hdnone (by simp [h])
        have hdni : id ≠ d := fun he => hdnone (by simp [he])
        rw [ihS1 d hdnr, alGet_alSet_ne _ _ _ _ hdni]
      refine ⟨?_, ?_, ?_⟩
      · intro k hk
        rw [hstep]
        have hknr : k ∉ rest := fun h => hk (by simp [h])
        have hkni : id ≠ k := fun he => hk (by simp [he])
        rw [ihS1 k hknr, alGet_alSet_ne _ _ _ _ hkni]
      · rw [hstep, ihS2, hkeys']
        simp
      · intro n hn
        rw [hstep]
        cases n with
        | zero =>
            have hget0 : (id :: rest).get ⟨0, hn⟩ = id := rfl
            rw [hget0, hfinal_id, ← hds]
            have hmapeq : List.map
                (fun d => (alGet (computeDepths graph rest (alSet acc id v)) d).getD 0) ds
                = List.map (fun d => (alGet acc d).getD 0) ds := by
              apply List.map_congr_left
              intro d hd
              have hmem := hprec 0 (by simp) d hd
              rcases hmem with h | h
              · rw [hstable d h]
              · simp at h
            rw [hmapeq]
        | succ m =>
            have hm : m < rest.length := by
              simp only [List.length_cons] at hn
              omega
            have hget : (id :: rest).get ⟨m + 1, hn⟩ = rest.get ⟨m, hm⟩ := rfl
            rw [hget]
            exact ihS3 m hm

theorem foldl_max_spec (xs : List Nat) :
    (∀ x ∈ xs, x ≤ xs.foldl Nat.max 0) ∧ (xs = [] ∨ xs.foldl Nat.max 0 ∈ xs) := by
  have key : ∀ (a : Nat) (xs : List Nat),
      a ≤ xs.foldl Nat.max a ∧ (∀ x ∈ xs, x ≤ xs.foldl Nat.max a) ∧
      (xs.foldl Nat.max a = a ∨ xs.foldl Nat.max a ∈ xs) := by
    intro a xs
    induction xs generalizing a with
    | nil => exact ⟨le_refl a, by simp, Or.inl rfl⟩
    | cons x rest ih =>
        obtain ⟨h1, h2, h3⟩ := ih (Nat.max a x)
        refine ⟨le_trans (Nat.le_max_left a x) h1, ?_, ?_⟩
        · intro y hy
          rcases List.mem_cons.mp hy with hy | hy
          · subst hy
            exact le_trans (Nat.le_max_right a y) h1
          · exact h2 y hy
        · rcases h3 with h3 | h3
          · have hm : Nat.max a x = a ∨ Nat.max a x = x := by
              rcases Nat.le_total a x with h | h
              · exact Or.inr (Nat.max_eq_right h)
              · exact Or.inl (Nat.max_eq_left h)
            rw [List.foldl_cons]
            rcases hm with hm | hm
            · exact Or.inl (h3.trans hm)
            · refine Or.inr ?_
              rw [h3, hm]
              exact List.mem_cons_self x rest
          · refine Or.inr ?_
            rw [List.foldl_cons]
            exact List.mem_cons.mpr (Or.inr h3)
  obtain ⟨_, h2, h3⟩ := key 0 xs
  refine ⟨h2, ?_⟩
  cases xs with
  | nil => exact Or.inl rfl
  | cons x rest =>
      rcases h3 with h3 | h3
      · refine Or.inr ?_
        have hx := h2 x (by simp)
        rw [h3] at hx ⊢
        have : x = 0 := Nat.le_zero.mp hx
        simp [← this]
      · exact Or.inr h3

theorem filter_map_fst_of_nodup (l : List (RId × Nat)) (hnd : (alKeys l).Nodup) (c : Nat) :
    (l.filter (fun p => p.2 = c)).map Prod.fst =
      (alKeys l).filter (fun k => alGet l k = some c) := by
  induction l with
  | nil => simp
  | cons p rest ih =>
      obtain ⟨k, v⟩ := p
      simp only [alKeys_cons, List.nodup_cons] at hnd
      have hrest : (rest.filter (fun p => p.2 = c)).map Prod.fst =
          (alKeys rest).filter (fun k => alGet rest k = some c) := ih hnd.2
      have hfilter_keys : (alKeys rest).filter (fun x => alGet ((k, v) :: rest) x = some c) =
          (alKeys rest).filter (fun x => alGet rest x = some c) := by
        apply List.filter_congr
        intro x hx
        have hne : k ≠ x := fun he => hnd.1 (he ▸ hx)
        rw [alGet_cons, if_neg hne]
      have hself : alGet ((k, v) :: rest) k = some v := by
        rw [alGet_cons, if_pos rfl]
      by_cases hv : v = c
      · subst hv
        rw [List.filter_cons, alKeys_cons, List.filter_cons]
        simp only [hself, decide_True, if_true, List.map_cons]
        rw [hrest, hfilter_keys]
      · have h2 : ¬ (alGet ((k, v) :: rest) k = some c) := by
          rw [hself]
          intro he
          exact hv (Option.some.inj he)
        rw [List.filter_cons, alKeys_cons, List.filter_cons]
        simp only [hv, h2, decide_False, Bool.false_eq_true, if_false]
        rw [hrest, hfilter_keys]

theorem buildTopologyAdj_depths_def (adj : List (RId × List RId)) (order : List RId) :
    (buildTopologyAdj adj order).depths = computeDepths adj order [] := rfl

theorem buildTopologyAdj_layers_def (adj : List (RId × List RId)) (order : List RId) :
    (buildTopologyAdj adj order).layers =
      (List.range ((buildTopologyAdj adj order).maxDepth + 1)).map (fun depth =>
        { depth := depth
          resources := ((buildTopologyAdj adj order).depths.filter
            (fun p => p.2 = depth)).map (fun p =>
            { id := p.1
              dependencies := (alGet adj p.1).getD []
              dependents := (alGet (buildTopologyAdj adj order).dependents p.1).getD []
              depth := depth : TopologyNode }) : TopologyLayer }) := rfl

theorem buildTopologyAdj_spec (adj : List (RId × List RId)) (order : List RId)
    (hnd : (alKeys adj).Nodup)
    (horder : order.Perm (alKeys adj))
    (hprec : ∀ n (hn : n < order.length),
      ∀ d ∈ (alGet adj (order.get ⟨n, hn⟩)).getD [], d ∈ order.take n) :
    alKeys (buildTopologyAdj adj order).depths = order ∧
    (∀ k ∈ alKeys adj,
      alGet (buildTopologyAdj adj order).depths k =
        some (if (alGet adj k).getD [] = [] then 0
          else (((alGet adj k).getD []).map
            (fun d => (alGet (buildTopologyAdj adj order).depths d).getD 0)).foldl
              Nat.max 0 + 1)) ∧
    (∀ k ∈ alKeys adj, (alGet adj k).getD [] ≠ [] →
      ∃ d₀ ∈ (alGet adj k).getD [],
        alGet (buildTopologyAdj adj order).depths k =
          some ((alGet (buildTopologyAdj adj order).depths d₀).getD 0 + 1) ∧
        ∀ d ∈ (alGet adj k).getD [],
          (alGet (buildTopologyAdj adj order).depths d).getD 0 ≤
            (alGet (buildTopologyAdj adj order).depths d₀).getD 0) ∧
    (∀ k ∈ alKeys adj, ∀ v, alGet (buildTopologyAdj adj order).depths k = some v →
      v ≤ (buildTopologyAdj adj order).maxDepth) ∧
    (adj ≠ [] → ∃ k ∈ alKeys adj,
      alGet (buildTopologyAdj adj order).depths k =
        some (buildTopologyAdj adj order).maxDepth) ∧
    (buildTopologyAdj adj order).layers.map TopologyLayer.depth =
      List.range ((buildTopologyAdj adj order).maxDepth + 1) ∧
    (∀ layer ∈ (buildTopologyAdj adj order).layers,
      layer.resources.map TopologyNode.id =
        order.filter (fun id =>
          alGet (buildTopologyAdj adj order).depths id = some layer.depth)) ∧
    (buildTopologyAdj adj order).startupOrder = order ∧
    (buildTopologyAdj adj order).shutdownOrder = order.reverse := by
  have hordnd : order.Nodup := (horder.nodup_iff).mpr hnd
  obtain ⟨hS1, hS2, hS3⟩ := computeDepths_spec adj order []
    hordnd (fun k _ => rfl)
    (fun n hn d hd => Or.inr (hprec n hn d hd))
  simp only [alKeys_nil, List.nil_append] at hS2
  have hkeysdep : alKeys (buildTopologyAdj adj order).depths = order := by
    rw [buildTopologyAdj_depths_def]
    simpa using hS2
  have hrec : ∀ k ∈ alKeys adj,
      alGet (buildTopologyAdj adj order).depths k =
        some (if (alGet adj k).getD [] = [] then 0
          else (((alGet adj k).getD []).map
            (fun d => (alGet (buildTopologyAdj adj order).depths d).getD 0)).foldl
              Nat.max 0 + 1) := by
    intro k hk
    have hkord : k ∈ order := horder.mem_iff.mpr hk
    have hn : order.indexOf k < order.length := List.indexOf_lt_length.mpr hkord
    have hget : order.get ⟨order.indexOf k, hn⟩ = k := List.indexOf_get hn
    have := hS3 (order.indexOf k) hn
    rw [hget] at this
    rw [buildTopologyAdj_depths_def, this]
    congr 1
    by_cases hempty : (alGet adj k).getD [] = []
    · rw [if_pos (by rw [hempty]; rfl), if_pos hempty]
    · rw [if_neg (by intro h; exact hempty (List.isEmpty_iff.mp h)), if_neg hempty]
  have hmaxD_def : (buildTopologyAdj adj order).maxDepth =
      if (computeDepths adj order []).isEmpty then 0
      else ((computeDepths adj order []).map Prod.snd).foldl Nat.max 0 := rfl
  have hbound : ∀ k ∈ alKeys adj, ∀ v,
      alGet (buildTopologyAdj adj order).depths k = some v →
      v ≤ (buildTopologyAdj adj order).maxDepth := by
    intro k hk v hv
    rw [buildTopologyAdj_depths_def] at hv
    have hmem := alGet_mem _ _ _ hv
    have hvmem : v ∈ (computeDepths adj order []).map Prod.snd :=
      List.mem_map_of_mem Prod.snd hmem
    have hne : ¬ (computeDepths adj order []).isEmpty := by
      intro h
      rw [List.isEmpty_iff] at h
      rw [h] at hmem
      cases hmem
    rw [hmaxD_def, if_neg hne]
    exact (foldl_max_spec _).1 v hvmem
  refine ⟨hkeysdep, hrec, ?_, hbound, ?_, ?_, ?_, rfl, rfl⟩
  · -- max characterization
    intro k hk hne
    have := hrec k hk
    rw [if_neg hne] at this
    obtain ⟨hall, hmem⟩ := foldl_max_spec (((alGet adj k).getD []).map
      (fun d => (alGet (buildTopologyAdj adj order).depths d).getD 0))
    rcases hmem with hnil | hmem
    · rw [List.map_eq_nil_iff] at hnil
      exact absurd hnil hne
    · obtain ⟨d₀, hd₀, hd₀eq⟩ := List.mem_map.mp hmem
      refine ⟨d₀, hd₀, by rw [this, hd₀eq], ?_⟩
      intro d hd
      rw [hd₀eq]
      exact hall _ (List.mem_map_of_mem _ hd)
  · -- max attained
    intro hadj
    have hkeysne : alKeys adj ≠ [] := by
      intro h
      rw [alKeys, List.map_eq_nil_iff] at h
      exact hadj h
    have hordne : order ≠ [] := by
      intro h
      rw [h] at horder
      have : alKeys adj = [] := List.Perm.eq_nil (h ▸ horder.symm)
      exact hkeysne this
    have hdepne : ¬ (computeDepths adj order []).isEmpty := by
      intro h
      rw [List.isEmpty_iff] at h
      have := hS2
      rw [h] at this
      simp only [alKeys_nil, List.nil_append] at this
      exact hordne this.symm
    obtain ⟨_, hmem⟩ := foldl_max_spec ((computeDepths adj order []).map Prod.snd)
    rcases hmem with hnil | hmem
    · rw [List.map_eq_nil_iff, ← List.isEmpty_iff] at hnil
      exact absurd hnil hdepne
    · obtain ⟨⟨k, v⟩, hkv, hveq⟩ := List.mem_map.mp hmem
      have hkord : k ∈ order := by
        have : k ∈ alKeys (computeDepths adj order []) :=
          List.mem_map_of_mem Prod.fst hkv
        rw [hS2] at this
        simpa using this
      refine ⟨k, horder.mem_iff.mp hkord, ?_⟩
      have hnodupd : (alKeys (computeDepths adj order [])).Nodup := by
        rw [hS2]
        simpa using hordnd
      have := alGet_of_mem_nodup _ hnodupd (k, v) hkv
      rw [buildTopologyAdj_depths_def, this, hmaxD_def, if_neg hdepne]
      simp only at hveq
      rw [hveq]
  · -- layer depth sequence
    rw [buildTopologyAdj_layers_def, List.map_map]
    have : (TopologyLayer.depth ∘ fun depth =>
        ({ depth := depth
           resources := ((buildTopologyAdj adj order).depths.filter
             (fun p => p.2 = depth)).map (fun p =>
             { id := p.1
               dependencies := (alGet adj p.1).getD []
               dependents := (alGet (buildTopologyAdj adj order).dependents p.1).getD []
               depth := depth : TopologyNode }) : TopologyLayer })) = fun d => d := by
      funext d
      rfl
    rw [this]
    exact List.map_id _
  · -- layer contents
    intro layer hlayer
    rw [buildTopologyAdj_layers_def] at hlayer
    obtain ⟨d, _, hlayereq⟩ := List.mem_map.mp hlayer
    subst hlayereq
    simp only [List.map_map]
    have hproj : (TopologyNode.id ∘ fun p : RId × Nat =>
        ({ id := p.1
           dependencies := (alGet adj p.1).getD []
           dependents := (alGet (buildTopologyAdj adj order).dependents p.1).getD []
           depth := d : TopologyNode })) = Prod.fst := by
      funext p
      rfl
    rw [hproj]
    have hnodupd : (alKeys (buildTopologyAdj adj order).depths).Nodup := by
      rw [hkeysdep]
      exact hordnd
    rw [filter_map_fst_of_nodup _ hnodupd d, hkeysdep]

/-- C6: for every valid topological order given to `buildTopology`, the
computed depth of every id equals 0 when the id has no dependencies and
otherwise 1 plus the maximum depth over its declared dependencies;
`maxDepth` equals the maximum of these depths (every depth is bounded by
it and it is attained); and the layers group ids by depth in ascending
depth order (depths 0, 1, …, maxDepth), each layer keeping its ids in
the order they occur in the topological order. -/
theorem C6_buildTopology_depths_layers (resources : List (RId × Resource)) (order : List RId)
    (hnd : (alKeys (resourceAdj resources)).Nodup)
    (horder : order.Perm (alKeys (resourceAdj resources)))
    (hprec : ∀ n, n < order.length →
      ∀ d ∈ (alGet (resourceAdj resources) (order.getD n "")).getD [],
        d ∈ order.take n) :
    (∀ k ∈ alKeys (resourceAdj resources),
      alGet (buildTopology resources order).depths k =
        some (if (alGet (resourceAdj resources) k).getD [] = [] then 0
          else (((alGet (resourceAdj resources) k).getD []).map
            (fun d => (alGet (buildTopology resources order).depths d).getD 0)).foldl
              Nat.max 0 + 1)) ∧
    (∀ k ∈ alKeys (resourceAdj resources), (alGet (resourceAdj resources) k).getD [] ≠ [] →
      ∃ d₀ ∈ (alGet (resourceAdj resources) k).getD [],
        alGet (buildTopology resources order).depths k =
          some ((alGet (buildTopology resources order).depths d₀).getD 0 + 1) ∧
        ∀ d ∈ (alGet (resourceAdj resources) k).getD [],
          (alGet (buildTopology resources order).depths d).getD 0 ≤
            (alGet (buildTopology resources order).depths d₀).getD 0) ∧
    (∀ k ∈ alKeys (resourceAdj resources), ∀ v,
      alGet (buildTopology resources order).depths k = some v →
      v ≤ (buildTopology resources order).maxDepth) ∧
    (resources ≠ [] → ∃ k ∈ alKeys (resourceAdj resources),
      alGet (buildTopology resources order).depths k =
        some (buildTopology resources order).maxDepth) ∧
    ((buildTopology resources order).layers.map TopologyLayer.depth =
      List.range ((buildTopology resources order).maxDepth + 1)) ∧
    (∀ layer ∈ (buildTopology resources order).layers,
      layer.resources.map TopologyNode.id =
        order.filter (fun id =>
          alGet (buildTopology resources order).depths id = some layer.depth)) := by
  have hprec' : ∀ n (hn : n < order.length),
      ∀ d ∈ (alGet (resourceAdj resources) (order.get ⟨n, hn⟩)).getD [],
        d ∈ order.take n := by
    intro n hn d hd
    apply hprec n hn d
    have : order.getD n "" = order.get ⟨n, hn⟩ := by
      rw [List.getD_eq_getElem order "" hn]
      rfl
    rw [this]
    exact hd
  obtain ⟨_, hrec, hmaxchar, hbound, hattain, hlayerd, hlayerc, _, _⟩ :=
    buildTopologyAdj_spec (resourceAdj resources) order hnd horder hprec'
  refine ⟨hrec, hmaxchar, hbound, ?_, hlayerd, hlayerc⟩
  intro hne
  apply hattain
  intro h
  rw [resourceAdj] at h
  exact hne (List.map_eq_nil_iff.mp h)

/-! ## The orchestrator (src/system.ts): start pass -/

/-- Operation-invocation events recorded by the orchestrator models
(observational instrumentation: the trace is output-only). -/
inductive REvent where
  | asserted (id : RId) (deps : DepMap)
  | startCalled (id : RId) (deps : DepMap)
  | haltCalled (id : RId) (inst : JsValue)
deriving DecidableEq, Repr

/-- Resource lifecycle statuses (src/resource.ts). -/
inductive RStatus where
  | stopped
  | starting
  | started
  | failed
  | skipped
  | halting
deriving DecidableEq, Repr

/-- The start-pass result (`SystemStartResult`): the instance record,
the error map (insertion order), the topology, and the final statuses of
the runtime entries. -/
structure StartResult where
  system : List (RId × JsValue)
  errors : List (RId × RError)
  topology : SystemTopology
  statuses : List (RId × RStatus)

/-- Embedding of `resolveDependencies` (src/system.ts, lines 175–186):
for each declared dependency id, bind the already-started instance
(`undefined` when the dependency never started). -/
def resolveDependencies (resource : Resource) (started : List (RId × JsValue)) : DepMap :=
  (resource.dependencies.getD []).foldl
    (fun acc depId => alSet acc depId ((alGet started depId).getD .undef)) []

/-- One iteration of the start loop of `startSystem`: resolve the
dependency map, run the assertion if present (a failure is wrapped as
`Invalid dependencies for resource "<id>"` with the original error as
cause), then run `start`; any failure marks the resource failed, records
the error, and stores `undefined` as its instance. -/
def startStep (resource : Resource) (id : RId)
    (st : List (RId × JsValue) × List (RId × RError) × List (RId × RStatus) × List REvent) :
    List (RId × JsValue) × List (RId × RError) × List (RId × RStatus) × List REvent :=
  let started := st.1
  let errors := st.2.1
  let statuses := st.2.2.1
  let trace := st.2.2.2
  let deps := resolveDependencies resource started
  let runStart := fun (trace' : List REvent) =>
    match resource.start deps with
    | .ok inst =>
        (alSet started id inst, errors, alSet statuses id .started,
          trace' ++ [REvent.startCalled id deps])
    | .error e =>
        (alSet started id .undef, errors ++ [(id, e)], alSet statuses id .failed,
          trace' ++ [REvent.startCalled id deps])
  match resource.assert with
  | none => runStart trace
  | some f =>
      match f deps with
      | .ok _ => runStart (trace ++ [REvent.asserted id deps])
      | .error e =>
          let err := RError.wrapped ("Invalid dependencies for resource \"" ++ id ++ "\"") e
          (alSet started id .undef, errors ++ [(id, err)], alSet statuses id .failed,
            trace ++ [REvent.asserted id deps])

/-- The start loop over the topologically-sorted order.  (An id absent
from the config cannot occur in the order; the totalization skips it.) -/
def startLoop (resources : List (RId × Resource)) :
    List RId →
    (List (RId × JsValue) × List (RId × RError) × List (RId × RStatus) × List REvent) →
    List (RId × JsValue) × List (RId × RError) × List (RId × RStatus) × List REvent
  | [], st => st
  | id :: rest, st =>
      match alGet resources id with
      | none => startLoop resources rest st
      | some resource => startLoop resources rest (startStep resource id st)

/-- Embedding of `startSystem` (src/system.ts, lines 43–105).  The first
component is the trace of operation invocations (empty when the sorter
throws, which happens before any resource operation runs); the second is
the thrown error or the start-pass result. -/
def startSystem (resources : List (RId × Resource)) :
    List REvent × Except RError StartResult :=
  match topologicalSort resources with
  | .error e => ([], .error e)
  | .ok order =>
      let topology := buildTopology resources order
      let fin := startLoop resources order
        ([], [], resources.map (fun p => (p.1, RStatus.stopped)), [])
      (fin.2.2.2,
        .ok { system := fin.1, errors := fin.2.1, topology := topology,
              statuses := fin.2.2.1 })

/-! ## The orchestrator: halt pass -/

/-- One iteration of the halt loop of `haltSystem`: halt only when the
instance is truthy and the status is `started`; success clears the
instance and stops the resource, failure records the error (the status
stays `halting`, as in the source). -/
def haltStep (resource : Resource) (id : RId)
    (st : List (RId × RStatus) × List (RId × JsValue) × List (RId × RError) × List REvent) :
    List (RId × RStatus) × List (RId × JsValue) × List (RId × RError) × List REvent :=
  let statuses := st.1
  let instances := st.2.1
  let errors := st.2.2.1
  let trace := st.2.2.2
  let inst := (alGet instances id).getD .undef
  if inst.truthy ∧ (alGet statuses id).getD .stopped = .started then
    match resource.halt inst with
    | .ok _ =>
        (alSet statuses id .stopped, alSet instances id .undef, errors,
          trace ++ [REvent.haltCalled id inst])
    | .error e =>
        (alSet statuses id .halting, instances, errors ++ [(id, e)],
          trace ++ [REvent.haltCalled id inst])
  else st

/-- The halt loop over the reversed order. -/
def haltLoop (resources : List (RId × Resource)) :
    List RId →
    (List (RId × RStatus) × List (RId × JsValue) × List (RId × RError) × List REvent) →
    List (RId × RStatus) × List (RId × JsValue) × List (RId × RError) × List REvent
  | [], st => st
  | id :: rest, st =>
      match alGet resources id with
      | none => haltLoop resources rest st
      | some resource => haltLoop resources rest (haltStep resource id st)

/-- Embedding of `haltSystem` (src/system.ts, lines 124–163): rebuild
the runtime entries as `started` with the caller-supplied instances,
compute the reverse topological order, and halt each resource in that
order, collecting halt errors.  The first component is the trace of halt
invocations. -/
def haltSystem (config : List (RId × Resource)) (started : List (RId × JsValue)) :
    List REvent × Except RError (List (RId × RError)) :=
  match topologicalSort config with
  | .error e => ([], .error e)
  | .ok order =>
      let fin := haltLoop config order.reverse
        (config.map (fun p => (p.1, RStatus.started)),
         config.map (fun p => (p.1, (alGet started p.1).getD .undef)),
         [], [])
      (fin.2.2.2, .ok fin.2.2.1)

/-- Whether the halt pass will invoke `halt` for `id`: the id is
configured and its caller-supplied instance is truthy. -/
def haltInvoked (config : List (RId × Resource)) (instances : List (RId × JsValue))
    (id : RId) : Bool :=
  (alGet config id).isSome && ((alGet instances id).getD .undef).truthy

/-- The error entry (if any) that halting `id` produces. -/
def haltOutcome (config : List (RId × Resource)) (instances : List (RId × JsValue))
    (id : RId) : Option (RId × RError) :=
  match alGet config id with
  | none => none
  | some r =>
      let inst := (alGet instances id).getD .undef
      if inst.truthy then
        match r.halt inst with
        | .ok _ => none
        | .error e => some (id, e)
      else none

theorem haltLoop_run (config : List (RId × Resource)) :
    ∀ (order : List RId) statuses instances errors trace,
      order.Nodup →
      (∀ id ∈ order, alGet statuses id = some RStatus.started) →
      (haltLoop config order (statuses, instances, errors, trace)).2.2.2 =
        trace ++ (order.filter (fun id => haltInvoked config instances id)).map
          (fun id => REvent.haltCalled id ((alGet instances id).getD .undef)) ∧
      (haltLoop config order (statuses, instances, errors, trace)).2.2.1 =
        errors ++ order.filterMap (fun id => haltOutcome config instances id) := by
  intro order
  induction order with
  | nil =>
      intro statuses instances errors trace _ _
      simp [haltLoop]
  | cons id rest ih =>
      intro statuses instances errors trace hnd hst
      have hndc := List.nodup_cons.mp hnd
      have hstid := hst id (by simp)
      rw [haltLoop]
      cases hres : alGet config id with
      | none =>
          have hinv : haltInvoked config instances id = false := by
            simp [haltInvoked, hres]
          have hout : haltOutcome config instances id = none := by
            simp [haltOutcome, hres]
          obtain ⟨h1, h2⟩ := ih statuses instances errors trace hndc.2
            (fun x hx => hst x (by simp [hx]))
          rw [List.filter_cons, List.filterMap_cons, hinv, hout]
          simp only [if_false, Bool.false_eq_true]
          exact ⟨h1, h2⟩
      | some r =>
          simp only [haltStep, hstid, Option.getD_some]
          by_cases htr : ((alGet instances id).getD .undef).truthy
          · rw [if_pos (⟨htr, trivial⟩ : _ ∧ True)]
            have hinv : haltInvoked config instances id = true := by
              simp [haltInvoked, hres, htr]
            cases hhalt : r.halt ((alGet instances id).getD .undef) with
            | ok u =>
                have hout : haltOutcome config instances id = none := by
                  simp [haltOutcome, hres, htr, hhalt]
                have hst' : ∀ x ∈ rest, alGet (alSet statuses id RStatus.stopped) x =
                    some RStatus.started := by
                  intro x hx
                  have hne : id ≠ x := fun he => hndc.1 (he ▸ hx)
                  rw [alGet_alSet_ne _ _ _ _ hne]
                  exact hst x (by simp [hx])
                obtain ⟨h1, h2⟩ := ih (alSet statuses id RStatus.stopped)
                  (alSet instances id .undef) errors
                  (trace ++ [REvent.haltCalled id ((alGet instances id).getD .undef)])
                  hndc.2 hst'
                have hinstEq : ∀ x ∈ rest,
                    alGet (alSet instances id JsValue.undef) x = alGet instances x := by
                  intro x hx
                  have hne : id ≠ x := fun he => hndc.1 (he ▸ hx)
                  exact alGet_alSet_ne _ _ _ _ hne
                constructor
                · rw [h1]
                  have hfeq : List.filter
                        (fun x => haltInvoked config (alSet instances id JsValue.undef) x) rest
                      = List.filter (fun x => haltInvoked config instances x) rest := by
                    apply List.filter_congr
                    intro x hx
                    simp only [haltInvoked]
                    rw [hinstEq x hx]
                  have hmeq : List.map (fun x => REvent.haltCalled x
                        ((alGet (alSet instances id JsValue.undef) x).getD JsValue.undef))
                        (List.filter (fun x => haltInvoked config instances x) rest)
                      = List.map (fun x => REvent.haltCalled x
                          ((alGet instances x).getD JsValue.undef))
                        (List.filter (fun x => haltInvoked config instances x) rest) := by
                    apply List.map_congr_left
                    intro x hx
                    rw [hinstEq x (List.mem_filter.mp hx).1]
                  rw [hfeq, hmeq, List.filter_cons, hinv]
                  simp [List.append_assoc]
                · rw [h2]
                  have hoeq : List.filterMap
                        (fun x => haltOutcome config (alSet instances id JsValue.undef) x) rest
                      = List.filterMap (fun x => haltOutcome config instances x) rest := by
                    apply List.filterMap_congr
                    intro x hx
                    simp only [haltOutcome]
                    rw [hinstEq x hx]
                  rw [hoeq, List.filterMap_cons, hout]
            | error e =>
                have hout : haltOutcome config instances id = some (id, e) := by
                  simp [haltOutcome, hres, htr, hhalt]
                have hst' : ∀ x ∈ rest, alGet (alSet statuses id RStatus.halting) x =
                    some RStatus.started := by
                  intro x hx
                  have hne : id ≠ x := fun he => hndc.1 (he ▸ hx)
                  rw [alGet_alSet_ne _ _ _ _ hne]
                  exact hst x (by simp [hx])
                obtain ⟨h1, h2⟩ := ih (alSet statuses id RStatus.halting)
                  instances (errors ++ [(id, e)])
                  (trace ++ [REvent.haltCalled id ((alGet instances id).getD .undef)])
                  hndc.2 hst'
                constructor
                · rw [h1, List.filter_cons, hinv]
                  simp [List.append_assoc]
                · rw [h2, List.filterMap_cons, hout]
                  simp [List.append_assoc]
          · rw [if_neg (by intro h; exact htr h.1)]
            have hinv : haltInvoked config instances id = false := by
              simp only [haltInvoked, hres, Option.isSome_some, Bool.true_and]
              simpa using htr
            have hout : haltOutcome config instances id = none := by
              simp only [haltOutcome, hres]
              simp only [Bool.not_eq_true] at htr
              simp [htr]
            obtain ⟨h1, h2⟩ := ih statuses instances errors trace hndc.2
              (fun x hx => hst x (by simp [hx]))
            rw [List.filter_cons, List.filterMap_cons, hinv, hout]
            simp only [if_false, Bool.false_eq_true]
            exact ⟨h1, h2⟩

theorem alGet_map_fun {β : Type} (l : List (RId × β)) (f : RId → α) (k : RId) :
    alGet (l.map (fun p => (p.1, f p.1))) k =
      if k ∈ alKeys l then some (f k) else none := by
  induction l with
  | nil => simp [alGet]
  | cons p rest ih =>
      by_cases hk : p.1 = k
      · subst hk
        simp [alGet, alKeys]
      · simp only [List.map_cons, alGet, hk, if_false, ih, alKeys, List.map]
        by_cases h : k ∈ alKeys rest <;> simp [alKeys] at h <;> simp [h, Ne.symm hk]

theorem keys_resourceAdj (resources : List (RId × Resource)) :
    alKeys (resourceAdj resources) = alKeys resources := by
  simp [alKeys, resourceAdj, List.map_map]

theorem transGen_indexOf_of_step (adj : List (RId × List RId)) (R : List RId)
    (hstep : ∀ k ∈ alKeys adj, ∀ d ∈ depsOf adj k, R.indexOf d < R.indexOf k)
    (d k : RId) (h : Relation.TransGen (DepEdge adj) d k) :
    R.indexOf d < R.indexOf k := by
  induction h with
  | single h => exact hstep _ h.1 _ h.2
  | tail _ h ih => exact lt_trans ih (hstep _ h.1 _ h.2)

theorem indexOf_reverse_nodup (l : List RId) (hnd : l.Nodup) (x : RId) (hx : x ∈ l) :
    l.reverse.indexOf x = l.length - 1 - l.indexOf x := by
  have hi : l.indexOf x < l.length := List.indexOf_lt_length.mpr hx
  have hj : l.length - 1 - l.indexOf x < l.reverse.length := by
    rw [List.length_reverse]
    omega
  have hget : l.reverse.get ⟨l.length - 1 - l.indexOf x, hj⟩ = x := by
    rw [List.get_reverse']
    · have : l.length - 1 - (l.length - 1 - l.indexOf x) = l.indexOf x := by omega
      simp only [this]
      exact List.indexOf_get hi
    · rw [List.length_reverse] at hj
      omega
  have hrevnd : l.reverse.Nodup := List.nodup_reverse.mpr hnd
  have := List.indexOf_getElem hrevnd (l.length - 1 - l.indexOf x)
    (by rw [List.length_reverse]; omega)
  rw [← this]
  congr 1
  exact hget.symm

theorem pair_sublist_of_indexOf_lt (l : List RId) (a b : RId)
    (ha : a ∈ l) (hb : b ∈ l) (h : l.indexOf a < l.indexOf b) :
    [a, b].Sublist l := by
  induction l with
  | nil => cases ha
  | cons x rest ih =>
      by_cases hxa : x = a
      · subst hxa
        have hbrest : b ∈ rest := by
          rcases List.mem_cons.mp hb with hb | hb
          · subst hb
            rw [List.indexOf_cons_self] at h
            omega
          · exact hb
        exact (List.singleton_sublist.mpr hbrest).cons₂ x
      · have hxb : x ≠ b := by
          intro he
          subst he
          rw [List.indexOf_cons_self] at h
          omega
        have harest : a ∈ rest := by
          rcases List.mem_cons.mp ha with h' | h'
          · exact absurd h'.symm hxa
          · exact h'
        have hbrest : b ∈ rest := by
          rcases List.mem_cons.mp hb with h' | h'
          · exact absurd h'.symm hxb
          · exact h'
        have h' : rest.indexOf a < rest.indexOf b := by
          rw [List.indexOf_cons_ne rest hxa, List.indexOf_cons_ne rest hxb] at h
          omega
        exact (ih harest hbrest h').cons x

/-- The instance the halt pass sees for `id`: the caller-supplied value,
`undefined` when absent. -/
def suppliedInstance (started : List (RId × JsValue)) (id : RId) : JsValue :=
  (alGet started id).getD (.undef)

/-- The halt-error entry `id` contributes, phrased over the
caller-supplied instances. -/
def haltErrorOf (config : List (RId × Resource)) (started : List (RId × JsValue))
    (id : RId) : Option (RId × RError) :=
  match alGet config id with
  | none => none
  | some r =>
      if (suppliedInstance started id).truthy then
        match r.halt (suppliedInstance started id) with
        | .ok _ => none
        | .error e => some (id, e)
      else none

theorem haltInvoked_inst (config : List (RId × Resource)) (started : List (RId × JsValue))
    (id : RId) :
    haltInvoked config (config.map (fun p => (p.1, (alGet started p.1).getD .undef))) id =
      ((alGet config id).isSome && (suppliedInstance started id).truthy) := by
  rw [haltInvoked,
    alGet_map_fun config (fun k => (alGet started k).getD JsValue.undef) id]
  cases hc : alGet config id with
  | none =>
      have : id ∉ alKeys config := by
        intro hmem
        have := alGet_isSome_of_mem config id hmem
        rw [hc] at this
        cases this
      rw [if_neg this]
      simp
  | some r =>
      have hmem : id ∈ alKeys config := by
        have : (alGet config id).isSome := by rw [hc]; rfl
        by_contra hnot
        rw [alGet_eq_none_of_not_mem config id hnot] at this
        cases this
      rw [if_pos hmem]
      simp [suppliedInstance]

theorem haltOutcome_inst (config : List (RId × Resource)) (started : List (RId × JsValue))
    (id : RId) :
    haltOutcome config (config.map (fun p => (p.1, (alGet started p.1).getD .undef))) id =
      haltErrorOf config started id := by
  rw [haltOutcome, haltErrorOf]
  cases hc : alGet config id with
  | none => rfl
  | some r =>
      have hmem : id ∈ alKeys config := by
        have : (alGet config id).isSome := by rw [hc]; rfl
        by_contra hnot
        rw [alGet_eq_none_of_not_mem config id hnot] at this
        cases this
      rw [alGet_map_fun config (fun k => (alGet started k).getD JsValue.undef) id,
        if_pos hmem]
      rfl

theorem haltSystem_run (config : List (RId × Resource)) (started : List (RId × JsValue))
    (hnd : (alKeys (resourceAdj config)).Nodup)
    (hex : ∀ p ∈ resourceAdj config, ∀ d ∈ p.2, d ∈ alKeys (resourceAdj config))
    (rank : RId → Nat)
    (hrank : ∀ p ∈ resourceAdj config, ∀ d ∈ p.2, rank d < rank p.1) :
    ∃ order, topologicalSort config = .ok order ∧
      order.Perm (alKeys config) ∧
      (∀ k ∈ alKeys (resourceAdj config), ∀ d ∈ depsOf (resourceAdj config) k,
        order.indexOf d < order.indexOf k) ∧
      (haltSystem config started).1 =
        (order.reverse.filter (fun id =>
            (alGet config id).isSome && (suppliedInstance started id).truthy)).map
          (fun id => REvent.haltCalled id (suppliedInstance started id)) ∧
      (haltSystem config started).2 =
        .ok (order.reverse.filterMap (fun id => haltErrorOf config started id)) := by
  obtain ⟨order, seeds, batches, hsort, hperm, hprec, _, _, _, _⟩ :=
    topologicalSortAdj_correct (resourceAdj config) hnd hex rank hrank
  have hpermc : order.Perm (alKeys config) := keys_resourceAdj config ▸ hperm
  have hsort' : topologicalSort config = .ok order := hsort
  have hordnd : order.reverse.Nodup :=
    List.nodup_reverse.mpr (hperm.nodup_iff.mpr hnd)
  have hst : ∀ id ∈ order.reverse,
      alGet (config.map (fun p => (p.1, RStatus.started))) id =
        some RStatus.started := by
    intro id hid
    rw [alGet_map_fun config (fun _ => RStatus.started) id]
    have : id ∈ alKeys config := hpermc.subset (List.mem_reverse.mp hid)
    rw [if_pos this]
  obtain ⟨h1, h2⟩ := haltLoop_run config order.reverse
    (config.map (fun p => (p.1, RStatus.started)))
    (config.map (fun p => (p.1, (alGet started p.1).getD .undef)))
    [] [] hordnd hst
  simp only [List.nil_append] at h1 h2
  refine ⟨order, hsort', hpermc, hprec, ?_, ?_⟩
  · simp only [haltSystem, hsort']
    rw [h1]
    have hfeq : order.reverse.filter (fun id => haltInvoked config
          (config.map (fun p => (p.1, (alGet started p.1).getD .undef))) id) =
        order.reverse.filter (fun id =>
          (alGet config id).isSome && (suppliedInstance started id).truthy) :=
      List.filter_congr (fun x _ => haltInvoked_inst config started x)
    rw [hfeq]
    apply List.map_congr_left
    intro x hx
    have hxinv := (List.mem_filter.mp hx).2
    have hxk : (alGet config x).isSome := by
      cases hc : alGet config x
      · rw [hc] at hxinv
        simp at hxinv
      · rfl
    have hxmem : x ∈ alKeys config := by
      by_contra hnot
      rw [alGet_eq_none_of_not_mem config x hnot] at hxk
      cases hxk
    rw [alGet_map_fun config (fun k => (alGet started k).getD JsValue.undef) x,
      if_pos hxmem]
    rfl
  · simp only [haltSystem, hsort']
    rw [h2]
    congr 1
    exact List.filterMap_congr (fun x _ => haltOutcome_inst config started x)

theorem mem_keys_of_isSome (l : List (RId × α)) (k : RId)
    (h : (alGet l k).isSome) : k ∈ alKeys l := by
  by_contra hnot
  rw [alGet_eq_none_of_not_mem l k hnot] at h
  cases h

theorem alGet_filterMap_self (l : List RId) (f : RId → Option (RId × β))
    (hf : ∀ x p, f x = some p → p.1 = x) (k : RId) (e : β)
    (hk : k ∈ l) (hfk : f k = some (k, e)) :
    alGet (l.filterMap f) k = some e := by
  induction l with
  | nil => cases hk
  | cons x rest ih =>
      rw [List.filterMap_cons]
      cases hfx : f x with
      | none =>
          rcases List.mem_cons.mp hk with hk | hk
          · subst hk
            rw [hfk] at hfx
            cases hfx
          · exact ih hk
      | some p =>
          obtain ⟨px, pe⟩ := p
          have hpx : px = x := hf x (px, pe) hfx
          subst hpx
          by_cases hc : px = k
          · subst hc
            rw [hfk] at hfx
            cases hfx
            rw [alGet_cons, if_pos rfl]
          · rw [alGet_cons, if_neg hc]
            rcases List.mem_cons.mp hk with hk | hk
            · exact absurd hk.symm hc
            · exact ih hk

/-- C7: the shutdown order is exactly the reverse of the startup order —
`buildTopology`'s `shutdownOrder` equals its `startupOrder` reversed for
every input, and the halt pass invokes halt operations in the reverse of
the computed topological order (its invocation trace is exactly the
reversed order restricted to the resources whose halt runs), so for any
resource `B` depending directly or transitively on `A`, `B`'s halt
completes before `A`'s halt begins (sequential execution: `B`'s halt
event precedes `A`'s in the trace). -/
theorem C7_shutdown_reverse_of_startup (config : List (RId × Resource))
    (started : List (RId × JsValue))
    (hnd : (alKeys (resourceAdj config)).Nodup)
    (hex : ∀ p ∈ resourceAdj config, ∀ d ∈ p.2, d ∈ alKeys (resourceAdj config))
    (rank : RId → Nat)
    (hrank : ∀ p ∈ resourceAdj config, ∀ d ∈ p.2, rank d < rank p.1) :
    (∀ (resources : List (RId × Resource)) (order : List RId),
      (buildTopology resources order).shutdownOrder =
        (buildTopology resources order).startupOrder.reverse) ∧
    ∃ order, topologicalSort config = .ok order ∧
      (haltSystem config started).1 =
        (order.reverse.filter (fun id =>
          (alGet config id).isSome && (suppliedInstance started id).truthy)).map
          (fun id => REvent.haltCalled id (suppliedInstance started id)) ∧
      (∀ A B, Relation.TransGen (DepEdge (resourceAdj config)) A B →
        ((alGet config A).isSome && (suppliedInstance started A).truthy) = true →
        ((alGet config B).isSome && (suppliedInstance started B).truthy) = true →
        [REvent.haltCalled B (suppliedInstance started B),
         REvent.haltCalled A (suppliedInstance started A)].Sublist
          (haltSystem config started).1) := by
  refine ⟨fun resources order => rfl, ?_⟩
  obtain ⟨order, hsort, hperm, hprec, htr, _⟩ :=
    haltSystem_run config started hnd hex rank hrank
  refine ⟨order, hsort, htr, ?_⟩
  intro A B htrans hA hB
  have hordnd : order.Nodup := by
    have : (alKeys config).Nodup := by
      rw [← keys_resourceAdj]
      exact hnd
    exact hperm.nodup_iff.mpr this
  have hAkeys : A ∈ alKeys config := by
    apply mem_keys_of_isSome
    have := hA
    rw [Bool.and_eq_true] at this
    exact this.1
  have hBkeys : B ∈ alKeys config := by
    apply mem_keys_of_isSome
    have := hB
    rw [Bool.and_eq_true] at this
    exact this.1
  have hAord : A ∈ order := hperm.mem_iff.mpr hAkeys
  have hBord : B ∈ order := hperm.mem_iff.mpr hBkeys
  have hidx : order.indexOf A < order.indexOf B :=
    transGen_indexOf_of_step (resourceAdj config) order hprec A B htrans
  have hrevA := indexOf_reverse_nodup order hordnd A hAord
  have hrevB := indexOf_reverse_nodup order hordnd B hBord
  have hBlen : order.indexOf B < order.length := List.indexOf_lt_length.mpr hBord
  have hrevlt : order.reverse.indexOf B < order.reverse.indexOf A := by
    rw [hrevA, hrevB]
    omega
  have hpair : [B, A].Sublist order.reverse :=
    pair_sublist_of_indexOf_lt order.reverse B A
      (List.mem_reverse.mpr hBord) (List.mem_reverse.mpr hAord) hrevlt
  have hpairf : ([B, A].filter (fun id =>
      (alGet config id).isSome && (suppliedInstance started id).truthy)).Sublist
      (order.reverse.filter (fun id =>
        (alGet config id).isSome && (suppliedInstance started id).truthy)) :=
    hpair.filter _
  have hpaireq : [B, A].filter (fun id =>
      (alGet config id).isSome && (suppliedInstance started id).truthy) = [B, A] := by
    rw [List.filter_cons, List.filter_cons]
    simp only [hA, hB, if_true]
    rfl
  rw [hpaireq] at hpairf
  rw [htr]
  have := hpairf.map (fun id => REvent.haltCalled id (suppliedInstance started id))
  simpa using this

theorem haltErrorOf_eq_some (config : List (RId × Resource)) (started : List (RId × JsValue))
    (y : RId) (p : RId × RError) (h : haltErrorOf config started y = some p) :
    ∃ r, alGet config y = some r ∧ (suppliedInstance started y).truthy = true ∧
      r.halt (suppliedInstance started y) = .error p.2 ∧ p.1 = y := by
  unfold haltErrorOf at h
  cases hcy : alGet config y with
  | none => rw [hcy] at h; cases h
  | some ry =>
      rw [hcy] at h
      simp only at h
      by_cases hty : (suppliedInstance started y).truthy
      · rw [if_pos hty] at h
        cases hhy : ry.halt (suppliedInstance started y) with
        | ok u => rw [hhy] at h; cases h
        | error ey =>
            rw [hhy] at h
            simp only at h
            cases h
            exact ⟨ry, rfl, hty, hhy, rfl⟩
      · rw [if_neg hty] at h; cases h

theorem haltErrorOf_eq_some_of (config : List (RId × Resource)) (started : List (RId × JsValue))
    (id : RId) (r : Resource) (e : RError)
    (hres : alGet config id = some r)
    (htruthy : (suppliedInstance started id).truthy = true)
    (hhalt : r.halt (suppliedInstance started id) = .error e) :
    haltErrorOf config started id = some (id, e) := by
  unfold haltErrorOf
  rw [hres]
  simp only [htruthy, if_true, hhalt]

/-- C9: during a halt pass, a halt operation that throws causes only an
entry in the returned error mapping for that id (every error entry is
caused by its own resource's halt), and every other resource whose halt
runs is still invoked — one resource's halt failure never blocks or
skips any other resource's halt. -/
theorem C9_halt_error_isolation (config : List (RId × Resource))
    (started : List (RId × JsValue))
    (hnd : (alKeys (resourceAdj config)).Nodup)
    (hex : ∀ p ∈ resourceAdj config, ∀ d ∈ p.2, d ∈ alKeys (resourceAdj config))
    (rank : RId → Nat)
    (hrank : ∀ p ∈ resourceAdj config, ∀ d ∈ p.2, rank d < rank p.1)
    (id : RId) (r : Resource) (e : RError)
    (hres : alGet config id = some r)
    (htruthy : (suppliedInstance started id).truthy = true)
    (hhalt : r.halt (suppliedInstance started id) = .error e) :
    ∃ errs, (haltSystem config started).2 = .ok errs ∧
      alGet errs id = some e ∧
      (∀ x ex, (x, ex) ∈ errs → ∃ rx, alGet config x = some rx ∧
        rx.halt (suppliedInstance started x) = .error ex) ∧
      (∀ x, (alGet config x).isSome → (suppliedInstance started x).truthy = true →
        REvent.haltCalled x (suppliedInstance started x) ∈ (haltSystem config started).1) := by
  obtain ⟨order, hsort, hperm, _, htr, herr⟩ :=
    haltSystem_run config started hnd hex rank hrank
  refine ⟨order.reverse.filterMap (fun x => haltErrorOf config started x), herr, ?_, ?_, ?_⟩
  · have hout : haltErrorOf config started id = some (id, e) :=
      haltErrorOf_eq_some_of config started id r e hres htruthy hhalt
    have hidord : id ∈ order.reverse := by
      rw [List.mem_reverse]
      apply hperm.mem_iff.mpr
      exact mem_keys_of_isSome config id (by rw [hres]; rfl)
    apply alGet_filterMap_self order.reverse (fun x => haltErrorOf config started x)
      ?_ id e hidord hout
    intro x p hp
    obtain ⟨_, _, _, _, hpx⟩ := haltErrorOf_eq_some config started x p hp
    exact hpx
  · intro x ex hmem
    obtain ⟨y, _, hy⟩ := List.mem_filterMap.mp hmem
    obtain ⟨ry, hcy, hty, hhy, hyx⟩ := haltErrorOf_eq_some config started y (x, ex) hy
    simp only at hyx
    subst hyx
    exact ⟨ry, hcy, hhy⟩
  · intro x hx htx
    rw [htr]
    apply List.mem_map_of_mem
    apply List.mem_filter.mpr
    refine ⟨?_, by rw [hx, htx]; rfl⟩
    rw [List.mem_reverse]
    exact hperm.mem_iff.mpr (mem_keys_of_isSome config x hx)

/-- C10: during a halt pass, a resource whose caller-supplied instance
is falsy (undefined, null, false, 0 or the empty string) never has its
halt operation invoked and gets no error entry, while every resource
with a truthy instance is still halted. -/
theorem C10_falsy_instance_skipped (config : List (RId × Resource))
    (started : List (RId × JsValue))
    (hnd : (alKeys (resourceAdj config)).Nodup)
    (hex : ∀ p ∈ resourceAdj config, ∀ d ∈ p.2, d ∈ alKeys (resourceAdj config))
    (rank : RId → Nat)
    (hrank : ∀ p ∈ resourceAdj config, ∀ d ∈ p.2, rank d < rank p.1)
    (id : RId)
    (hfalsy : (suppliedInstance started id).truthy = false) :
    ∃ errs, (haltSystem config started).2 = .ok errs ∧
      (∀ v, REvent.haltCalled id v ∉ (haltSystem config started).1) ∧
      (∀ e, (id, e) ∉ errs) ∧
      (∀ x, (alGet config x).isSome → (suppliedInstance started x).truthy = true →
        REvent.haltCalled x (suppliedInstance started x) ∈ (haltSystem config started).1) := by
  obtain ⟨order, hsort, hperm, _, htr, herr⟩ :=
    haltSystem_run config started hnd hex rank hrank
  refine ⟨order.reverse.filterMap (fun x => haltErrorOf config started x), herr, ?_, ?_, ?_⟩
  · intro v hv
    rw [htr] at hv
    obtain ⟨x, hxf, hxeq⟩ := List.mem_map.mp hv
    have hxid : x = id := by
      cases hxeq
      rfl
    subst hxid
    have := (List.mem_filter.mp hxf).2
    rw [Bool.and_eq_true] at this
    rw [hfalsy] at this
    cases this.2
  · intro e hmem
    obtain ⟨y, _, hy⟩ := List.mem_filterMap.mp hmem
    obtain ⟨ry, hcy, hty, hhy, hyx⟩ := haltErrorOf_eq_some config started y (id, e) hy
    simp only at hyx
    subst hyx
    rw [hty] at hfalsy
    cases hfalsy
  · intro x hx htx
    rw [htr]
    apply List.mem_map_of_mem
    apply List.mem_filter.mpr
    refine ⟨?_, by rw [hx, htx]; rfl⟩
    rw [List.mem_reverse]
    exact hperm.mem_iff.mpr (mem_keys_of_isSome config x hx)

/-- C3: for every acyclic configuration whose declared dependency ids
all exist, `topologicalSort` succeeds with a permutation of all resource
ids in which every declared dependency precedes its dependent, and the
ids that become ready simultaneously (the initial in-degree-zero seeds,
and each group released together by one relaxation) appear in
declaration order of the input mapping. -/
theorem C3_topological_sort_correct (resources : List (RId × Resource))
    (hnd : (alKeys resources).Nodup)
    (hex : ∀ p ∈ resourceAdj resources, ∀ d ∈ p.2, d ∈ alKeys resources)
    (rank : RId → Nat)
    (hrank : ∀ p ∈ resourceAdj resources, ∀ d ∈ p.2, rank d < rank p.1) :
    ∃ R seeds batches, topologicalSort resources = .ok R ∧
      R.Perm (alKeys resources) ∧
      (∀ k ∈ alKeys resources, ∀ d ∈ depsOf (resourceAdj resources) k,
        R.indexOf d < R.indexOf k) ∧
      topologicalSortBatches (resourceAdj resources) = some (seeds, batches) ∧
      R = seeds ++ batches.flatten ∧
      seeds.Pairwise (fun a c =>
        declIdx (resourceAdj resources) a < declIdx (resourceAdj resources) c) ∧
      (∀ b ∈ batches, b.Pairwise (fun a c =>
        declIdx (resourceAdj resources) a < declIdx (resourceAdj resources) c)) := by
  have hk := keys_resourceAdj resources
  obtain ⟨R, seeds, batches, hok, hperm, hprec, hb, hj, hs, hbp⟩ :=
    topologicalSortAdj_correct (resourceAdj resources)
      (by rw [hk]; exact hnd)
      (by intro p hp d hd; rw [hk]; exact hex p hp d hd)
      rank hrank
  refine ⟨R, seeds, batches, hok, hk ▸ hperm, ?_, hb, hj, hs, hbp⟩
  intro k hk' d hd
  exact hprec k (by rw [hk]; exact hk') d hd

/-- C4: for every configuration with a missing dependency id or a
dependency cycle, `startSystem` throws with an empty invocation trace
(no assert or start operation ever runs, no partial result); the
missing-dependency error names both the source resource and the missing
id, and the cycle error's unresolved-id list is nonempty, lists only
configured ids, and contains every id lying on a cycle. -/
theorem C4_graph_errors_fatal (resources : List (RId × Resource))
    (hbad : (∃ p ∈ resourceAdj resources, ∃ d ∈ p.2, d ∉ alKeys resources) ∨
      ((alKeys resources).Nodup ∧
       (∀ p ∈ resourceAdj resources, ∀ d ∈ p.2, d ∈ alKeys resources) ∧
       ∃ x, Relation.TransGen (DepEdge (resourceAdj resources)) x x)) :
    ∃ e, startSystem resources = ([], .error e) ∧
      ((∃ p ∈ resourceAdj resources, ∃ d ∈ p.2, d ∉ alKeys resources ∧
          e = missingDepError p.1 d) ∨
       (∃ u, e = cycleError u ∧ u ≠ [] ∧ (∀ y ∈ u, y ∈ alKeys resources) ∧
          ∀ y, Relation.TransGen (DepEdge (resourceAdj resources)) y y → y ∈ u)) := by
  have hk := keys_resourceAdj resources
  cases hbad with
  | inl hmiss =>
      obtain ⟨e, hrun, p, hp, d, hd, hnot, he⟩ :=
        topologicalSortAdj_missing_error (resourceAdj resources)
          (by
            obtain ⟨p, hp, d, hd, hnot⟩ := hmiss
            exact ⟨p, hp, d, hd, by rw [hk]; exact hnot⟩)
      rw [hk] at hnot
      refine ⟨e, ?_, .inl ⟨p, hp, d, hd, hnot, he⟩⟩
      simp only [startSystem, topologicalSort, hrun]
  | inr hcyc =>
      obtain ⟨hnd, hex, x, hx⟩ := hcyc
      obtain ⟨u, hrun, hne, hmemk, hcompl⟩ :=
        topologicalSortAdj_cycle_error (resourceAdj resources)
          (by rw [hk]; exact hnd)
          (by intro p hp d hd; rw [hk]; exact hex p hp d hd)
          x hx
      refine ⟨cycleError u, ?_, .inr ⟨u, rfl, hne, ?_, hcompl⟩⟩
      · simp only [startSystem, topologicalSort, hrun]
      · intro y hy
        rw [← hk]
        exact hmemk y hy

/-- The resource id an instrumentation event belongs to. -/
def eventId : REvent → RId
  | .asserted id _ => id
  | .startCalled id _ => id
  | .haltCalled id _ => id

theorem startStep_cases (r : Resource) (id : RId)
    (st : List (RId × JsValue) × List (RId × RError) × List (RId × RStatus) × List REvent) :
    ∃ evs err,
      (startStep r id st).2.2.2 = st.2.2.2 ++ evs ∧ (∀ ev ∈ evs, eventId ev = id) ∧
      (startStep r id st).2.1 = st.2.1 ++ err ∧ (∀ p ∈ err, p.1 = id) ∧
      (∀ x, x ≠ id → alGet (startStep r id st).2.2.1 x = alGet st.2.2.1 x) ∧
      (alGet (startStep r id st).2.2.1 id = some .started ∨
        alGet (startStep r id st).2.2.1 id = some .failed) := by
  simp only [startStep]
  cases r.assert with
  | none =>
      cases hs : r.start (resolveDependencies r st.1) with
      | ok inst =>
          simp only [hs]
          refine ⟨[REvent.startCalled id (resolveDependencies r st.1)], [], rfl, ?_, by simp, by simp, ?_, ?_⟩
          · intro ev hev
            simp at hev
            subst hev
            rfl
          · intro x hx
            exact alGet_alSet_ne st.2.2.1 id x .started (fun h => hx h.symm)
          · exact .inl (alGet_alSet_self st.2.2.1 id .started)
      | error e =>
          simp only [hs]
          refine ⟨[REvent.startCalled id (resolveDependencies r st.1)], [(id, e)], rfl, ?_, rfl, ?_, ?_, ?_⟩
          · intro ev hev
            simp at hev
            subst hev
            rfl
          · intro p hp
            simp at hp
            subst hp
            rfl
          · intro x hx
            exact alGet_alSet_ne st.2.2.1 id x .failed (fun h => hx h.symm)
          · exact .inr (alGet_alSet_self st.2.2.1 id .failed)
  | some f =>
      cases hf : f (resolveDependencies r st.1) with
      | ok u =>
          simp only [hf]
          cases hs : r.start (resolveDependencies r st.1) with
          | ok inst =>
              simp only [hs]
              refine ⟨[REvent.asserted id (resolveDependencies r st.1),
                REvent.startCalled id (resolveDependencies r st.1)], [], by simp, ?_, by simp, by simp, ?_, ?_⟩
              · intro ev hev
                simp at hev
                cases hev with
                | inl h => subst h; rfl
                | inr h => subst h; rfl
              · intro x hx
                exact alGet_alSet_ne st.2.2.1 id x .started (fun h => hx h.symm)
              · exact .inl (alGet_alSet_self st.2.2.1 id .started)
          | error e =>
              simp only [hs]
              refine ⟨[REvent.asserted id (resolveDependencies r st.1),
                REvent.startCalled id (resolveDependencies r st.1)], [(id, e)], by simp, ?_, rfl, ?_, ?_, ?_⟩
              · intro ev hev
                simp at hev
                cases hev with
                | inl h => subst h; rfl
                | inr h => subst h; rfl
              · intro p hp
                simp at hp
                subst hp
                rfl
              · intro x hx
                exact alGet_alSet_ne st.2.2.1 id x .failed (fun h => hx h.symm)
              · exact .inr (alGet_alSet_self st.2.2.1 id .failed)
      | error e =>
          simp only [hf]
          refine ⟨[REvent.asserted id (resolveDependencies r st.1)],
            [(id, RError.wrapped ("Invalid dependencies for resource \x22" ++ id ++ "\x22") e)],
            rfl, ?_, rfl, ?_, ?_, ?_⟩
          · intro ev hev
            simp at hev
            subst hev
            rfl
          · intro p hp
            simp at hp
            subst hp
            rfl
          · intro x hx
            exact alGet_alSet_ne st.2.2.1 id x .failed (fun h => hx h.symm)
          · exact .inr (alGet_alSet_self st.2.2.1 id .failed)

theorem startLoop_extends (resources : List (RId × Resource)) (order : List RId)
    (st : List (RId × JsValue) × List (RId × RError) × List (RId × RStatus) × List REvent) :
    ∃ evs err,
      (startLoop resources order st).2.2.2 = st.2.2.2 ++ evs ∧
      (∀ ev ∈ evs, eventId ev ∈ order) ∧
      (startLoop resources order st).2.1 = st.2.1 ++ err ∧
      (∀ p ∈ err, p.1 ∈ order) ∧
      (∀ x, x ∉ order → alGet (startLoop resources order st).2.2.1 x = alGet st.2.2.1 x) := by
  induction order generalizing st with
  | nil => exact ⟨[], [], by simp [startLoop], by simp, by simp [startLoop], by simp, fun x _ => rfl⟩
  | cons y rest ih =>
      cases hy : alGet resources y with
      | none =>
          obtain ⟨evs, err, h1, h2, h3, h4, h5⟩ := ih st
          refine ⟨evs, err, ?_, ?_, ?_, ?_, ?_⟩
          · rw [startLoop, hy]; exact h1
          · intro ev hev; exact List.mem_cons_of_mem y (h2 ev hev)
          · rw [startLoop, hy]; exact h3
          · intro p hp; exact List.mem_cons_of_mem y (h4 p hp)
          · intro x hx
            rw [startLoop, hy]
            exact h5 x (fun h => hx (List.mem_cons_of_mem y h))
      | some r =>
          obtain ⟨evs₁, err₁, g1, g2, g3, g4, g5, _⟩ := startStep_cases r y st
          obtain ⟨evs, err, h1, h2, h3, h4, h5⟩ := ih (startStep r y st)
          refine ⟨evs₁ ++ evs, err₁ ++ err, ?_, ?_, ?_, ?_, ?_⟩
          · rw [startLoop, hy, h1, g1, List.append_assoc]
          · intro ev hev
            cases List.mem_append.mp hev with
            | inl h => rw [g2 ev h]; exact List.mem_cons_self y rest
            | inr h => exact List.mem_cons_of_mem y (h2 ev h)
          · rw [startLoop, hy, h3, g3, List.append_assoc]
          · intro p hp
            cases List.mem_append.mp hp with
            | inl h => rw [g4 p h]; exact List.mem_cons_self y rest
            | inr h => exact List.mem_cons_of_mem y (h4 p h)
          · intro x hx
            rw [startLoop, hy]
            rw [h5 x (fun h => hx (List.mem_cons_of_mem y h))]
            exact g5 x (fun h => hx (h ▸ List.mem_cons_self y rest))

theorem startLoop_status_settled (resources : List (RId × Resource)) (order : List RId)
    (hnd : order.Nodup)
    (st : List (RId × JsValue) × List (RId × RError) × List (RId × RStatus) × List REvent)
    (x : RId) (hx : x ∈ order) (rx : Resource) (hrx : alGet resources x = some rx) :
    alGet (startLoop resources order st).2.2.1 x = some .started ∨
    alGet (startLoop resources order st).2.2.1 x = some .failed := by
  induction order generalizing st with
  | nil => cases hx
  | cons y rest ih =>
      by_cases hxy : x = y
      · subst hxy
        rw [startLoop, hrx]
        obtain ⟨_, _, _, _, _, _, _, hset⟩ := startStep_cases rx x st
        obtain ⟨_, _, _, _, _, _, h5⟩ := startLoop_extends resources rest (startStep rx x st)
        have hxrest : x ∉ rest := (List.nodup_cons.mp hnd).1
        rw [h5 x hxrest]
        exact hset
      · have hxrest : x ∈ rest := by
          cases List.mem_cons.mp hx with
          | inl h => exact absurd h hxy
          | inr h => exact h
        cases hy : alGet resources y with
        | none =>
            rw [startLoop, hy]
            exact ih (List.nodup_cons.mp hnd).2 st hxrest
        | some ry =>
            rw [startLoop, hy]
            exact ih (List.nodup_cons.mp hnd).2 (startStep ry y st) hxrest

theorem startStep_assert_error (r : Resource) (id : RId)
    (st : List (RId × JsValue) × List (RId × RError) × List (RId × RStatus) × List REvent)
    (f : DepMap → Except RError Unit) (hassert : r.assert = some f)
    (e : RError) (hf : f (resolveDependencies r st.1) = .error e) :
    startStep r id st =
      (alSet st.1 id .undef,
       st.2.1 ++ [(id, RError.wrapped ("Invalid dependencies for resource \x22" ++ id ++ "\x22") e)],
       alSet st.2.2.1 id .failed,
       st.2.2.2 ++ [REvent.asserted id (resolveDependencies r st.1)]) := by
  simp only [startStep, hassert, hf]

theorem startLoop_assert_fail (resources : List (RId × Resource)) (order : List RId)
    (hnd : order.Nodup) (id : RId) (hid : id ∈ order)
    (r : Resource) (hr : alGet resources id = some r)
    (f : DepMap → Except RError Unit) (hassert : r.assert = some f)
    (ef : DepMap → RError) (hfail : ∀ deps, f deps = .error (ef deps))
    (st : List (RId × JsValue) × List (RId × RError) × List (RId × RStatus) × List REvent)
    (hclean : ∀ d, REvent.startCalled id d ∉ st.2.2.2) :
    ∃ deps,
      alGet (startLoop resources order st).2.2.1 id = some .failed ∧
      (id, RError.wrapped ("Invalid dependencies for resource \x22" ++ id ++ "\x22") (ef deps)) ∈
        (startLoop resources order st).2.1 ∧
      REvent.asserted id deps ∈ (startLoop resources order st).2.2.2 ∧
      (∀ d, REvent.startCalled id d ∉ (startLoop resources order st).2.2.2) := by
  induction order generalizing st with
  | nil => cases hid
  | cons y rest ih =>
      by_cases hxy : id = y
      · subst hxy
        have hidrest : id ∉ rest := (List.nodup_cons.mp hnd).1
        have hstep := startStep_assert_error r id st f hassert
          (ef (resolveDependencies r st.1)) (hfail (resolveDependencies r st.1))
        obtain ⟨evs, err, h1, h2, h3, h4, h5⟩ :=
          startLoop_extends resources rest (startStep r id st)
        refine ⟨resolveDependencies r st.1, ?_, ?_, ?_, ?_⟩
        · rw [startLoop, hr, h5 id hidrest, hstep]
          exact alGet_alSet_self st.2.2.1 id .failed
        · rw [startLoop, hr, h3, hstep]
          apply List.mem_append_left
          apply List.mem_append_right
          exact List.mem_singleton.mpr rfl
        · rw [startLoop, hr, h1, hstep]
          apply List.mem_append_left
          apply List.mem_append_right
          exact List.mem_singleton.mpr rfl
        · intro d hd
          rw [startLoop, hr, h1, hstep] at hd
          rw [List.append_assoc] at hd
          cases List.mem_append.mp hd with
          | inl h => exact hclean d h
          | inr h =>
              cases List.mem_append.mp h with
              | inl h' =>
                  rw [List.mem_singleton] at h'
                  cases h'
              | inr h' =>
                  have := h2 _ h'
                  rw [eventId] at this
                  exact hidrest this
      · have hidrest : id ∈ rest := by
          cases List.mem_cons.mp hid with
          | inl h => exact absurd h hxy
          | inr h => exact h
        have hnd' := (List.nodup_cons.mp hnd).2
        cases hy : alGet resources y with
        | none =>
            rw [startLoop, hy]
            exact ih hnd' hidrest st hclean
        | some ry =>
            rw [startLoop, hy]
            apply ih hnd' hidrest (startStep ry y st)
            intro d hd
            obtain ⟨evs₁, err₁, g1, g2, _, _, _, _⟩ := startStep_cases ry y st
            rw [g1] at hd
            cases List.mem_append.mp hd with
            | inl h => exact hclean d h
            | inr h =>
                have := g2 _ h
                rw [eventId] at this
                exact hxy this

/-- C8: when a resource's assertion throws during the start pass, the
resource ends marked failed, its start operation is never invoked, the
error map receives the wrapper error
`Invalid dependencies for resource "<id>"` with the assertion's own
error as its cause, and the pass continues: every configured resource
still ends the pass with a settled status (started or failed). -/
theorem C8_assert_failure_wrapped (resources : List (RId × Resource))
    (hnd : (alKeys resources).Nodup)
    (hex : ∀ p ∈ resourceAdj resources, ∀ d ∈ p.2, d ∈ alKeys resources)
    (rank : RId → Nat)
    (hrank : ∀ p ∈ resourceAdj resources, ∀ d ∈ p.2, rank d < rank p.1)
    (id : RId) (r : Resource) (hr : alGet resources id = some r)
    (f : DepMap → Except RError Unit) (hassert : r.assert = some f)
    (ef : DepMap → RError) (hfail : ∀ deps, f deps = .error (ef deps)) :
    ∃ res, (startSystem resources).2 = .ok res ∧
      ∃ deps,
        alGet res.statuses id = some .failed ∧
        (id, RError.wrapped ("Invalid dependencies for resource \x22" ++ id ++ "\x22")
          (ef deps)) ∈ res.errors ∧
        REvent.asserted id deps ∈ (startSystem resources).1 ∧
        (∀ d, REvent.startCalled id d ∉ (startSystem resources).1) ∧
        (∀ x ∈ alKeys resources,
          alGet res.statuses x = some .started ∨ alGet res.statuses x = some .failed) := by
  have hk := keys_resourceAdj resources
  obtain ⟨order, seeds, batches, hok, hperm, _, _, _, _, _⟩ :=
    topologicalSortAdj_correct (resourceAdj resources)
      (by rw [hk]; exact hnd)
      (by intro p hp d hd; rw [hk]; exact hex p hp d hd)
      rank hrank
  have hpermk : order.Perm (alKeys resources) := hk ▸ hperm
  have hordernd : order.Nodup := hpermk.nodup_iff.mpr hnd
  have hidmem : id ∈ order :=
    hpermk.mem_iff.mpr (mem_keys_of_isSome resources id (by rw [hr]; rfl))
  obtain ⟨deps, hst, herrm, hasserted, hnostart⟩ :=
    startLoop_assert_fail resources order hordernd id hidmem r hr f hassert ef hfail
      ([], [], resources.map (fun p => (p.1, RStatus.stopped)), [])
      (fun d hd => absurd hd (List.not_mem_nil _))
  simp only [startSystem, topologicalSort, hok]
  refine ⟨_, rfl, deps, hst, herrm, hasserted, hnostart, ?_⟩
  intro x hx
  obtain ⟨rx, hrx⟩ := Option.isSome_iff_exists.mp (alGet_isSome_of_mem resources x hx)
  exact startLoop_status_settled resources order hordernd
    ([], [], resources.map (fun p => (p.1, RStatus.stopped)), [])
    x (hpermk.mem_iff.mpr hx) rx hrx

/-! ## The newer orchestrator (src/system.ts of the normalized-dependency
design), modelled from the specification -/

/-- Modelled from the spec: the newer resource shape whose dependency
declaration is a `DependenciesSpec` (flat list or required/optional
object), consumed by the orchestrator through `normalizeDependencies`
(§4.1); assertion, start and halt as before. -/
structure NResource where
  dependencies : Option DependenciesSpec
  assert : Option (DepMap → Except RError Unit)
  start : DepMap → Except RError JsValue
  halt : JsValue → Except RError Unit

/-- Modelled from the spec: the adjacency the sorter reads in the newer
orchestrator — each resource's normalized `all` dependency list
(§4.3 step 2: "Run the Topological Sorter over all resources'
normalized `all` dependencies"). -/
def nResourceAdj (resources : List (RId × NResource)) : List (RId × List RId) :=
  resources.map (fun p => (p.1, (normalizeDependencies p.2.dependencies).all))

/-- Modelled from the spec: the dependency-value map of §4.3 step 4b —
for every id of the resource's normalized dependency list, the prior
instance, `undefined` when that dependency never started. -/
def nResolveDependencies (nd : NormalizedDependencies)
    (started : List (RId × JsValue)) : DepMap :=
  nd.all.foldl (fun acc depId => alSet acc depId ((alGet started depId).getD .undef)) []

/-- Modelled from the spec: the "missing required dependencies" error of
§4.3 step 4c, listing the offending ids. -/
def missingRequiredError (id : RId) (offending : List RId) : RError :=
  .mk ("Missing required dependencies for resource \x22" ++ id ++ "\x22: " ++
    String.intercalate ", " offending)

/-- Modelled from the spec: one iteration of the newer start loop
(§4.3 step 4).  Consult the failure registry (the error mapping built so
far) for the required list; with any offending id, mark failed and skip
assertion and start; otherwise assert (wrapping a failure) and start.
A failed or skipped id stores no instance (§4.3 step 5: the instance
mapping is absent for any failed/skipped id). -/
def nStartStep (resource : NResource) (id : RId)
    (st : List (RId × JsValue) × List (RId × RError) × List (RId × RStatus) × List REvent) :
    List (RId × JsValue) × List (RId × RError) × List (RId × RStatus) × List REvent :=
  let started := st.1
  let errors := st.2.1
  let statuses := st.2.2.1
  let trace := st.2.2.2
  let nd := normalizeDependencies resource.dependencies
  let deps := nResolveDependencies nd started
  let offending := nd.required.filter (fun d => d ∈ alKeys errors)
  if offending = [] then
    let runStart := fun (trace' : List REvent) =>
      match resource.start deps with
      | .ok inst =>
          (alSet started id inst, errors, alSet statuses id .started,
            trace' ++ [REvent.startCalled id deps])
      | .error e =>
          (started, errors ++ [(id, e)], alSet statuses id .failed,
            trace' ++ [REvent.startCalled id deps])
    match resource.assert with
    | none => runStart trace
    | some f =>
        match f deps with
        | .ok _ => runStart (trace ++ [REvent.asserted id deps])
        | .error e =>
            (started,
              errors ++ [(id, RError.wrapped
                ("Invalid dependencies for resource \x22" ++ id ++ "\x22") e)],
              alSet statuses id .failed, trace ++ [REvent.asserted id deps])
  else
    (started, errors ++ [(id, missingRequiredError id offending)],
      alSet statuses id .failed, trace)

/-- Modelled from the spec: the newer start loop over the sorted order. -/
def nStartLoop (resources : List (RId × NResource)) :
    List RId →
    (List (RId × JsValue) × List (RId × RError) × List (RId × RStatus) × List REvent) →
    List (RId × JsValue) × List (RId × RError) × List (RId × RStatus) × List REvent
  | [], st => st
  | id :: rest, st =>
      match alGet resources id with
      | none => nStartLoop resources rest st
      | some resource => nStartLoop resources rest (nStartStep resource id st)

/-- The newer start-pass result. -/
structure NStartResult where
  system : List (RId × JsValue)
  errors : List (RId × RError)
  topology : SystemTopology
  statuses : List (RId × RStatus)

/-- Modelled from the spec: the newer `startSystem` — sort over the
normalized adjacency (aborting before any operation runs on a graph
error), build the topology, then run the start loop. -/
def nStartSystem (resources : List (RId × NResource)) :
    List REvent × Except RError NStartResult :=
  match topologicalSortAdj (nResourceAdj resources) with
  | .error e => ([], .error e)
  | .ok order =>
      let topology := buildTopologyAdj (nResourceAdj resources) order
      let fin := nStartLoop resources order
        ([], [], resources.map (fun p => (p.1, RStatus.stopped)), [])
      (fin.2.2.2,
        .ok { system := fin.1, errors := fin.2.1, topology := topology,
              statuses := fin.2.2.1 })

theorem alGet_map_keyed {β γ : Type} (l : List (RId × β)) (g : RId × β → γ) (k : RId) :
    alGet (l.map (fun p => (p.1, g p))) k = (alGet l k).map (fun v => g (k, v)) := by
  induction l with
  | nil => simp [alGet]
  | cons p rest ih =>
      by_cases hk : p.1 = k
      · obtain ⟨k₀, v₀⟩ := p
        simp only at hk
        subst hk
        simp [alGet]
      · simp [alGet, hk, ih]

theorem mem_firstOccurrences (l : List RId) (x : RId) :
    x ∈ firstOccurrences l ↔ x ∈ l := by
  induction l using firstOccurrences.induct with
  | case1 => simp
  | case2 y ys ih =>
      rw [firstOccurrences]
      constructor
      · intro h
        cases List.mem_cons.mp h with
        | inl h' => exact h' ▸ List.mem_cons_self y ys
        | inr h' =>
            have := ih.mp h'
            exact List.mem_cons_of_mem y (List.mem_filter.mp this).1
      · intro h
        cases List.mem_cons.mp h with
        | inl h' => exact h' ▸ List.mem_cons_self y _
        | inr h' =>
            by_cases hxy : x = y
            · exact hxy ▸ List.mem_cons_self y _
            · apply List.mem_cons_of_mem
              apply ih.mpr
              exact List.mem_filter.mpr ⟨h', by simpa using hxy⟩

theorem required_subset_all (ds : Option DependenciesSpec) (d : RId)
    (hd : d ∈ (normalizeDependencies ds).required) :
    d ∈ (normalizeDependencies ds).all := by
  match ds with
  | none => cases hd
  | some (.flat ids) => exact hd
  | some (.split req opt) =>
      simp only [normalizeDependencies] at hd ⊢
      rw [dedupSeen_eq_firstOccurrences]
      have hfeq : (req.getD [] ++ opt.getD []).filter (fun y => y ∉ ([] : List RId))
          = req.getD [] ++ opt.getD [] := by
        apply List.filter_eq_self.mpr
        intro a _
        simp
      rw [hfeq, mem_firstOccurrences]
      exact List.mem_append_left _ hd

theorem keys_nResourceAdj (resources : List (RId × NResource)) :
    alKeys (nResourceAdj resources) = alKeys resources := by
  simp [alKeys, nResourceAdj, List.map_map]

theorem mem_take_of_indexOf_lt (l : List RId) (n : Nat) (d : RId)
    (hd : d ∈ l) (hlt : l.indexOf d < n) : d ∈ l.take n := by
  have hidx : l.indexOf d < l.length := List.indexOf_lt_length.mpr hd
  have hget : l.get ⟨l.indexOf d, hidx⟩ = d := List.indexOf_get hidx
  have hlen : l.indexOf d < (l.take n).length := by
    rw [List.length_take]
    exact lt_min hlt hidx
  have : (l.take n).get ⟨l.indexOf d, hlen⟩ = l.get ⟨l.indexOf d, hidx⟩ := by
    simp [List.getElem_take]
  rw [← this] at hget
  exact hget ▸ List.get_mem _ _ _

theorem nStartLoop_append (resources : List (RId × NResource)) (l₁ l₂ : List RId)
    (st : List (RId × JsValue) × List (RId × RError) × List (RId × RStatus) × List REvent) :
    nStartLoop resources (l₁ ++ l₂) st =
      nStartLoop resources l₂ (nStartLoop resources l₁ st) := by
  induction l₁ generalizing st with
  | nil => rfl
  | cons y rest ih =>
      cases hy : alGet resources y with
      | none =>
          rw [List.cons_append, nStartLoop, hy, nStartLoop, hy]
          exact ih st
      | some r =>
          rw [List.cons_append, nStartLoop, hy, nStartLoop, hy]
          exact ih (nStartStep r y st)

theorem nStartStep_cases (r : NResource) (id : RId)
    (st : List (RId × JsValue) × List (RId × RError) × List (RId × RStatus) × List REvent) :
    ∃ evs err,
      (nStartStep r id st).2.2.2 = st.2.2.2 ++ evs ∧ (∀ ev ∈ evs, eventId ev = id) ∧
      (nStartStep r id st).2.1 = st.2.1 ++ err ∧ (∀ p ∈ err, p.1 = id) ∧
      (∀ x, x ≠ id → alGet (nStartStep r id st).2.2.1 x = alGet st.2.2.1 x) ∧
      (alGet (nStartStep r id st).2.2.1 id = some .started ∨
        alGet (nStartStep r id st).2.2.1 id = some .failed) ∧
      (∀ k, (alGet st.1 k).isSome → (alGet (nStartStep r id st).1 k).isSome) := by
  simp only [nStartStep]
  by_cases hoff : (normalizeDependencies r.dependencies).required.filter
      (fun d => d ∈ alKeys st.2.1) = []
  · simp only [hoff, if_true]
    cases r.assert with
    | none =>
        cases hs : r.start (nResolveDependencies (normalizeDependencies r.dependencies) st.1) with
        | ok inst =>
            simp only [hs]
            refine ⟨[REvent.startCalled id
              (nResolveDependencies (normalizeDependencies r.dependencies) st.1)],
              [], rfl, ?_, by simp, by simp, ?_, ?_, ?_⟩
            · intro ev hev
              simp at hev
              subst hev
              rfl
            · intro x hx
              exact alGet_alSet_ne st.2.2.1 id x .started (fun h => hx h.symm)
            · exact .inl (alGet_alSet_self st.2.2.1 id .started)
            · intro k hk
              by_cases hki : id = k
              · subst hki
                rw [alGet_alSet_self]
                rfl
              · rw [alGet_alSet_ne st.1 id k inst hki]
                exact hk
        | error e =>
            simp only [hs]
            refine ⟨[REvent.startCalled id
              (nResolveDependencies (normalizeDependencies r.dependencies) st.1)],
              [(id, e)], rfl, ?_, rfl, ?_, ?_, ?_, fun k hk => hk⟩
            · intro ev hev
              simp at hev
              subst hev
              rfl
            · intro p hp
              simp at hp
              subst hp
              rfl
            · intro x hx
              exact alGet_alSet_ne st.2.2.1 id x .failed (fun h => hx h.symm)
            · exact .inr (alGet_alSet_self st.2.2.1 id .failed)
    | some f =>
        cases hf : f (nResolveDependencies (normalizeDependencies r.dependencies) st.1) with
        | ok u =>
            simp only [hf]
            cases hs : r.start (nResolveDependencies (normalizeDependencies r.dependencies) st.1) with
            | ok inst =>
                simp only [hs]
                refine ⟨[REvent.asserted id
                  (nResolveDependencies (normalizeDependencies r.dependencies) st.1),
                  REvent.startCalled id
                  (nResolveDependencies (normalizeDependencies r.dependencies) st.1)],
                  [], by simp, ?_, by simp, by simp, ?_, ?_, ?_⟩
                · intro ev hev
                  simp at hev
                  cases hev with
                  | inl h => subst h; rfl
                  | inr h => subst h; rfl
                · intro x hx
                  exact alGet_alSet_ne st.2.2.1 id x .started (fun h => hx h.symm)
                · exact .inl (alGet_alSet_self st.2.2.1 id .started)
                · intro k hk
                  by_cases hki : id = k
                  · subst hki
                    rw [alGet_alSet_self]
                    rfl
                  · rw [alGet_alSet_ne st.1 id k inst hki]
                    exact hk
            | error e =>
                simp only [hs]
                refine ⟨[REvent.asserted id
                  (nResolveDependencies (normalizeDependencies r.dependencies) st.1),
                  REvent.startCalled id
                  (nResolveDependencies (normalizeDependencies r.dependencies) st.1)],
                  [(id, e)], by simp, ?_, rfl, ?_, ?_, ?_, fun k hk => hk⟩
                · intro ev hev
                  simp at hev
                  cases hev with
                  | inl h => subst h; rfl
                  | inr h => subst h; rfl
                · intro p hp
                  simp at hp
                  subst hp
                  rfl
                · intro x hx
                  exact alGet_alSet_ne st.2.2.1 id x .failed (fun h => hx h.symm)
                · exact .inr (alGet_alSet_self st.2.2.1 id .failed)
        | error e =>
            simp only [hf]
            refine ⟨[REvent.asserted id
              (nResolveDependencies (normalizeDependencies r.dependencies) st.1)],
              [(id, RError.wrapped ("Invalid dependencies for resource \x22" ++ id ++ "\x22") e)],
              rfl, ?_, rfl, ?_, ?_, ?_, fun k hk => hk⟩
            · intro ev hev
              simp at hev
              subst hev
              rfl
            · intro p hp
              simp at hp
              subst hp
              rfl
            · intro x hx
              exact alGet_alSet_ne st.2.2.1 id x .failed (fun h => hx h.symm)
            · exact .inr (alGet_alSet_self st.2.2.1 id .failed)
  · simp only [hoff, if_false]
    refine ⟨[], [(id, missingRequiredError id
      ((normalizeDependencies r.dependencies).required.filter
        (fun d => d ∈ alKeys st.2.1)))],
      by simp, by simp, rfl, ?_, ?_, ?_, fun k hk => hk⟩
    · intro p hp
      simp at hp
      subst hp
      rfl
    · intro x hx
      exact alGet_alSet_ne st.2.2.1 id x .failed (fun h => hx h.symm)
    · exact .inr (alGet_alSet_self st.2.2.1 id .failed)

theorem nStartLoop_extends (resources : List (RId × NResource)) (order : List RId)
    (st : List (RId × JsValue) × List (RId × RError) × List (RId × RStatus) × List REvent) :
    ∃ evs err,
      (nStartLoop resources order st).2.2.2 = st.2.2.2 ++ evs ∧
      (∀ ev ∈ evs, eventId ev ∈ order) ∧
      (nStartLoop resources order st).2.1 = st.2.1 ++ err ∧
      (∀ p ∈ err, p.1 ∈ order) ∧
      (∀ x, x ∉ order → alGet (nStartLoop resources order st).2.2.1 x = alGet st.2.2.1 x) ∧
      (∀ k, (alGet st.1 k).isSome → (alGet (nStartLoop resources order st).1 k).isSome) := by
  induction order generalizing st with
  | nil =>
      exact ⟨[], [], by simp [nStartLoop], by simp, by simp [nStartLoop], by simp,
        fun x _ => rfl, fun k hk => hk⟩
  | cons y rest ih =>
      cases hy : alGet resources y with
      | none =>
          obtain ⟨evs, err, h1, h2, h3, h4, h5, h6⟩ := ih st
          refine ⟨evs, err, ?_, ?_, ?_, ?_, ?_, ?_⟩
          · rw [nStartLoop, hy]; exact h1
          · intro ev hev; exact List.mem_cons_of_mem y (h2 ev hev)
          · rw [nStartLoop, hy]; exact h3
          · intro p hp; exact List.mem_cons_of_mem y (h4 p hp)
          · intro x hx
            rw [nStartLoop, hy]
            exact h5 x (fun h => hx (List.mem_cons_of_mem y h))
          · intro k hk
            rw [nStartLoop, hy]
            exact h6 k hk
      | some r =>
          obtain ⟨evs₁, err₁, g1, g2, g3, g4, g5, _, g7⟩ := nStartStep_cases r y st
          obtain ⟨evs, err, h1, h2, h3, h4, h5, h6⟩ := ih (nStartStep r y st)
          refine ⟨evs₁ ++ evs, err₁ ++ err, ?_, ?_, ?_, ?_, ?_, ?_⟩
          · rw [nStartLoop, hy, h1, g1, List.append_assoc]
          · intro ev hev
            cases List.mem_append.mp hev with
            | inl h => rw [g2 ev h]; exact List.mem_cons_self y rest
            | inr h => exact List.mem_cons_of_mem y (h2 ev h)
          · rw [nStartLoop, hy, h3, g3, List.append_assoc]
          · intro p hp
            cases List.mem_append.mp hp with
            | inl h => rw [g4 p h]; exact List.mem_cons_self y rest
            | inr h => exact List.mem_cons_of_mem y (h4 p h)
          · intro x hx
            rw [nStartLoop, hy]
            rw [h5 x (fun h => hx (List.mem_cons_of_mem y h))]
            exact g5 x (fun h => hx (h ▸ List.mem_cons_self y rest))
          · intro k hk
            rw [nStartLoop, hy]
            exact h6 k (g7 k hk)

theorem nStartStep_always_fails (r : NResource) (id : RId)
    (hassert : r.assert = none)
    (ef : DepMap → RError) (hfail : ∀ deps, r.start deps = .error (ef deps))
    (st : List (RId × JsValue) × List (RId × RError) × List (RId × RStatus) × List REvent) :
    ∃ e, (id, e) ∈ (nStartStep r id st).2.1 := by
  simp only [nStartStep, hassert, hfail]
  by_cases hoff : (normalizeDependencies r.dependencies).required.filter
      (fun d => d ∈ alKeys st.2.1) = []
  · simp only [hoff, if_true]
    exact ⟨ef (nResolveDependencies (normalizeDependencies r.dependencies) st.1),
      List.mem_append_right _ (List.mem_singleton.mpr rfl)⟩
  · simp only [hoff, if_false]
    exact ⟨missingRequiredError id ((normalizeDependencies r.dependencies).required.filter
      (fun d => d ∈ alKeys st.2.1)),
      List.mem_append_right _ (List.mem_singleton.mpr rfl)⟩

theorem nStartLoop_fail_recorded (resources : List (RId × NResource)) (order : List RId)
    (d : RId) (hd : d ∈ order)
    (rd : NResource) (hrd : alGet resources d = some rd)
    (hassert : rd.assert = none)
    (ef : DepMap → RError) (hfail : ∀ deps, rd.start deps = .error (ef deps))
    (st : List (RId × JsValue) × List (RId × RError) × List (RId × RStatus) × List REvent) :
    ∃ e, (d, e) ∈ (nStartLoop resources order st).2.1 := by
  induction order generalizing st with
  | nil => cases hd
  | cons y rest ih =>
      by_cases hdy : d = y
      · subst hdy
        rw [nStartLoop, hrd]
        obtain ⟨e, he⟩ := nStartStep_always_fails rd d hassert ef hfail st
        obtain ⟨_, _, _, _, h3, _, _, _⟩ := nStartLoop_extends resources rest (nStartStep rd d st)
        exact ⟨e, h3 ▸ List.mem_append_left _ he⟩
      · have hdrest : d ∈ rest := by
          cases List.mem_cons.mp hd with
          | inl h => exact absurd h hdy
          | inr h => exact h
        cases hy : alGet resources y with
        | none =>
            rw [nStartLoop, hy]
            exact ih hdrest st
        | some ry =>
            rw [nStartLoop, hy]
            exact ih hdrest (nStartStep ry y st)

theorem alGet_foldl_set (l : List RId) (g : RId → JsValue)
    (acc : List (RId × JsValue)) (k : RId) :
    alGet (l.foldl (fun a d => alSet a d (g d)) acc) k =
      if k ∈ l then some (g k) else alGet acc k := by
  induction l generalizing acc with
  | nil => simp
  | cons d rest ih =>
      rw [List.foldl_cons, ih (alSet acc d (g d))]
      by_cases hk : k ∈ rest
      · rw [if_pos hk, if_pos (List.mem_cons_of_mem d hk)]
      · rw [if_neg hk]
        by_cases hkd : d = k
        · subst hkd
          rw [if_pos (List.mem_cons_self d rest), alGet_alSet_self]
        · rw [alGet_alSet_ne acc d k (g d) hkd, if_neg ?_]
          intro h
          cases List.mem_cons.mp h with
          | inl h' => exact hkd h'.symm
          | inr h' => exact hk h'

theorem exists_entry_of_mem_alKeys {β : Type} (l : List (RId × β)) (k : RId)
    (h : k ∈ alKeys l) : ∃ v, (k, v) ∈ l := by
  obtain ⟨p, hp, hpk⟩ := List.mem_map.mp h
  exact ⟨p.2, by rw [← hpk]; exact hp⟩

/-- Modelled from the spec: the one-step shape of §4.3 step 4c when the
failure registry already holds some required dependency — mark failed,
record the missing-required error, and touch neither the trace (no
assertion, no start) nor the instance mapping. -/
theorem nStartStep_missing_required (r : NResource) (id : RId)
    (st : List (RId × JsValue) × List (RId × RError) × List (RId × RStatus) × List REvent)
    (d : RId) (hd : d ∈ (normalizeDependencies r.dependencies).required)
    (hreg : d ∈ alKeys st.2.1) :
    nStartStep r id st =
      (st.1,
       st.2.1 ++ [(id, missingRequiredError id
         ((normalizeDependencies r.dependencies).required.filter
           (fun y => y ∈ alKeys st.2.1)))],
       alSet st.2.2.1 id .failed, st.2.2.2) := by
  have hoff : (normalizeDependencies r.dependencies).required.filter
      (fun y => y ∈ alKeys st.2.1) ≠ [] := by
    apply List.ne_nil_of_mem
    apply List.mem_filter.mpr
    exact ⟨hd, by simpa using hreg⟩
  simp only [nStartStep]
  rw [if_neg hoff]

/-- C1: in the newer start pass (modelled from the spec, §4.3 step 4c:
the deciding `system.ts` is absent from this snapshot), when a resource
has a required dependency whose own processing records a failure, the
dependent is marked failed with a "Missing required dependencies" error
listing offending ids that are all genuinely failed required
dependencies, that error appears in the returned error mapping, and the
dependent's assertion and start operations are never invoked. -/
theorem C1_missing_required_dependency (resources : List (RId × NResource))
    (hnd : (alKeys resources).Nodup)
    (hex : ∀ p ∈ nResourceAdj resources, ∀ dd ∈ p.2, dd ∈ alKeys resources)
    (rank : RId → Nat)
    (hrank : ∀ p ∈ nResourceAdj resources, ∀ dd ∈ p.2, rank dd < rank p.1)
    (id : RId) (r : NResource) (hr : alGet resources id = some r)
    (d : RId) (hd : d ∈ (normalizeDependencies r.dependencies).required)
    (rd : NResource) (hrd : alGet resources d = some rd)
    (hassert : rd.assert = none)
    (ef : DepMap → RError) (hfail : ∀ deps, rd.start deps = .error (ef deps)) :
    ∃ res offending, (nStartSystem resources).2 = .ok res ∧
      d ∈ offending ∧
      (∀ y ∈ offending, y ∈ (normalizeDependencies r.dependencies).required) ∧
      (∀ y ∈ offending, ∃ e, (y, e) ∈ res.errors) ∧
      (id, missingRequiredError id offending) ∈ res.errors ∧
      alGet res.statuses id = some .failed ∧
      (∀ deps, REvent.asserted id deps ∉ (nStartSystem resources).1) ∧
      (∀ deps, REvent.startCalled id deps ∉ (nStartSystem resources).1) := by
  have hk := keys_nResourceAdj resources
  obtain ⟨order, seeds, batches, hok, hperm, hprec, _, _, _, _⟩ :=
    topologicalSortAdj_correct (nResourceAdj resources)
      (by rw [hk]; exact hnd)
      (by intro p hp dd hdd; rw [hk]; exact hex p hp dd hdd)
      rank hrank
  have hpermk : order.Perm (alKeys resources) := hk ▸ hperm
  have hordernd : order.Nodup := hpermk.nodup_iff.mpr hnd
  have hidmem : id ∈ order :=
    hpermk.mem_iff.mpr (mem_keys_of_isSome resources id (by rw [hr]; rfl))
  have hdmem : d ∈ order :=
    hpermk.mem_iff.mpr (mem_keys_of_isSome resources d (by rw [hrd]; rfl))
  have hadj : alGet (nResourceAdj resources) id =
      some (normalizeDependencies r.dependencies).all := by
    rw [nResourceAdj,
      alGet_map_keyed resources (fun p => (normalizeDependencies p.2.dependencies).all) id,
      hr]
    rfl
  have hdd : d ∈ depsOf (nResourceAdj resources) id := by
    rw [depsOf, hadj]
    exact required_subset_all r.dependencies d hd
  have hidkeys : id ∈ alKeys (nResourceAdj resources) := by
    rw [hk]
    exact mem_keys_of_isSome resources id (by rw [hr]; rfl)
  have hlt : order.indexOf d < order.indexOf id := hprec id hidkeys d hdd
  set k := order.indexOf id with hkdef
  have hkl : k < order.length := List.indexOf_lt_length.mpr hidmem
  have hgetk : order.get ⟨k, hkl⟩ = id := List.indexOf_get hkl
  have hdrop : order.drop k = id :: order.drop (k + 1) := by
    rw [List.drop_eq_getElem_cons hkl]
    congr 1
  set st₀ : List (RId × JsValue) × List (RId × RError) × List (RId × RStatus) × List REvent :=
    ([], [], resources.map (fun p => (p.1, RStatus.stopped)), []) with hst₀
  set stPre := nStartLoop resources (order.take k) st₀ with hstPre
  have hdtake : d ∈ order.take k := mem_take_of_indexOf_lt order k d hdmem hlt
  obtain ⟨ed, hed⟩ :=
    nStartLoop_fail_recorded resources (order.take k) d hdtake rd hrd hassert ef hfail st₀
  have hdkeys : d ∈ alKeys stPre.2.1 :=
    List.mem_map_of_mem Prod.fst hed
  set OFF := (normalizeDependencies r.dependencies).required.filter
    (fun y => y ∈ alKeys stPre.2.1) with hOFF
  have hstep := nStartStep_missing_required r id stPre d hd hdkeys
  have hsplit : nStartLoop resources order st₀ =
      nStartLoop resources (order.drop (k + 1)) (nStartStep r id stPre) := by
    conv_lhs => rw [← List.take_append_drop k order]
    rw [nStartLoop_append, hdrop, nStartLoop, hr]
  have hnd2 : (order.take k ++ order.drop k).Nodup := by
    rw [List.take_append_drop]
    exact hordernd
  rw [hdrop] at hnd2
  have hidnotake : id ∉ order.take k := by
    have hdisj := List.disjoint_of_nodup_append hnd2
    intro hmem
    exact hdisj hmem (List.mem_cons_self id _)
  have hidnodrop : id ∉ order.drop (k + 1) :=
    (List.nodup_cons.mp (hnd2.of_append_right)).1
  obtain ⟨evs₂, err₂, f1, f2, f3, f4, f5, f6⟩ :=
    nStartLoop_extends resources (order.drop (k + 1)) (nStartStep r id stPre)
  obtain ⟨evs₁, err₁, g1, g2, g3, g4, g5, g6⟩ :=
    nStartLoop_extends resources (order.take k) st₀
  simp only [nStartSystem, hok]
  refine ⟨_, OFF, rfl, ?_, ?_, ?_, ?_, ?_, ?_, ?_⟩
  · exact List.mem_filter.mpr ⟨hd, by simpa using hdkeys⟩
  · intro y hy
    exact (List.mem_filter.mp hy).1
  · intro y hy
    have hyk : y ∈ alKeys stPre.2.1 := by
      have := (List.mem_filter.mp hy).2
      simpa using this
    obtain ⟨e, he⟩ := exists_entry_of_mem_alKeys stPre.2.1 y hyk
    refine ⟨e, ?_⟩
    show (y, e) ∈ (nStartLoop resources order st₀).2.1
    rw [hsplit, f3, hstep]
    exact List.mem_append_left _ (List.mem_append_left _ he)
  · show (id, missingRequiredError id OFF) ∈ (nStartLoop resources order st₀).2.1
    rw [hsplit, f3, hstep]
    exact List.mem_append_left _ (List.mem_append_right _ (List.mem_singleton.mpr rfl))
  · show alGet (nStartLoop resources order st₀).2.2.1 id = some .failed
    rw [hsplit, f5 id hidnodrop, hstep]
    exact alGet_alSet_self stPre.2.2.1 id .failed
  · intro deps hdeps
    rw [show (nStartLoop resources order st₀).2.2.2 =
      (nStartLoop resources (order.drop (k + 1)) (nStartStep r id stPre)).2.2.2 from by
        rw [hsplit]] at hdeps
    rw [f1, hstep] at hdeps
    cases List.mem_append.mp hdeps with
    | inl h =>
        rw [show stPre.2.2.2 = st₀.2.2.2 ++ evs₁ from g1] at h
        cases List.mem_append.mp h with
        | inl h' => simp [hst₀] at h'
        | inr h' =>
            have := g2 _ h'
            rw [eventId] at this
            exact hidnotake this
    | inr h =>
        have := f2 _ h
        rw [eventId] at this
        exact hidnodrop this
  · intro deps hdeps
    rw [show (nStartLoop resources order st₀).2.2.2 =
      (nStartLoop resources (order.drop (k + 1)) (nStartStep r id stPre)).2.2.2 from by
        rw [hsplit]] at hdeps
    rw [f1, hstep] at hdeps
    cases List.mem_append.mp hdeps with
    | inl h =>
        rw [show stPre.2.2.2 = st₀.2.2.2 ++ evs₁ from g1] at h
        cases List.mem_append.mp h with
        | inl h' => simp [hst₀] at h'
        | inr h' =>
            have := g2 _ h'
            rw [eventId] at this
            exact hidnotake this
    | inr h =>
        have := f2 _ h
        rw [eventId] at this
        exact hidnodrop this

theorem nStartStep_events (r : NResource) (id : RId)
    (st : List (RId × JsValue) × List (RId × RError) × List (RId × RStatus) × List REvent) :
    ∀ ev ∈ (nStartStep r id st).2.2.2, ev ∈ st.2.2.2 ∨
      ev = REvent.asserted id
        (nResolveDependencies (normalizeDependencies r.dependencies) st.1) ∨
      ev = REvent.startCalled id
        (nResolveDependencies (normalizeDependencies r.dependencies) st.1) := by
  intro ev hev
  by_cases hoff : (normalizeDependencies r.dependencies).required.filter
      (fun d => d ∈ alKeys st.2.1) = []
  · cases hassert : r.assert with
    | none =>
        cases hs : r.start (nResolveDependencies (normalizeDependencies r.dependencies) st.1) with
        | ok inst =>
            simp only [nStartStep, hoff, hassert, hs, if_true] at hev
            cases List.mem_append.mp hev with
            | inl h => exact .inl h
            | inr h =>
                rw [List.mem_singleton] at h
                exact .inr (.inr h)
        | error e =>
            simp only [nStartStep, hoff, hassert, hs, if_true] at hev
            cases List.mem_append.mp hev with
            | inl h => exact .inl h
            | inr h =>
                rw [List.mem_singleton] at h
                exact .inr (.inr h)
    | some f =>
        cases hf : f (nResolveDependencies (normalizeDependencies r.dependencies) st.1) with
        | ok u =>
            cases hs : r.start (nResolveDependencies (normalizeDependencies r.dependencies) st.1) with
            | ok inst =>
                simp only [nStartStep, hoff, hassert, hf, hs, if_true] at hev
                rw [List.append_assoc] at hev
                cases List.mem_append.mp hev with
                | inl h => exact .inl h
                | inr h =>
                    simp only [List.singleton_append, List.mem_cons, List.mem_singleton] at h
                    cases h with
                    | inl h' => exact .inr (.inl h')
                    | inr h' =>
                        cases h' with
                        | inl h2 => exact .inr (.inr h2)
                        | inr h2 => cases h2
            | error e =>
                simp only [nStartStep, hoff, hassert, hf, hs, if_true] at hev
                rw [List.append_assoc] at hev
                cases List.mem_append.mp hev with
                | inl h => exact .inl h
                | inr h =>
                    simp only [List.singleton_append, List.mem_cons, List.mem_singleton] at h
                    cases h with
                    | inl h' => exact .inr (.inl h')
                    | inr h' =>
                        cases h' with
                        | inl h2 => exact .inr (.inr h2)
                        | inr h2 => cases h2
        | error e =>
            simp only [nStartStep, hoff, hassert, hf, if_true] at hev
            cases List.mem_append.mp hev with
            | inl h => exact .inl h
            | inr h =>
                rw [List.mem_singleton] at h
                exact .inr (.inl h)
  · simp only [nStartStep] at hev
    rw [if_neg hoff] at hev
    exact .inl hev

theorem nStartLoop_events (resources : List (RId × NResource)) (order : List RId)
    (st : List (RId × JsValue) × List (RId × RError) × List (RId × RStatus) × List REvent) :
    ∀ ev ∈ (nStartLoop resources order st).2.2.2, ev ∈ st.2.2.2 ∨
      ∃ x rx s, alGet resources x = some rx ∧
        (ev = REvent.asserted x
          (nResolveDependencies (normalizeDependencies rx.dependencies) s) ∨
         ev = REvent.startCalled x
          (nResolveDependencies (normalizeDependencies rx.dependencies) s)) ∧
        (∀ q, (alGet s q).isSome → (alGet (nStartLoop resources order st).1 q).isSome) := by
  induction order generalizing st with
  | nil =>
      intro ev hev
      exact .inl hev
  | cons y rest ih =>
      intro ev hev
      cases hy : alGet resources y with
      | none =>
          rw [nStartLoop, hy] at hev ⊢
          exact ih st ev hev
      | some ry =>
          rw [nStartLoop, hy] at hev ⊢
          cases ih (nStartStep ry y st) ev hev with
          | inr h =>
              obtain ⟨x, rx, s, hx, hshape, hmono⟩ := h
              exact .inr ⟨x, rx, s, hx, hshape, hmono⟩
          | inl h =>
              cases nStartStep_events ry y st ev h with
              | inl h' => exact .inl h'
              | inr h' =>
                  refine .inr ⟨y, ry, st.1, hy, ?_, ?_⟩
                  · cases h' with
                    | inl h'' => exact .inl h''
                    | inr h'' => exact .inr h''
                  · intro q hq
                    obtain ⟨_, _, _, _, _, _, _, _, g7⟩ := nStartStep_cases ry y st
                    obtain ⟨_, _, _, _, _, _, _, h6⟩ :=
                      nStartLoop_extends resources rest (nStartStep ry y st)
                    exact h6 q (g7 q hq)

theorem mem_normalized_all_split (req opt : Option (List RId)) (q : RId) :
    q ∈ (normalizeDependencies (some (.split req opt))).all ↔
      (q ∈ req.getD [] ∨ q ∈ opt.getD []) := by
  simp only [normalizeDependencies]
  rw [dedupSeen_eq_firstOccurrences]
  have hfeq : (req.getD [] ++ opt.getD []).filter (fun y => y ∉ ([] : List RId))
      = req.getD [] ++ opt.getD [] := by
    apply List.filter_eq_self.mpr
    intro a _
    simp
  rw [hfeq, mem_firstOccurrences, List.mem_append]

/-- C2: in the newer start pass (modelled from the spec, §4.3 steps 2
and 4b: the deciding `system.ts` is absent from this snapshot), a
resource declaring the object dependency form is handled exactly as its
normalization prescribes: the topological sorter's adjacency entry for
it is the normalized `all` list, and any dependency map its assertion or
start operation is invoked with holds exactly the ids of the
required/optional collections, with a never-started dependency bound to
`undefined`. -/
theorem C2_object_form_normalized (resources : List (RId × NResource))
    (hnd : (alKeys resources).Nodup)
    (hex : ∀ p ∈ nResourceAdj resources, ∀ dd ∈ p.2, dd ∈ alKeys resources)
    (rank : RId → Nat)
    (hrank : ∀ p ∈ nResourceAdj resources, ∀ dd ∈ p.2, rank dd < rank p.1)
    (id : RId) (r : NResource) (req opt : Option (List RId))
    (hr : alGet resources id = some r)
    (hdeps : r.dependencies = some (.split req opt)) :
    alGet (nResourceAdj resources) id =
      some (normalizeDependencies (some (.split req opt))).all ∧
    ∃ order res, topologicalSortAdj (nResourceAdj resources) = .ok order ∧
      (nStartSystem resources).2 = .ok res ∧
      ∀ deps, (REvent.asserted id deps ∈ (nStartSystem resources).1 ∨
               REvent.startCalled id deps ∈ (nStartSystem resources).1) →
        (∀ q, q ∈ alKeys deps ↔ (q ∈ req.getD [] ∨ q ∈ opt.getD [])) ∧
        (∀ q ∈ alKeys deps, alGet res.system q = none →
          alGet deps q = some JsValue.undef) := by
  have hk := keys_nResourceAdj resources
  have hadj : alGet (nResourceAdj resources) id =
      some (normalizeDependencies (some (.split req opt))).all := by
    rw [nResourceAdj,
      alGet_map_keyed resources (fun p => (normalizeDependencies p.2.dependencies).all) id,
      hr]
    simp [hdeps]
  obtain ⟨order, seeds, batches, hok, hperm, _, _, _, _, _⟩ :=
    topologicalSortAdj_correct (nResourceAdj resources)
      (by rw [hk]; exact hnd)
      (by intro p hp dd hdd; rw [hk]; exact hex p hp dd hdd)
      rank hrank
  refine ⟨hadj, order,
    { system := (nStartLoop resources order
        ([], [], resources.map (fun p => (p.1, RStatus.stopped)), [])).1,
      errors := (nStartLoop resources order
        ([], [], resources.map (fun p => (p.1, RStatus.stopped)), [])).2.1,
      topology := buildTopologyAdj (nResourceAdj resources) order,
      statuses := (nStartLoop resources order
        ([], [], resources.map (fun p => (p.1, RStatus.stopped)), [])).2.2.1 },
    hok, ?_, ?_⟩
  · simp only [nStartSystem, hok]
  · intro deps hdeps'
    simp only [nStartSystem, hok] at hdeps'
    have hev : ∃ s,
        deps = nResolveDependencies (normalizeDependencies (some (.split req opt))) s ∧
        (∀ q, (alGet s q).isSome →
          (alGet (nStartLoop resources order
            ([], [], resources.map (fun p => (p.1, RStatus.stopped)), [])).1 q).isSome) := by
      cases hdeps' with
      | inl h =>
          cases nStartLoop_events resources order _ _ h with
          | inl h' => cases h'
          | inr h' =>
              obtain ⟨x, rx, s, hx, hshape, hmono⟩ := h'
              cases hshape with
              | inl he =>
                  cases he
                  rw [hx] at hr
                  cases hr
                  rw [hdeps]
                  exact ⟨s, rfl, hmono⟩
              | inr he => cases he
      | inr h =>
          cases nStartLoop_events resources order _ _ h with
          | inl h' => cases h'
          | inr h' =>
              obtain ⟨x, rx, s, hx, hshape, hmono⟩ := h'
              cases hshape with
              | inl he => cases he
              | inr he =>
                  cases he
                  rw [hx] at hr
                  cases hr
                  rw [hdeps]
                  exact ⟨s, rfl, hmono⟩
    obtain ⟨s, hdeq, hmono⟩ := hev
    have hget : ∀ q, alGet deps q =
        if q ∈ (normalizeDependencies (some (.split req opt))).all
        then some ((alGet s q).getD .undef) else none := by
      intro q
      rw [hdeq, nResolveDependencies,
        alGet_foldl_set ((normalizeDependencies (some (.split req opt))).all)
          (fun dId => (alGet s dId).getD .undef) [] q]
      rfl
    constructor
    · intro q
      constructor
      · intro hq
        have := alGet_isSome_of_mem deps q hq
        rw [hget q] at this
        by_cases hqall : q ∈ (normalizeDependencies (some (.split req opt))).all
        · exact (mem_normalized_all_split req opt q).mp hqall
        · rw [if_neg hqall] at this
          cases this
      · intro hq
        apply mem_keys_of_isSome
        rw [hget q, if_pos ((mem_normalized_all_split req opt q).mpr hq)]
        rfl
    · intro q hq hnone
      have hqall : q ∈ (normalizeDependencies (some (.split req opt))).all := by
        have := alGet_isSome_of_mem deps q hq
        rw [hget q] at this
        by_cases hqall : q ∈ (normalizeDependencies (some (.split req opt))).all
        · exact hqall
        · rw [if_neg hqall] at this
          cases this
      rw [hget q, if_pos hqall]
      cases hsq : alGet s q with
      | none => rfl
      | some v =>
          exfalso
          have : (alGet s q).isSome := by rw [hsq]; rfl
          have hfin := hmono q this
          simp only [nStartSystem, hok] at hnone
          rw [hnone] at hfin
          cases hfin

/-! ## Concrete witness configurations -/

/-- A start operation returning a fixed instance. -/
def okStart (v : JsValue) : DepMap → Except RError JsValue := fun _ => .ok v

/-- A halt operation that always succeeds. -/
def okHalt : JsValue → Except RError Unit := fun _ => .ok ()

/-- A halt operation that always throws. -/
def badHalt : JsValue → Except RError Unit := fun _ => .error (.mk "halt boom")

/-- An assertion that always throws. -/
def failAssert : DepMap → Except RError Unit := fun _ => .error (.mk "assert boom")

/-- A start operation that always throws. -/
def failStart : DepMap → Except RError JsValue := fun _ => .error (.mk "start boom")

def resA : Resource :=
  { dependencies := none, assert := none, start := okStart (.str "A"), halt := okHalt }

def resB : Resource :=
  { dependencies := some ["a"], assert := none, start := okStart (.str "B"), halt := okHalt }

def sampleConfig : List (RId × Resource) := [("a", resA), ("b", resB)]

def sampleRank : RId → Nat := fun x => if x = "b" then 1 else 0

theorem C3_topological_sort_correct_witness :
    ∃ R seeds batches, topologicalSort sampleConfig = .ok R ∧
      R.Perm (alKeys sampleConfig) ∧
      (∀ k ∈ alKeys sampleConfig, ∀ d ∈ depsOf (resourceAdj sampleConfig) k,
        R.indexOf d < R.indexOf k) ∧
      topologicalSortBatches (resourceAdj sampleConfig) = some (seeds, batches) ∧
      R = seeds ++ batches.flatten ∧
      seeds.Pairwise (fun a c =>
        declIdx (resourceAdj sampleConfig) a < declIdx (resourceAdj sampleConfig) c) ∧
      (∀ b ∈ batches, b.Pairwise (fun a c =>
        declIdx (resourceAdj sampleConfig) a < declIdx (resourceAdj sampleConfig) c)) :=
  C3_topological_sort_correct sampleConfig (by decide) (by decide) sampleRank (by decide)

def resMissing : Resource :=
  { dependencies := some ["ghost"], assert := none, start := okStart (.str "M"), halt := okHalt }

def missingConfig : List (RId × Resource) := [("m", resMissing)]

theorem C4_graph_errors_fatal_witness :
    ∃ e, startSystem missingConfig = ([], .error e) ∧
      ((∃ p ∈ resourceAdj missingConfig, ∃ d ∈ p.2, d ∉ alKeys missingConfig ∧
          e = missingDepError p.1 d) ∨
       (∃ u, e = cycleError u ∧ u ≠ [] ∧ (∀ y ∈ u, y ∈ alKeys missingConfig) ∧
          ∀ y, Relation.TransGen (DepEdge (resourceAdj missingConfig)) y y → y ∈ u)) :=
  C4_graph_errors_fatal missingConfig (.inl (by decide))

theorem C6_buildTopology_depths_layers_witness :
    (∀ k ∈ alKeys (resourceAdj sampleConfig),
      alGet (buildTopology sampleConfig ["a", "b"]).depths k =
        some (if (alGet (resourceAdj sampleConfig) k).getD [] = [] then 0
          else (((alGet (resourceAdj sampleConfig) k).getD []).map
            (fun d => (alGet (buildTopology sampleConfig ["a", "b"]).depths d).getD 0)).foldl
              Nat.max 0 + 1)) ∧
    (∀ k ∈ alKeys (resourceAdj sampleConfig),
      (alGet (resourceAdj sampleConfig) k).getD [] ≠ [] →
      ∃ d₀ ∈ (alGet (resourceAdj sampleConfig) k).getD [],
        alGet (buildTopology sampleConfig ["a", "b"]).depths k =
          some ((alGet (buildTopology sampleConfig ["a", "b"]).depths d₀).getD 0 + 1) ∧
        ∀ d ∈ (alGet (resourceAdj sampleConfig) k).getD [],
          (alGet (buildTopology sampleConfig ["a", "b"]).depths d).getD 0 ≤
            (alGet (buildTopology sampleConfig ["a", "b"]).depths d₀).getD 0) ∧
    (∀ k ∈ alKeys (resourceAdj sampleConfig), ∀ v,
      alGet (buildTopology sampleConfig ["a", "b"]).depths k = some v →
      v ≤ (buildTopology sampleConfig ["a", "b"]).maxDepth) ∧
    (sampleConfig ≠ [] → ∃ k ∈ alKeys (resourceAdj sampleConfig),
      alGet (buildTopology sampleConfig ["a", "b"]).depths k =
        some (buildTopology sampleConfig ["a", "b"]).maxDepth) ∧
    ((buildTopology sampleConfig ["a", "b"]).layers.map TopologyLayer.depth =
      List.range ((buildTopology sampleConfig ["a", "b"]).maxDepth + 1)) ∧
    (∀ layer ∈ (buildTopology sampleConfig ["a", "b"]).layers,
      layer.resources.map TopologyNode.id =
        ["a", "b"].filter (fun id =>
          alGet (buildTopology sampleConfig ["a", "b"]).depths id = some layer.depth)) :=
  C6_buildTopology_depths_layers sampleConfig ["a", "b"]
    (by decide) (by decide) (by decide)

def sampleStarted : List (RId × JsValue) := [("a", .str "A"), ("b", .str "B")]

theorem C7_shutdown_reverse_of_startup_witness :
    (∀ (resources : List (RId × Resource)) (order : List RId),
      (buildTopology resources order).shutdownOrder =
        (buildTopology resources order).startupOrder.reverse) ∧
    ∃ order, topologicalSort sampleConfig = .ok order ∧
      (haltSystem sampleConfig sampleStarted).1 =
        (order.reverse.filter (fun id =>
          (alGet sampleConfig id).isSome &&
            (suppliedInstance sampleStarted id).truthy)).map
          (fun id => REvent.haltCalled id (suppliedInstance sampleStarted id)) ∧
      (∀ A B, Relation.TransGen (DepEdge (resourceAdj sampleConfig)) A B →
        ((alGet sampleConfig A).isSome &&
          (suppliedInstance sampleStarted A).truthy) = true →
        ((alGet sampleConfig B).isSome &&
          (suppliedInstance sampleStarted B).truthy) = true →
        [REvent.haltCalled B (suppliedInstance sampleStarted B),
         REvent.haltCalled A (suppliedInstance sampleStarted A)].Sublist
          (haltSystem sampleConfig sampleStarted).1) :=
  C7_shutdown_reverse_of_startup sampleConfig sampleStarted
    (by decide) (by decide) sampleRank (by decide)

def resC : Resource :=
  { dependencies := some ["a"], assert := some failAssert,
    start := okStart (.str "C"), halt := okHalt }

def assertConfig : List (RId × Resource) := [("a", resA), ("c", resC)]

def assertRank : RId → Nat := fun x => if x = "c" then 1 else 0

theorem C8_assert_failure_wrapped_witness :
    ∃ res, (startSystem assertConfig).2 = .ok res ∧
      ∃ deps,
        alGet res.statuses "c" = some .failed ∧
        ("c", RError.wrapped ("Invalid dependencies for resource \x22c\x22")
          ((fun _ => RError.mk "assert boom") deps)) ∈ res.errors ∧
        REvent.asserted "c" deps ∈ (startSystem assertConfig).1 ∧
        (∀ d, REvent.startCalled "c" d ∉ (startSystem assertConfig).1) ∧
        (∀ x ∈ alKeys assertConfig,
          alGet res.statuses x = some .started ∨ alGet res.statuses x = some .failed) :=
  C8_assert_failure_wrapped assertConfig (by decide) (by decide) assertRank (by decide)
    "c" resC rfl failAssert rfl (fun _ => RError.mk "assert boom") (fun deps => rfl)

def resH : Resource :=
  { dependencies := none, assert := none, start := okStart (.str "H"), halt := badHalt }

def haltConfig : List (RId × Resource) := [("a", resA), ("h", resH)]

def haltStarted : List (RId × JsValue) := [("a", .str "A"), ("h", .str "H")]

theorem C9_halt_error_isolation_witness :
    ∃ errs, (haltSystem haltConfig haltStarted).2 = .ok errs ∧
      alGet errs "h" = some (.mk "halt boom") ∧
      (∀ x ex, (x, ex) ∈ errs → ∃ rx, alGet haltConfig x = some rx ∧
        rx.halt (suppliedInstance haltStarted x) = .error ex) ∧
      (∀ x, (alGet haltConfig x).isSome →
        (suppliedInstance haltStarted x).truthy = true →
        REvent.haltCalled x (suppliedInstance haltStarted x) ∈
          (haltSystem haltConfig haltStarted).1) :=
  C9_halt_error_isolation haltConfig haltStarted (by decide) (by decide)
    (fun _ => 0) (by decide) "h" resH (.mk "halt boom") rfl (by decide) rfl

def falsyConfig : List (RId × Resource) := [("a", resA), ("f", resA)]

def falsyStarted : List (RId × JsValue) := [("a", .str "A"), ("f", .undef)]

theorem C10_falsy_instance_skipped_witness :
    ∃ errs, (haltSystem falsyConfig falsyStarted).2 = .ok errs ∧
      (∀ v, REvent.haltCalled "f" v ∉ (haltSystem falsyConfig falsyStarted).1) ∧
      (∀ e, ("f", e) ∉ errs) ∧
      (∀ x, (alGet falsyConfig x).isSome →
        (suppliedInstance falsyStarted x).truthy = true →
        REvent.haltCalled x (suppliedInstance falsyStarted x) ∈
          (haltSystem falsyConfig falsyStarted).1) :=
  C10_falsy_instance_skipped falsyConfig falsyStarted (by decide) (by decide)
    (fun _ => 0) (by decide) "f" (by decide)

def nResD : NResource :=
  { dependencies := none, assert := none, start := failStart, halt := okHalt }

def nResE : NResource :=
  { dependencies := some (.split (some ["d"]) none), assert := none,
    start := okStart (.str "E"), halt := okHalt }

def nConfig : List (RId × NResource) := [("d", nResD), ("e", nResE)]

def nRank : RId → Nat := fun x => if x = "e" then 1 else 0

theorem C1_missing_required_dependency_witness :
    ∃ res offending, (nStartSystem nConfig).2 = .ok res ∧
      "d" ∈ offending ∧
      (∀ y ∈ offending, y ∈ (normalizeDependencies nResE.dependencies).required) ∧
      (∀ y ∈ offending, ∃ e, (y, e) ∈ res.errors) ∧
      ("e", missingRequiredError "e" offending) ∈ res.errors ∧
      alGet res.statuses "e" = some .failed ∧
      (∀ deps, REvent.asserted "e" deps ∉ (nStartSystem nConfig).1) ∧
      (∀ deps, REvent.startCalled "e" deps ∉ (nStartSystem nConfig).1) :=
  C1_missing_required_dependency nConfig (by decide) (by decide) nRank (by decide)
    "e" nResE rfl "d" (by decide) nResD rfl rfl
    (fun _ => .mk "start boom") (fun deps => rfl)

theorem C2_object_form_normalized_witness :
    alGet (nResourceAdj nConfig) "e" =
      some (normalizeDependencies (some (.split (some ["d"]) none))).all ∧
    ∃ order res, topologicalSortAdj (nResourceAdj nConfig) = .ok order ∧
      (nStartSystem nConfig).2 = .ok res ∧
      ∀ deps, (REvent.asserted "e" deps ∈ (nStartSystem nConfig).1 ∨
               REvent.startCalled "e" deps ∈ (nStartSystem nConfig).1) →
        (∀ q, q ∈ alKeys deps ↔
          (q ∈ (some ["d"] : Option (List RId)).getD [] ∨
           q ∈ (none : Option (List RId)).getD [])) ∧
        (∀ q ∈ alKeys deps, alGet res.system q = none →
          alGet deps q = some JsValue.undef) :=
  C2_object_form_normalized nConfig (by decide) (by decide) nRank (by decide)
    "e" nResE (some ["d"]) none rfl rfl

end Braided
